import Mathlib

/-!
Verification of the hroute HTTP router: a shallow embedding of the
pattern compiler (pattern.go), the route tree (node, addStaticPrefix,
lookup, getValue), the method table (entryForMethod, setHandler) and the
redirect resolver (Router.HandlerToUse, Router.slashRedirect), together
with theorems settling the specification claims.

Go strings are modelled as lists of characters; Go slicing s[i:] and
s[:i] become List.drop and List.take.  Fallible operations (Go panics
and error returns) become Option / Except values.
-/

namespace Hroute

/-- Paths, methods and parameter values: Go strings as character lists. -/
abbrev Str := List Char

/-- Converts a Lean string literal to the character-list representation. -/
def S (s : String) : Str := s.toList

/-- A single path parameter: key and value (Go type Param with fields
Key, Value). -/
abbrev Param := Str × Str

/-- An ordered parameter list (Go type Params). -/
abbrev Params := List Param

/-- commonPrefix from the tree source: the longest common prefix of two
strings (the Go loop swaps to put the shorter first and scans for the
first mismatching byte). -/
def commonPref : Str → Str → Str
  | [], _ => []
  | _, [] => []
  | a :: as, b :: bs => if a = b then a :: commonPref as bs else []

/-- pathElem from the tree source: splits the first path element off p.
Go: if i := IndexByte(p, '/'); i >= 0 then (p[:i], p[i:]) else (p, ""). -/
def pathElem : Str → Str × Str
  | [] => ([], [])
  | c :: rest =>
    if c = '/' then ([], c :: rest)
    else (c :: (pathElem rest).1, (pathElem rest).2)

theorem pathElem_append (p : Str) : (pathElem p).1 ++ (pathElem p).2 = p := by
  induction p with
  | nil => rfl
  | cons c rest ih =>
    simp only [pathElem]
    split
    · simp
    · simpa using ih

theorem pathElem_no_slash (p : Str) : '/' ∉ (pathElem p).1 := by
  induction p with
  | nil => simp [pathElem]
  | cons c rest ih =>
    simp only [pathElem]
    split
    · simp
    · next h =>
      simp only [List.mem_cons, not_or]
      exact ⟨fun he => h he.symm, ih⟩

theorem pathElem_snd_len (p : Str) : (pathElem p).2.length ≤ p.length := by
  induction p with
  | nil => simp [pathElem]
  | cons c rest ih =>
    simp only [pathElem]
    split
    · simp
    · simpa using Nat.le_succ_of_le ih

theorem pathElem_snd_lt (p : Str) (h : (pathElem p).1 ≠ []) :
    (pathElem p).2.length < p.length := by
  cases p with
  | nil => simp [pathElem] at h
  | cons c rest =>
    simp only [pathElem] at h ⊢
    split at h
    · simp at h
    · next hc =>
      simp only [if_neg hc]
      exact Nat.lt_succ_of_le (pathElem_snd_len rest)

/-! ### The pattern compiler (pattern.go) -/

/-- A parsed path pattern (Go struct Pattern).  Each non-empty element
of static holds a static run of the path; an empty element is the
placeholder for the variable at vars[i/2].  The staticSize field of the
Go struct is a pure buffer-capacity cache and carries no semantics, so
it is not modelled. -/
structure Pattern where
  static : List Str
  vars : List Str
  catchAll : Bool
deriving DecidableEq

/-- Registration-time failures of ParsePattern.  The Go code returns an
error for all but emptyPathSegment, which is a panic ("unexpected empty
path segment"); both are modelled as errors here. -/
inductive ParseError where
  | notClean
  | noLeadingSlash
  | noSlashBeforeWildcard
  | catchAllNotAtEnd
  | emptyPathSegment
deriving DecidableEq

/-- Splits a path on slashes into its (possibly empty) segments. -/
def splitSlash : Str → List Str
  | [] => [[]]
  | c :: rest =>
    if c = '/' then [] :: splitSlash rest
    else
      match splitSlash rest with
      | [] => [[c]]
      | s :: ss => (c :: s) :: ss

/-- Removes empty and dot segments and resolves dot-dot segments against
the accumulated stack of preceding segments. -/
def resolveSegs : List Str → List Str → List Str
  | [], acc => acc.reverse
  | s :: rest, acc =>
    if s = [] ∨ s = ['.'] then resolveSegs rest acc
    else if s = ['.', '.'] then resolveSegs rest acc.tail
    else resolveSegs rest (s :: acc)

/-- Modelled from the spec: the path-canonicalization utility CleanPath
is not among the provided source files (the spec treats clean(path) as a
given pure function that "normalizes redundant slashes and relative
segments").  This model returns "/" for the empty path, collapses
duplicate slashes, drops "." segments, resolves ".." segments, and
preserves a trailing slash. -/
def cleanPath (p : Str) : Str :=
  if p = [] then ['/']
  else
    let trail := p.getLast? = some '/'
    let segs := resolveSegs (splitSlash p) []
    let core := '/' :: (List.intercalate ['/'] segs)
    if trail ∧ segs ≠ [] then core ++ ['/'] else core

/-- The scanning loop of ParsePattern: repeatedly finds the next ':' or
'*' marker, records the static run before it and the variable after it.
State is (static, vars, catchAll) accumulated so far.  The loop
consumes at least one character per iteration, so it is driven by a
structural fuel counter; ParsePattern supplies length-plus-one fuel,
which a fortiori suffices, and the fuel-exhaustion branch is
unreachable. -/
def parseLoop : Nat → Str → List Str × List Str × Bool →
    Except ParseError (List Str × List Str × Bool)
  | 0, _, _ => .error .emptyPathSegment
  | fuel + 1, p, (static, vars, catchAll) =>
    if p = [] then .ok (static, vars, catchAll)
    else
      match p.findIdx? (fun c => c = ':' || c = '*') with
      | none => .ok (static ++ [p], vars, catchAll)
      | some i =>
        if i = 0 then .error .emptyPathSegment
        else
          let static' := static ++ [p.take i]
          if p.getD (i - 1) ' ' ≠ '/' then .error .noSlashBeforeWildcard
          else
            let q := p.drop i
            match q.findIdx? (fun c => c = '/') with
            | none => .ok (static' ++ [[]], vars ++ [q.tail], q.headD ' ' = '*')
            | some j =>
              if q.headD ' ' = '*' then .error .catchAllNotAtEnd
              else
                let v := (q.take j).tail
                if v.any (fun c => c = ':' || c = '*') then .error .noSlashBeforeWildcard
                else parseLoop fuel (q.drop j) (static' ++ [[]], vars ++ [v], catchAll)

/-- ParsePattern from pattern.go: checks the path is clean and starts
with '/', then runs the scanning loop. -/
def ParsePattern (p : Str) : Except ParseError Pattern :=
  if cleanPath p ≠ p then .error .notClean
  else if p.headD ' ' ≠ '/' then .error .noLeadingSlash
  else
    match parseLoop (p.length + 1) p ([], [], false) with
    | .error e => .error e
    | .ok (st, vs, ca) => .ok ⟨st, vs, ca⟩

/-- Failures of the path builder Pattern.Path (Go messages: "too few
parameters", "empty parameter", "catch-all parameter without / prefix"). -/
inductive PathError where
  | countMismatch
  | emptyParameter
  | missingCatchAllSlash
deriving DecidableEq

/-- The body of the Pattern.Path loop, iterating over the remaining
static elements with i the index of the current element.  A non-empty
element is emitted as is; an empty element is the placeholder for
vals[i/2].  For the final placeholder of a catch-all pattern the value
must start with '/' and is emitted with that slash trimmed; any other
placeholder requires a non-empty value emitted verbatim.  (In Go an
out-of-range vals index would panic; it is guarded by the arity check
in Pattern.path and cannot occur for well-formed patterns.) -/
def pathLoop (catchAll : Bool) (vals : List Str) : Nat → List Str → Except PathError Str
  | _, [] => .ok []
  | i, elem :: rest =>
    if elem ≠ [] then
      (pathLoop catchAll vals (i + 1) rest).map (fun s => elem ++ s)
    else
      let val := vals.getD (i / 2) []
      if rest = [] ∧ catchAll then
        if val.headD ' ' = '/' then
          (pathLoop catchAll vals (i + 1) rest).map (fun s => val.tail ++ s)
        else .error .missingCatchAllSlash
      else if val = [] then .error .emptyParameter
      else (pathLoop catchAll vals (i + 1) rest).map (fun s => val ++ s)

/-- Pattern.Path from pattern.go: interpolates the given parameter
values into the pattern, after checking the arity. -/
def Pattern.path (p : Pattern) (vals : List Str) : Except PathError Str :=
  if vals.length ≠ p.vars.length then .error .countMismatch
  else pathLoop p.catchAll vals 0 p.static

/-- Pattern.Keys from pattern.go. -/
def Pattern.keys (p : Pattern) : List Str := p.vars

/-! ### The route tree (node.go part of the source) -/

/-- One handler registration at a node (Go struct handlerEntry): the
method it was registered for ("*" serves all methods not registered
specifically), the handler, and the pattern used to register it.
Handlers are abstract values of type H. -/
structure HandlerEntry (H : Type) where
  method : Str
  handler : H
  pattern : Pattern

/-- One node of the prefix tree (Go struct node).  The Go parallel
slices firstBytes and child are fused into one association list of
(first byte, child) pairs; the child node's path does not include the
byte held in the pair. -/
inductive Node (H : Type) : Type where
  | mk (path : Str) (children : List (Char × Node H)) (wild : Option (Node H))
      (catchAll : Option (Node H)) (handlers : List (HandlerEntry H))

def Node.path : Node H → Str
  | .mk p _ _ _ _ => p

def Node.children : Node H → List (Char × Node H)
  | .mk _ c _ _ _ => c

def Node.wild : Node H → Option (Node H)
  | .mk _ _ w _ _ => w

def Node.catchAll : Node H → Option (Node H)
  | .mk _ _ _ ca _ => ca

def Node.handlers : Node H → List (HandlerEntry H)
  | .mk _ _ _ _ hs => hs

/-- node.entryForMethod: the first entry whose method is "*" or the
requested method. -/
def entryFor : List (HandlerEntry H) → Str → Option (HandlerEntry H)
  | [], _ => none
  | e :: rest, m => if e.method = ['*'] ∨ e.method = m then some e else entryFor rest m

def Node.entryForMethod (n : Node H) (m : Str) : Option (HandlerEntry H) :=
  entryFor n.handlers m

/-- Swaps the last two elements of a list (the Go swap of
handlers[hlen-2] and handlers[hlen-1]). -/
def swapLastTwo : List α → List α
  | [] => []
  | [a] => [a]
  | [a, b] => [b, a]
  | a :: rest => a :: swapLastTwo rest

/-- node.setHandler on the handlers list: panics (None) when an entry
with exactly this method already exists; otherwise appends the new
entry, and when the matching old entry was the wildcard-method entry,
swaps the last two entries so that "*" stays at the end of the slice. -/
def setHandlers (hs : List (HandlerEntry H)) (m : Str) (h : H) (pat : Pattern) :
    Option (List (HandlerEntry H)) :=
  match entryFor hs m with
  | some e =>
    if e.method = m then none
    else some (swapLastTwo (hs ++ [⟨m, h, pat⟩]))
  | none => some (hs ++ [⟨m, h, pat⟩])

def Node.setHandler : Node H → Str → H → Pattern → Option (Node H)
  | .mk p ch w ca hs, m, h, pat =>
    (setHandlers hs m h pat).map (fun hs' => .mk p ch w ca hs')

/-- First child whose recorded first byte equals b (the Go linear scan
over firstBytes). -/
def findChild : List (Char × Node H) → Char → Option (Node H)
  | [], _ => none
  | (c, n) :: rest, b => if c = b then some n else findChild rest b

/-- Replaces the first child recorded for byte b. -/
def replaceChild : List (Char × Node H) → Char → Node H → List (Char × Node H)
  | [], _, _ => []
  | (c, n) :: rest, b, n' =>
    if c = b then (c, n') :: rest else (c, n) :: replaceChild rest b n'

def Node.withChildren : Node H → List (Char × Node H) → Node H
  | .mk p _ w ca hs, ch => .mk p ch w ca hs

def Node.withWild : Node H → Option (Node H) → Node H
  | .mk p ch _ ca hs, w => .mk p ch w ca hs

def Node.withCatchAll : Node H → Option (Node H) → Node H
  | .mk p ch w _ hs, ca => .mk p ch w ca hs

/-- The node produced by the split step of addStaticPrefix when the
node's own path is longer than the common prefix: a node holding just
the common prefix whose single child keeps the former remainder and
all former children, wildcards and handlers. -/
def splitNode (n : Node H) (common : Str) : Node H :=
  match n.path.drop common.length with
  | [] => n
  | c :: rest =>
    .mk common [(c, .mk rest n.children n.wild n.catchAll n.handlers)] none none []

/-- The combined remaining work of an insertion: the current static
prefix plus every remaining static element (placeholders included).
Each recursive call of addStaticPrefix strictly decreases it. -/
def insWeight (pfx : Str) (pat : Pattern) : Nat :=
  pfx.length + (pat.static.map (fun s => s.length + 1)).sum

/-- node.addStaticPrefix: adds a route under the given static prefix.
pat holds the remaining pattern elements (its static list is either
empty or starts with an empty placeholder element); origPat is the
full pattern being registered.  Returns None exactly where the Go code
panics with "duplicate route".  The Go code appends a fresh child and
then recurses into it in place; here the recursion happens on the
fresh node before it is appended, which yields the same child list.
The recursion is driven by a structural fuel counter; every call site
supplies at least insWeight-plus-one fuel, which suffices because each
recursive call strictly decreases insWeight, so the fuel-exhaustion
branch is unreachable. -/
def addStaticPref : Nat → Node H → Str → Pattern → Str → H → Pattern → Option (Node H)
  | 0, _, _, _, _, _, _ => none
  | fuel + 1, n, pfx, pat, m, h, origPat =>
    let common := commonPref pfx n.path
    let n' := if common.length < n.path.length then splitNode n common else n
    if common.length < pfx.length then
      match pfx.drop common.length with
      | [] => none
      | b :: rest =>
        match findChild n'.children b with
        | some child =>
          match addStaticPref fuel child rest pat m h origPat with
          | none => none
          | some child' => some (n'.withChildren (replaceChild n'.children b child'))
        | none =>
          match addStaticPref fuel (.mk rest [] none none []) rest pat m h origPat with
          | none => none
          | some fresh => some (n'.withChildren (n'.children ++ [(b, fresh)]))
    else
      match pat.static with
      | [] => n'.setHandler m h origPat
      | _ :: staticRest =>
        let isCatch := pat.static.length = 1 ∧ pat.catchAll
        let w := (if isCatch then n'.catchAll else n'.wild).getD (.mk [] [] none none [])
        match staticRest with
        | [] =>
          match w.setHandler m h origPat with
          | none => none
          | some w' =>
            some (if isCatch then n'.withCatchAll (some w') else n'.withWild (some w'))
        | nextPfx :: staticRest' =>
          match addStaticPref fuel w nextPfx
              { static := staticRest', vars := pat.vars, catchAll := pat.catchAll }
              m h origPat with
          | none => none
          | some w' =>
            some (if isCatch then n'.withCatchAll (some w') else n'.withWild (some w'))

/-- node.addRoute: splits off the first static element of the pattern
and inserts.  (On an empty static list the Go indexing would panic;
parsed patterns always have a non-empty static list.) -/
def addRoute (n : Node H) (pat : Pattern) (m : Str) (h : H) : Option (Node H) :=
  match pat.static with
  | [] => none
  | pfx :: rest =>
    let pat' : Pattern := { static := rest, vars := pat.vars, catchAll := pat.catchAll }
    addStaticPref (insWeight pfx pat' + 1) n pfx pat' m h pat

/-! ### The matcher (node.lookup, node.getValue) -/

/-- The fallback that ends node.lookup: when a catch-all node was
remembered during the descent, its captured value is the tail of the
original path starting one byte before the remembered suffix (so it
includes the separating '/'); with no remembered catch-all the result
is (nil, nil). -/
def lookupFall (origPath : Str) : Option (Node H × Str × Params) → Option (Node H) × Params
  | none => (none, [])
  | some (ca, caPath, caParams) =>
    (some ca, caParams ++ [([], origPath.drop (origPath.length - caPath.length - 1))])

/-- The catch-all memo update in the lookup loop: every time the
descent passes through a node owning a catchAll child (with path still
to consume), that child is remembered together with the remaining path
suffix and the parameters collected so far. -/
def rememberCA (n : Node H) (rest : Str) (params : Params)
    (ca : Option (Node H × Str × Params)) : Option (Node H × Str × Params) :=
  match n.catchAll with
  | some c => some (c, rest, params)
  | none => ca

/-- The main loop of node.lookup.  At each node the stored path segment
is consumed as a literal prefix of the remaining path (failing breaks
the descent); an exhausted path returns the current node; otherwise a
catch-all child, if any, is remembered together with the remaining path
and the parameters so far; then an exact first-byte child match is
tried, then the single-segment wildcard.  Parameter values are
collected with empty keys (names are filled in by getValue). -/
def lookupGo (origPath : Str) : Nat → Node H → Str → Params →
    Option (Node H × Str × Params) → Option (Node H) × Params
  | 0, _, _, _, ca => lookupFall origPath ca
  | fuel + 1, n, path, params, ca =>
    if path.length < n.path.length then lookupFall origPath ca
    else if path.take n.path.length ≠ n.path then lookupFall origPath ca
    else
      match path.drop n.path.length with
      | [] => (some n, params)
      | b :: rest =>
        let ca' := rememberCA n (b :: rest) params ca
        match findChild n.children b with
        | some child => lookupGo origPath fuel child rest params ca'
        | none =>
          match n.wild with
          | none => lookupFall origPath ca'
          | some w =>
            match pathElem (b :: rest) with
            | (elem, r) =>
              if elem = [] then lookupFall origPath ca'
              else lookupGo origPath fuel w r (params ++ [([], elem)]) ca'

/-- node.lookup from the tree source.  Every loop iteration consumes at
least one character of the remaining path, so length-plus-one fuel
suffices and the fuel-exhaustion branch of the loop is unreachable. -/
def Node.lookup (n : Node H) (path : Str) : Option (Node H) × Params :=
  lookupGo path (path.length + 1) n path [] none

/-- Fills parameter keys positionally from the matched entry's pattern
(the Go loop params[i].Key = key over entry.pattern.Keys(); keys beyond
the collected values would panic in Go and cannot occur for reachable
trees). -/
def assignKeys : List Str → Params → Params
  | _, [] => []
  | [], p :: ps => p :: assignKeys [] ps
  | k :: ks, (_, v) :: ps => (k, v) :: assignKeys ks ps

/-- The tail of node.getValue once an entry has been chosen: with no
collected parameters the Go code returns nil params; otherwise the keys
of the entry's pattern are filled in. -/
def finishValue (entry : HandlerEntry H) (params : Params) (found : Node H) :
    Option H × Params × Option Pattern × Option (Node H) :=
  if params = [] then (some entry.handler, [], some entry.pattern, some found)
  else (some entry.handler, assignKeys entry.pattern.vars params, some entry.pattern, some found)

/-- node.getValue: looks up the path, resolves the method at the found
node, and falls back to the found node's catch-all child (appending a
synthetic "/" value) when the node itself has no matching entry.  The
four results are handler, parameters, pattern and found node. -/
def Node.getValue (root : Node H) (m path : Str) :
    Option H × Params × Option Pattern × Option (Node H) :=
  match root.lookup path with
  | (none, _) => (none, [], none, none)
  | (some found, params) =>
    match found.entryForMethod m with
    | some entry => finishValue entry params found
    | none =>
      match found.catchAll with
      | none => (none, [], none, some found)
      | some caChild =>
        match caChild.entryForMethod m with
        | none => (none, [], none, some found)
        | some entry => finishValue entry (params ++ [([], ['/'])]) found

/-! ### The router and the redirect resolver (route source file) -/

/-- The handlers HandlerToUse can produce: a registered handler, the
not-found and method-not-allowed responders, or a redirect responder
carrying a target path and status code (handlers.go pseudo-handlers). -/
inductive RHandler (H : Type) where
  | user : H → RHandler H
  | notFound : RHandler H
  | methodNotAllowed : RHandler H
  | redirect : Str → Nat → RHandler H
deriving DecidableEq

/-- The router: the tree root plus the configured not-found and
method-not-allowed handlers.  The maxParams field of the Go struct only
pre-sizes parameter buffers and carries no semantics, so it is not
modelled. -/
structure Router (H : Type) where
  root : Node H
  notFound : RHandler H
  methodNotAllowed : RHandler H

/-- New(): a router whose root node has path "/" and whose fallback
handlers are the defaults. -/
def newRouter (H : Type) : Router H :=
  ⟨.mk ['/'] [] none none [], .notFound, .methodNotAllowed⟩

/-- Router.Handle: parse the pattern and add the route; None where the
Go code panics (invalid pattern or duplicate route). -/
def Router.handle (r : Router H) (m pattern : Str) (h : H) : Option (Router H) :=
  match ParsePattern pattern with
  | .error _ => none
  | .ok pat =>
    match addRoute r.root pat m h with
    | none => none
    | some root' => some ⟨root', r.notFound, r.methodNotAllowed⟩

/-- Router.slashRedirect: toggles the trailing slash and re-runs the
lookup; the toggled path is returned when the lookup finds a node with
an entry for the method. -/
def Router.slashRedirect (r : Router H) (m path : Str) : Option Str :=
  let path' := if path.getLast? = some '/' then path.dropLast else path ++ ['/']
  match (r.root.lookup path').1 with
  | none => none
  | some n => if (n.entryForMethod m).isSome then some path' else none

/-- http.StatusMovedPermanently. -/
def statusMovedPermanently : Nat := 301

/-- http.StatusTemporaryRedirect. -/
def statusTemporaryRedirect : Nat := 307

/-- Router.HandlerToUse: returns the handler for the method and path,
never nil.  Order of checks: a found handler; method-not-allowed when
the found node has entries (for other methods); not-found for CONNECT
or the root path; a redirect to the cleaned path when the path is not
clean; a trailing-slash redirect; otherwise not-found.  The redirect
code is 301 (permanent) for GET and 307 (temporary, method-preserving)
otherwise. -/
def Router.handlerToUse (r : Router H) (m path : Str) :
    RHandler H × Params × Option Pattern :=
  match r.root.getValue m path with
  | (some h, p, pat, _) => (.user h, p, pat)
  | (none, _, _, nodeOpt) =>
    let hasOther : Bool := match nodeOpt with
      | some n => !n.handlers.isEmpty
      | none => false
    if hasOther then (r.methodNotAllowed, [], none)
    else if m = S "CONNECT" ∨ path = ['/'] then (r.notFound, [], none)
    else
      let code := if m = S "GET" then statusMovedPermanently else statusTemporaryRedirect
      if cleanPath path ≠ path then (.redirect (cleanPath path) code, [], none)
      else
        match r.slashRedirect m path with
        | some rp => (.redirect rp code, [], none)
        | none => (r.notFound, [], none)

/-! ### Concrete registration helper -/

/-- Registers a list of (method, pattern string) routes in order on a
fresh root node (path "/", as built by New()), using the position in
the list as the handler; None when parsing fails or a route is a
duplicate. -/
def regAll (rs : List (Str × Str)) : Option (Node Nat) :=
  rs.enum.foldlM
    (fun n ir =>
      match ParsePattern ir.2.2 with
      | .error _ => none
      | .ok pat => addRoute n pat ir.2.1 ir.1)
    (Node.mk ['/'] [] none none [])

/-- The observable result of a lookup: the handler and the parameters
returned by getValue. -/
def lookupResult (n : Node H) (m p : Str) : Option H × Params :=
  ((n.getValue m p).1, (n.getValue m p).2.1)

/-- The found-node component of getValue. -/
def foundNode (n : Node H) (m p : Str) : Option (Node H) :=
  (n.getValue m p).2.2.2

/-- One unfolding step of the lookup loop: whenever an exact static
child matches the first remaining byte, the descent takes it —
regardless of any wildcard child — remembering a catch-all child first. -/
theorem lookup_child_step (origPath : Str) (fuel : Nat) (n : Node H) (path : Str)
    (params : Params) (ca : Option (Node H × Str × Params)) (b : Char) (rest : Str)
    (child : Node H)
    (hlen : ¬ path.length < n.path.length)
    (hpref : path.take n.path.length = n.path)
    (hdrop : path.drop n.path.length = b :: rest)
    (hchild : findChild n.children b = some child) :
    lookupGo origPath (fuel + 1) n path params ca =
      lookupGo origPath fuel child rest params (rememberCA n (b :: rest) params ca) := by
  simp only [lookupGo, if_neg hlen, hpref, ne_eq, not_true_eq_false, if_false, hdrop, hchild]

/-- C1: with /:foo/bar/baz and /:foo/:x/baz registered, /x/bar/baz
resolves to the first handler with params exactly {foo: x}, and
/y/floof/baz resolves to the second with params {foo: y}, {x: floof};
and in general, at any node of any descent, an exact static child
whose first byte matches is taken in preference to the wildcard child
(the step descends into the matching child whatever the wildcard is). -/
theorem static_child_beats_wildcard :
    ((regAll [(S "GET", S "/:foo/bar/baz"), (S "GET", S "/:foo/:x/baz")]).map
        (fun n => (lookupResult n (S "GET") (S "/x/bar/baz"),
                   lookupResult n (S "GET") (S "/y/floof/baz"))) =
      some ((some 0, [(S "foo", S "x")]),
            (some 1, [(S "foo", S "y"), (S "x", S "floof")]))) ∧
    ∀ (H : Type) (origPath : Str) (fuel : Nat) (n : Node H) (path : Str)
      (params : Params) (ca : Option (Node H × Str × Params)) (b : Char) (rest : Str)
      (child : Node H) (w : Option (Node H)),
      ¬ path.length < n.path.length →
      path.take n.path.length = n.path →
      path.drop n.path.length = b :: rest →
      findChild n.children b = some child →
      lookupGo origPath (fuel + 1) (n.withWild w) path params ca =
        lookupGo origPath fuel child rest params
          (rememberCA (n.withWild w) (b :: rest) params ca) := by
  refine ⟨by rfl, ?_⟩
  intro H origPath fuel n path params ca b rest child w hlen hpref hdrop hchild
  have hp : (n.withWild w).path = n.path := by cases n; rfl
  have hc : (n.withWild w).children = n.children := by cases n; rfl
  exact lookup_child_step origPath fuel (n.withWild w) path params ca b rest child
    (by rw [hp]; exact hlen) (by rw [hp]; exact hpref) (by rw [hp]; exact hdrop)
    (by rw [hc]; exact hchild)

/-- C1 witness: the general step applied at a concrete node holding a
static child for byte b and a wildcard child, on path "b". -/
theorem static_child_beats_wildcard_witness :
    lookupGo [] 1
      (((Node.mk [] [('b', Node.mk [] [] none none [])] none none []) :
          Node Nat).withWild (some (Node.mk [] [] none none [])))
      ['b'] [] none =
      lookupGo [] 0 ((Node.mk [] [] none none []) : Node Nat) [] []
        (rememberCA
          (((Node.mk [] [('b', Node.mk [] [] none none [])] none none []) :
              Node Nat).withWild (some (Node.mk [] [] none none [])))
          ['b'] [] none) :=
  static_child_beats_wildcard.2 Nat [] 0
    (Node.mk [] [('b', Node.mk [] [] none none [])] none none []) ['b']
    [] none 'b' [] (Node.mk [] [] none none []) (some (Node.mk [] [] none none []))
    (by simp [Node.path]) (by simp [Node.path]) (by simp [Node.path])
    (by simp [findChild])

/-- C2: lookup never backtracks: with exactly /a/b/c and /a/:x/d
registered, looking up /a/b/d reports not found — no handler and no
found node at all (while the control lookups /a/b/c and /a/xx/d do
resolve, showing both routes are live). -/
theorem no_backtracking :
    (regAll [(S "GET", S "/a/b/c"), (S "GET", S "/a/:x/d")]).map
        (fun n => (lookupResult n (S "GET") (S "/a/b/d"),
                   foundNode n (S "GET") (S "/a/b/d") |>.isSome,
                   lookupResult n (S "GET") (S "/a/b/c"),
                   lookupResult n (S "GET") (S "/a/xx/d"))) =
      some ((none, []), false, (some 0, []), (some 1, [(S "x", S "xx")])) := by rfl

/-- C3: the catch-all fallback captures the path suffix including the
separating slash: for any original path of the form pre ++ '/' ::
suffix with (node, suffix, params) remembered, the fallback returns
that node and appends the value '/' :: suffix; and concretely, with
/*foo and /:bar registered, /arble/something gives the catch-all
handler with {foo: /arble/something}, /arble gives the wildcard
handler with {bar: arble}, and / gives the catch-all handler with
{foo: /} (the synthetic slash-only value added by getValue when the
found node itself has no entry but its catch-all child does). -/
theorem catchall_value_includes_slash :
    (∀ (H : Type) (pre suffix : Str) (c : Node H) (ps : Params),
      lookupFall (pre ++ '/' :: suffix) (some (c, suffix, ps)) =
        (some c, ps ++ [([], '/' :: suffix)])) ∧
    ((regAll [(S "GET", S "/*foo"), (S "GET", S "/:bar")]).map
        (fun n => (lookupResult n (S "GET") (S "/arble/something"),
                   lookupResult n (S "GET") (S "/arble"),
                   lookupResult n (S "GET") (S "/"))) =
      some ((some 0, [(S "foo", S "/arble/something")]),
            (some 1, [(S "bar", S "arble")]),
            (some 0, [(S "foo", S "/")]))) := by
  refine ⟨?_, by rfl⟩
  intro H pre suffix c ps
  simp only [lookupFall]
  congr 2
  have hlen : (pre ++ '/' :: suffix).length = pre.length + (suffix.length + 1) := by
    simp [List.length_append]
  rw [hlen]
  have : pre.length + (suffix.length + 1) - suffix.length - 1 = pre.length := by omega
  rw [this]
  rw [List.drop_append_of_le_length (le_refl pre.length)]
  simp

/-- Registers a list of (method, pattern string) routes in order on a
fresh router via Handle, using the list position as the handler. -/
def regRouter (rs : List (Str × Str)) : Option (Router Nat) :=
  rs.enum.foldlM (fun r ir => r.handle ir.2.1 ir.2.2 ir.1) (newRouter Nat)

/-- C7 counterexample: with /foo/bar/ and /foo/barfle registered (GET),
looking up GET /foo/bar reaches an existing node with zero handlers,
yet the resolver returns a trailing-slash redirect — not the configured
not-found handler as the claim states. -/
theorem notfound_on_empty_node_counterexample :
    ((regRouter [(S "GET", S "/foo/bar/"), (S "GET", S "/foo/barfle")]).map
      (fun r =>
        ((r.root.getValue (S "GET") (S "/foo/bar")).1,
         (foundNode r.root (S "GET") (S "/foo/bar")).map (fun n => n.handlers.length),
         (r.handlerToUse (S "GET") (S "/foo/bar")).1)) =
      some (none, some 0, .redirect (S "/foo/bar/") 301)) ∧
    RHandler.redirect (S "/foo/bar/") 301 ≠ (RHandler.notFound : RHandler Nat) := by
  exact ⟨by rfl, by simp⟩

/-- C7 amended: when lookup reaches an existing node with zero handlers
for any method, the resolver never returns method-not-allowed or a
registered handler: it returns either the configured not-found handler
or a redirect, and its exact result is characterized: the not-found
handler when the method is CONNECT or the path is the root; otherwise
a redirect to the cleaned path when the path is not clean; otherwise a
trailing-slash redirect when the toggled path resolves for the method;
otherwise — and only then — the configured not-found handler. -/
theorem notfound_on_empty_node_amended (H : Type) (r : Router H) (m path : Str)
    (n : Node H)
    (hgv : r.root.getValue m path = (none, [], none, some n))
    (hn : n.handlers = []) :
    ((r.handlerToUse m path).1 = r.notFound ∨
      ∃ tp c, (r.handlerToUse m path).1 = .redirect tp c) ∧
    (r.handlerToUse m path =
      if (m = S "CONNECT" ∨ path = ['/']) then (r.notFound, [], none)
      else if cleanPath path ≠ path then
        (.redirect (cleanPath path)
          (if m = S "GET" then statusMovedPermanently else statusTemporaryRedirect),
          [], none)
      else
        match r.slashRedirect m path with
        | some rp =>
          (.redirect rp
            (if m = S "GET" then statusMovedPermanently else statusTemporaryRedirect),
            [], none)
        | none => (r.notFound, [], none)) := by
  have hne : (r.handlerToUse m path) = (
      if (m = S "CONNECT" ∨ path = ['/']) then (r.notFound, [], none)
      else if cleanPath path ≠ path then
        (.redirect (cleanPath path)
          (if m = S "GET" then statusMovedPermanently else statusTemporaryRedirect),
          [], none)
      else
        match r.slashRedirect m path with
        | some rp =>
          (.redirect rp
            (if m = S "GET" then statusMovedPermanently else statusTemporaryRedirect),
            [], none)
        | none => (r.notFound, [], none)) := by
    unfold Router.handlerToUse
    rw [hgv]
    simp [hn]
  constructor
  · rw [hne]
    by_cases hc : m = S "CONNECT" ∨ path = ['/']
    · rw [if_pos hc]; exact Or.inl rfl
    · rw [if_neg hc]
      by_cases hcl : cleanPath path ≠ path
      · rw [if_pos hcl]; exact Or.inr ⟨_, _, rfl⟩
      · rw [if_neg hcl]
        rcases hsr : r.slashRedirect m path with _ | rp
        · exact Or.inl rfl
        · exact Or.inr ⟨_, _, rfl⟩
  · exact hne

/-- C7 amended witness: applied to the /foo/bar/ plus /foo/barfle
router with method PUT (for which the toggled path has no handler),
yielding the not-found handler. -/
theorem notfound_on_empty_node_amended_witness :
    (((regRouter [(S "GET", S "/foo/bar/"), (S "GET", S "/foo/barfle")]).getD
        (newRouter Nat)).handlerToUse (S "PUT") (S "/foo/bar")).1 =
        ((regRouter [(S "GET", S "/foo/bar/"), (S "GET", S "/foo/barfle")]).getD
          (newRouter Nat)).notFound ∨
      ∃ tp c, (((regRouter [(S "GET", S "/foo/bar/"), (S "GET", S "/foo/barfle")]).getD
        (newRouter Nat)).handlerToUse (S "PUT") (S "/foo/bar")).1 = .redirect tp c :=
  (notfound_on_empty_node_amended Nat
    ((regRouter [(S "GET", S "/foo/bar/"), (S "GET", S "/foo/barfle")]).getD
      (newRouter Nat))
    (S "PUT") (S "/foo/bar")
    ((foundNode ((regRouter [(S "GET", S "/foo/bar/"),
        (S "GET", S "/foo/barfle")]).getD (newRouter Nat)).root
      (S "PUT") (S "/foo/bar")).getD (Node.mk [] [] none none []))
    (by rfl) (by rfl)).1

/-- C8: when the lookup failed, the found node (if any) has no
handlers, the method is not CONNECT, the path is not the root and is
already clean, and the trailing-slash re-lookup finds a node with an
entry for the method, the resolver redirects to the toggled path
(append the slash if absent, strip it if present), with the permanent
code 301 for GET and the temporary method-preserving code 307
otherwise; concretely, with only /foo/bar/ registered, GET /foo/bar
redirects to /foo/bar/ with code 301. -/
theorem trailing_slash_redirect :
    (∀ (H : Type) (r : Router H) (m path rp : Str),
      (r.root.getValue m path).1 = none →
      (∀ n, (r.root.getValue m path).2.2.2 = some n → n.handlers = []) →
      ¬ (m = S "CONNECT" ∨ path = ['/']) →
      cleanPath path = path →
      r.slashRedirect m path = some rp →
      rp = (if path.getLast? = some '/' then path.dropLast else path ++ ['/']) ∧
      r.handlerToUse m path =
        (.redirect rp (if m = S "GET" then statusMovedPermanently
          else statusTemporaryRedirect), [], none)) ∧
    ((regRouter [(S "GET", S "/foo/bar/")]).map
        (fun r => r.handlerToUse (S "GET") (S "/foo/bar")) =
      some (.redirect (S "/foo/bar/") 301, [], none)) := by
  refine ⟨?_, by rfl⟩
  intro H r m path rp h1 h2 hc hclean hsr
  constructor
  · have h' : (match (r.root.lookup (if path.getLast? = some '/' then path.dropLast
          else path ++ ['/'])).1 with
        | none => none
        | some n =>
          if (n.entryForMethod m).isSome then
            some (if path.getLast? = some '/' then path.dropLast else path ++ ['/'])
          else none) = some rp := hsr
    rcases hlk : (r.root.lookup (if path.getLast? = some '/' then path.dropLast
        else path ++ ['/'])).1 with _ | n
    · rw [hlk] at h'; cases h'
    · rw [hlk] at h'
      have h'' : (if (n.entryForMethod m).isSome then
          some (if path.getLast? = some '/' then path.dropLast else path ++ ['/'])
          else none) = some rp := h'
      by_cases he : (n.entryForMethod m).isSome
      · rw [if_pos he] at h''
        exact (Option.some_inj.mp h'').symm
      · rw [if_neg he] at h''; cases h''
  · unfold Router.handlerToUse
    rcases hgv : r.root.getValue m path with ⟨oh, pp, pt, nodeOpt⟩
    rw [hgv] at h1 h2
    simp only at h1
    subst h1
    rcases nodeOpt with _ | n
    · simp only [if_neg hc, hclean, ne_eq, not_true_eq_false, if_false, hsr,
        Bool.false_eq_true]
    · have hn : n.handlers = [] := h2 n rfl
      simp only [hn, List.isEmpty_nil, Bool.not_true, Bool.false_eq_true, if_false,
        if_neg hc, hclean, ne_eq, not_true_eq_false, hsr]

/-- C8 witness: the general statement applied to the /foo/bar/ router
at GET /foo/bar. -/
theorem trailing_slash_redirect_witness :
    S "/foo/bar/" =
      (if (S "/foo/bar").getLast? = some '/' then (S "/foo/bar").dropLast
        else S "/foo/bar" ++ ['/']) ∧
    ((regRouter [(S "GET", S "/foo/bar/")]).getD (newRouter Nat)).handlerToUse
        (S "GET") (S "/foo/bar") =
      (.redirect (S "/foo/bar/") (if S "GET" = S "GET" then statusMovedPermanently
        else statusTemporaryRedirect), [], none) :=
  trailing_slash_redirect.1 Nat
    ((regRouter [(S "GET", S "/foo/bar/")]).getD (newRouter Nat))
    (S "GET") (S "/foo/bar") (S "/foo/bar/")
    (by rfl) (by intro n hn; cases hn) (by simp [S])
    (by rfl) (by rfl)

/-! ### Well-formed patterns and the path builder's value -/

/-- Well-formedness of the tail of a pattern's static list after the
leading static run, with the number of remaining variables and the
catch-all flag: placeholders (empty elements) alternate with non-empty
static runs that start with '/', a static run followed by another
placeholder ends with '/', a pattern ending in a static run is not
catch-all, and the variable count matches the placeholder count.
These are the documented invariants of parsed patterns. -/
def wfSegsB : List Str → Nat → Bool → Bool
  | [], k, ca => decide (k = 0) && !ca
  | [e], k, _ => decide (e = []) && decide (k = 1)
  | e :: s :: rest, k, ca =>
    decide (e = []) && decide (s ≠ []) && decide (s.headD ' ' = '/') &&
    (rest.isEmpty || decide (s.getLast? = some '/')) &&
    (match k with
     | 0 => false
     | k' + 1 => wfSegsB rest k' ca)

/-- Well-formedness of a whole pattern: the static list starts with a
non-empty run beginning with '/' (ending with '/' when a placeholder
follows), and the tail is well-formed. -/
def wfB (p : Pattern) : Bool :=
  match p.static with
  | [] => false
  | s0 :: tail =>
    decide (s0 ≠ []) && decide (s0.headD ' ' = '/') &&
    (tail.isEmpty || decide (s0.getLast? = some '/')) &&
    wfSegsB tail p.vars.length p.catchAll

/-- The value built by a successful Pattern.Path run: the static
elements with each placeholder replaced by the corresponding value,
spliced verbatim except that the final catch-all value loses its
leading slash. -/
def splice (catchAll : Bool) (vals : List Str) : Nat → List Str → Str
  | _, [] => []
  | i, elem :: rest =>
    if elem ≠ [] then elem ++ splice catchAll vals (i + 1) rest
    else
      if rest = [] ∧ catchAll then
        (vals.getD (i / 2) []).tail ++ splice catchAll vals (i + 1) rest
      else (vals.getD (i / 2) []) ++ splice catchAll vals (i + 1) rest

/-- A successful pathLoop run returns exactly the spliced value. -/
theorem pathLoop_ok (ca : Bool) (vals : List Str) :
    ∀ (st : List Str) (i : Nat) (s : Str), pathLoop ca vals i st = .ok s →
      s = splice ca vals i st := by
  intro st
  induction st with
  | nil =>
    intro i s h
    simp only [pathLoop] at h
    cases h
    rfl
  | cons elem rest ih =>
    intro i s h
    simp only [pathLoop] at h
    simp only [splice]
    by_cases he : elem ≠ []
    · rw [if_pos he] at h ⊢
      cases hrec : pathLoop ca vals (i + 1) rest with
      | error e => rw [hrec] at h; cases h
      | ok s' =>
        rw [hrec] at h
        cases h
        rw [ih (i + 1) s' hrec]
    · rw [if_neg he] at h ⊢
      by_cases hlast : rest = [] ∧ ca
      · rw [if_pos hlast] at h ⊢
        by_cases hsl : (vals.getD (i / 2) []).headD ' ' = '/'
        · rw [if_pos hsl] at h
          cases hrec : pathLoop ca vals (i + 1) rest with
          | error e => rw [hrec] at h; cases h
          | ok s' =>
            rw [hrec] at h
            cases h
            rw [ih (i + 1) s' hrec]
        · rw [if_neg hsl] at h
          cases h
      · rw [if_neg hlast] at h ⊢
        by_cases hv : vals.getD (i / 2) [] = []
        · rw [if_pos hv] at h
          cases h
        · rw [if_neg hv] at h
          cases hrec : pathLoop ca vals (i + 1) rest with
          | error e => rw [hrec] at h; cases h
          | ok s' =>
            rw [hrec] at h
            cases h
            rw [ih (i + 1) s' hrec]

theorem map_ok_iff (f : Str → Str) (x : Except PathError Str) :
    (∃ s, x.map f = .ok s) ↔ (∃ s, x = .ok s) := by
  cases x with
  | error e => simp [Except.map]
  | ok v => simp [Except.map]

theorem wfSegs_ca_pos : ∀ (tail : List Str) (j : Nat),
    wfSegsB tail j true = true → 1 ≤ j
  | [], j, hwf => by simp [wfSegsB] at hwf
  | [e], j, hwf => by
    simp only [wfSegsB, Bool.and_eq_true, decide_eq_true_eq] at hwf
    omega
  | e :: s :: rest, j, hwf => by
    simp only [wfSegsB, Bool.and_eq_true, decide_eq_true_eq] at hwf
    rcases j with _ | j'
    · simp at hwf
    · omega

/-- The success conditions for the remaining values: the non-final
values in range are non-empty; the final value starts with '/' for a
catch-all pattern and is non-empty otherwise. -/
def valsOk (ca : Bool) (vals : List Str) (k j : Nat) : Prop :=
  (∀ idx, k ≤ idx → idx + 1 < k + j → vals.getD idx [] ≠ []) ∧
  (ca = true → (vals.getD (k + j - 1) []).headD ' ' = '/') ∧
  (ca = false → 1 ≤ j → vals.getD (k + j - 1) [] ≠ [])

/-- Success of the pathLoop over a well-formed static tail starting at
placeholder index 2k+1: it succeeds exactly when each non-catch-all
value in range is non-empty and the catch-all value (the last one)
starts with '/'. -/
theorem pathLoop_segs_iff (ca : Bool) (vals : List Str) :
    ∀ (tail : List Str) (j k : Nat), wfSegsB tail j ca = true →
      ((∃ s, pathLoop ca vals (2 * k + 1) tail = .ok s) ↔ valsOk ca vals k j)
  | [], j, k, hwf => by
    simp only [wfSegsB, Bool.and_eq_true, decide_eq_true_eq, Bool.not_eq_true'] at hwf
    obtain ⟨hj, hca⟩ := hwf
    subst hj hca
    simp only [pathLoop, valsOk]
    constructor
    · intro _
      refine ⟨fun idx h1 h2 => ?_, (fun h => nomatch h), fun _ h => ?_⟩
      · exact absurd h2 (by omega)
      · exact absurd h (by omega)
    · intro _
      exact ⟨[], rfl⟩
  | [e], j, k, hwf => by
    simp only [wfSegsB, Bool.and_eq_true, decide_eq_true_eq] at hwf
    obtain ⟨he, hj⟩ := hwf
    subst he hj
    have hi2 : (2 * k + 1) / 2 = k := by omega
    have hk1 : k + 1 - 1 = k := by omega
    simp only [valsOk, hk1]
    cases ca with
    | false =>
      have heq : pathLoop false vals (2 * k + 1) [[]] =
          (if vals.getD ((2 * k + 1) / 2) [] = [] then .error .emptyParameter
            else .ok (vals.getD ((2 * k + 1) / 2) [])) := by
        show (if vals.getD ((2 * k + 1) / 2) [] = [] then
            (Except.error .emptyParameter : Except PathError Str)
            else Except.map (fun s => vals.getD ((2 * k + 1) / 2) [] ++ s)
              (pathLoop false vals (2 * k + 1 + 1) [])) = _
        by_cases hv : vals.getD ((2 * k + 1) / 2) [] = []
        · rw [if_pos hv, if_pos hv]
        · rw [if_neg hv, if_neg hv]
          show Except.ok (vals.getD ((2 * k + 1) / 2) [] ++ []) = _
          rw [List.append_nil]
      rw [hi2] at heq
      rw [heq]
      constructor
      · intro hex
        refine ⟨fun idx h1 h2 => ?_, (fun h => nomatch h), fun _ _ => ?_⟩
        · exact absurd h2 (by omega)
        · intro hv
          rw [if_pos hv] at hex
          obtain ⟨s, hs⟩ := hex
          cases hs
      · intro ⟨_, _, h3⟩
        rw [if_neg (h3 rfl (le_refl 1))]
        exact ⟨_, rfl⟩
    | true =>
      have heq : pathLoop true vals (2 * k + 1) [[]] =
          (if (vals.getD ((2 * k + 1) / 2) []).headD ' ' = '/' then
            .ok (vals.getD ((2 * k + 1) / 2) []).tail
            else .error .missingCatchAllSlash) := by
        show (if (vals.getD ((2 * k + 1) / 2) []).headD ' ' = '/' then
            Except.map (fun s => (vals.getD ((2 * k + 1) / 2) []).tail ++ s)
              (pathLoop true vals (2 * k + 1 + 1) [])
            else (Except.error .missingCatchAllSlash : Except PathError Str)) = _
        by_cases hsl : (vals.getD ((2 * k + 1) / 2) []).headD ' ' = '/'
        · rw [if_pos hsl, if_pos hsl]
          show Except.ok ((vals.getD ((2 * k + 1) / 2) []).tail ++ []) = _
          rw [List.append_nil]
        · rw [if_neg hsl, if_neg hsl]
      rw [hi2] at heq
      rw [heq]
      constructor
      · intro hex
        refine ⟨fun idx h1 h2 => ?_, fun _ => ?_, (fun h => nomatch h)⟩
        · exact absurd h2 (by omega)
        · by_contra hsl
          rw [if_neg hsl] at hex
          obtain ⟨s, hs⟩ := hex
          cases hs
      · intro ⟨_, h2, _⟩
        rw [if_pos (h2 rfl)]
        exact ⟨_, rfl⟩
  | e :: s :: rest, j, k, hwf => by
    simp only [wfSegsB, Bool.and_eq_true, decide_eq_true_eq] at hwf
    obtain ⟨⟨⟨⟨he, hs⟩, hsh⟩, hse⟩, hrec⟩ := hwf
    subst he
    rcases j with _ | j'
    · simp at hrec
    · have ih := pathLoop_segs_iff ca vals rest j' (k + 1) hrec
      have hi2 : (2 * k + 1) / 2 = k := by omega
      have hstep : pathLoop ca vals (2 * k + 1 + 1) (s :: rest) =
          (pathLoop ca vals (2 * (k + 1) + 1) rest).map (fun t => s ++ t) := by
        have h23 : 2 * k + 1 + 1 + 1 = 2 * (k + 1) + 1 := by omega
        simp only [pathLoop, if_pos hs, h23]
      have heq : pathLoop ca vals (2 * k + 1) ([] :: s :: rest) =
          (if vals.getD ((2 * k + 1) / 2) [] = [] then .error .emptyParameter
            else (pathLoop ca vals (2 * k + 1 + 1) (s :: rest)).map
              (fun t => vals.getD ((2 * k + 1) / 2) [] ++ t)) := rfl
      rw [hi2] at heq
      rw [heq]
      have hj1 : ca = false → j' = 0 → rest = [] := by
        intro hca hj0
        subst hca hj0
        cases rest with
        | nil => rfl
        | cons a l =>
          cases l with
          | nil =>
            simp only [wfSegsB, Bool.and_eq_true, decide_eq_true_eq] at hrec
            omega
          | cons b l2 =>
            simp only [wfSegsB, Bool.and_eq_true, decide_eq_true_eq] at hrec
            simp at hrec
      by_cases hv : vals.getD k [] = []
      · rw [if_pos hv]
        constructor
        · intro ⟨s', hs'⟩; cases hs'
        · intro ⟨h1, h2, h3⟩
          exfalso
          rcases Nat.eq_zero_or_pos j' with hj0 | hjpos
          · cases ca with
            | false => exact h3 rfl (by omega) (by
                have : k + (j' + 1) - 1 = k := by omega
                rwa [this])
            | true =>
              have := wfSegs_ca_pos rest j' hrec
              omega
          · exact h1 k (le_refl k) (by omega) hv
      · rw [if_neg hv]
        rw [map_ok_iff, hstep, map_ok_iff, ih]
        simp only [valsOk]
        constructor
        · intro ⟨h1, h2, h3⟩
          refine ⟨fun idx hk hlt => ?_, ?_, ?_⟩
          · by_cases hik : idx = k
            · rwa [hik]
            · exact h1 idx (by omega) (by omega)
          · intro hca
            have := h2 hca
            have harith : k + 1 + j' - 1 = k + (j' + 1) - 1 := by omega
            rwa [harith] at this
          · intro hca hj
            rcases Nat.eq_zero_or_pos j' with hj0 | hjpos
            · subst hj0
              have harith : k + (0 + 1) - 1 = k := by omega
              rw [harith]
              exact hv
            · have := h3 hca hjpos
              have harith : k + 1 + j' - 1 = k + (j' + 1) - 1 := by omega
              rwa [harith] at this
        · intro ⟨h1, h2, h3⟩
          refine ⟨fun idx hk hlt => h1 idx (by omega) (by omega), ?_, ?_⟩
          · intro hca
            have := h2 hca
            have harith : k + (j' + 1) - 1 = k + 1 + j' - 1 := by omega
            rwa [harith] at this
          · intro hca hj
            have := h3 hca (by omega)
            have harith : k + (j' + 1) - 1 = k + 1 + j' - 1 := by omega
            rwa [harith] at this

/-- Pattern.Path succeeds exactly when the arity matches and the value
conditions hold. -/
theorem path_ok_iff (p : Pattern) (vals : List Str) (hwf : wfB p = true) :
    (∃ s, p.path vals = .ok s) ↔
      (vals.length = p.vars.length ∧ valsOk p.catchAll vals 0 p.vars.length) := by
  unfold Pattern.path
  by_cases hlen : vals.length ≠ p.vars.length
  · rw [if_pos hlen]
    constructor
    · intro ⟨s, hs⟩; cases hs
    · intro ⟨h1, _⟩; exact absurd h1 hlen
  · rw [if_neg hlen]
    push_neg at hlen
    unfold wfB at hwf
    rcases hst : p.static with _ | ⟨s0, tail⟩
    · rw [hst] at hwf; cases hwf
    · rw [hst] at hwf
      simp only [Bool.and_eq_true, decide_eq_true_eq] at hwf
      obtain ⟨⟨⟨hs0, hs0h⟩, hs0e⟩, hsegs⟩ := hwf
      have hstep : pathLoop p.catchAll vals 0 (s0 :: tail) =
          (pathLoop p.catchAll vals (0 + 1) tail).map (fun t => s0 ++ t) := by
        simp only [pathLoop, if_pos hs0]
      rw [hstep, map_ok_iff]
      have hiff := pathLoop_segs_iff p.catchAll vals tail p.vars.length 0 hsegs
      have h1 : 2 * 0 + 1 = 0 + 1 := by omega
      rw [h1] at hiff
      rw [hiff]
      exact ⟨fun h => ⟨hlen, h⟩, fun ⟨_, h⟩ => h⟩

/-- C10: for a well-formed pattern, Pattern.Path returns an error
precisely when the value count differs from the variable count, a
non-catch-all value is empty, or the pattern is catch-all and the final
value does not start with '/'.  On success the result is the verbatim
interleaving of the static runs and the values (catch-all value
trimmed of its leading slash), so a non-catch-all value containing '/'
is accepted and spliced as is: concretely, the one-variable pattern /:x
with value a/b builds /a/b, which has more segments than the pattern. -/
theorem path_error_conditions :
    (∀ (p : Pattern) (vals : List Str), wfB p = true →
      (((∃ s, p.path vals = .ok s) ↔
        (vals.length = p.vars.length ∧
         (∀ idx, idx + 1 < p.vars.length → vals.getD idx [] ≠ []) ∧
         (p.catchAll = true → (vals.getD (p.vars.length - 1) []).headD ' ' = '/') ∧
         (p.catchAll = false → 1 ≤ p.vars.length →
           vals.getD (p.vars.length - 1) [] ≠ []))) ∧
       (∀ s, p.path vals = .ok s → s = splice p.catchAll vals 0 p.static))) ∧
    ((ParsePattern (S "/:x")).toOption.map (fun p => p.path [S "a/b"]) =
      some (.ok (S "/a/b"))) := by
  refine ⟨?_, by rfl⟩
  intro p vals hwf
  constructor
  · rw [path_ok_iff p vals hwf]
    unfold valsOk
    constructor
    · intro ⟨ha, h1, h2, h3⟩
      refine ⟨ha, fun idx hidx => h1 idx (by omega) (by omega), ?_, ?_⟩
      · intro hca
        have := h2 hca
        have hz : 0 + p.vars.length - 1 = p.vars.length - 1 := by omega
        rwa [hz] at this
      · intro hca hj
        have := h3 hca hj
        have hz : 0 + p.vars.length - 1 = p.vars.length - 1 := by omega
        rwa [hz] at this
    · intro ⟨ha, h1, h2, h3⟩
      refine ⟨ha, fun idx _ hidx => h1 idx (by omega), ?_, ?_⟩
      · intro hca
        have := h2 hca
        have hz : 0 + p.vars.length - 1 = p.vars.length - 1 := by omega
        rwa [hz]
      · intro hca hj
        have := h3 hca hj
        have hz : 0 + p.vars.length - 1 = p.vars.length - 1 := by omega
        rwa [hz]
  · intro s hs
    unfold Pattern.path at hs
    by_cases hlen : vals.length ≠ p.vars.length
    · rw [if_pos hlen] at hs; cases hs
    · rw [if_neg hlen] at hs
      exact pathLoop_ok p.catchAll vals p.static 0 s hs

/-- C10 witness: the error-iff applied to the parsed pattern /a/:x with
the single value y (success), and the splice equation at the result. -/
theorem path_error_conditions_witness :
    S "/a/y" = splice false [S "y"] 0 [S "/a/", []] :=
  (path_error_conditions.1 ⟨[S "/a/", []], [S "x"], false⟩ [S "y"] (by rfl)).2
    (S "/a/y") (by rfl)

theorem headD_slash (v : Str) (h : v.headD ' ' = '/') : v = '/' :: v.tail := by
  cases v with
  | nil => exact absurd h (by decide)
  | cons c t =>
    simp only [List.headD_cons] at h
    rw [h]
    rfl

/-- In a catch-all splice over a well-formed static tail, either the
tail is the bare final placeholder (value emitted trimmed), or the
result ends with a '/' followed by the trimmed final value. -/
theorem splice_last (vals : List Str) :
    ∀ (tail : List Str) (j k : Nat), wfSegsB tail j true = true →
      (splice true vals (2 * k + 1) tail = (vals.getD (k + j - 1) []).tail ∧
        tail = [[]]) ∨
      (∃ pre, splice true vals (2 * k + 1) tail =
        pre ++ '/' :: (vals.getD (k + j - 1) []).tail)
  | [], j, k, hwf => by simp [wfSegsB] at hwf
  | [e], j, k, hwf => by
    simp only [wfSegsB, Bool.and_eq_true, decide_eq_true_eq] at hwf
    obtain ⟨he, hj⟩ := hwf
    subst he hj
    left
    constructor
    · have hi2 : (2 * k + 1) / 2 = k := by omega
      have hk1 : k + 1 - 1 = k := by omega
      show (vals.getD ((2 * k + 1) / 2) []).tail ++ splice true vals (2 * k + 1 + 1) [] = _
      rw [hi2, hk1]
      show (vals.getD k []).tail ++ [] = _
      rw [List.append_nil]
    · rfl
  | e :: s :: rest, j, k, hwf => by
    simp only [wfSegsB, Bool.and_eq_true, decide_eq_true_eq] at hwf
    obtain ⟨⟨⟨⟨he, hs⟩, hsh⟩, hse⟩, hrec⟩ := hwf
    subst he
    rcases j with _ | j'
    · simp at hrec
    · right
      have hi2 : (2 * k + 1) / 2 = k := by omega
      have heq : splice true vals (2 * k + 1) ([] :: s :: rest) =
          vals.getD k [] ++ (s ++ splice true vals (2 * k + 1 + 1 + 1) rest) := by
        show vals.getD ((2 * k + 1) / 2) [] ++ splice true vals (2 * k + 1 + 1) (s :: rest) = _
        rw [hi2]
        congr 1
        show (if s ≠ [] then s ++ splice true vals (2 * k + 1 + 1 + 1) rest else _) = _
        rw [if_pos hs]
      have h23 : 2 * k + 1 + 1 + 1 = 2 * (k + 1) + 1 := by omega
      rw [heq, h23]
      have harith : k + 1 + j' - 1 = k + (j' + 1) - 1 := by omega
      rcases splice_last vals rest j' (k + 1) hrec with ⟨hval, hrest⟩ | ⟨pre, hpre⟩
      · subst hrest
        have hsend : s.getLast? = some '/' := by
          simpa using hse
        have hsd : s = s.dropLast ++ ['/'] := by
          conv_lhs => rw [← List.dropLast_append_getLast hs]
          congr 1
          rw [List.getLast?_eq_getLast s hs] at hsend
          simp only [Option.some_inj] at hsend
          rw [hsend]
        refine ⟨vals.getD k [] ++ s.dropLast, ?_⟩
        rw [hval, harith]
        conv_lhs => rw [hsd]
        simp [List.append_assoc]
      · refine ⟨vals.getD k [] ++ s ++ pre, ?_⟩
        rw [hpre, harith]
        simp [List.append_assoc]

/-- C9 counterexample: for the catch-all pattern /a/*c and value /x,
Pattern.Path builds /a/x — the value is trimmed of its leading slash —
whereas the claimed output (the static part /a/ followed by the
untrimmed value /x) would be /a//x. -/
theorem catchall_raw_emit_counterexample :
    (((ParsePattern (S "/a/*c")).toOption.map (fun p => p.path [S "/x"])) =
      some (.ok (S "/a/x"))) ∧
    S "/a/x" ≠ S "/a/" ++ S "/x" := ⟨by rfl, by decide⟩

/-- C9 amended: the catch-all value is emitted with its leading slash
trimmed (the output is the splice of the static runs and values), but
because the static part preceding the catch-all placeholder ends with
'/', the built path still ends with the full untrimmed value. -/
theorem catchall_slash_trimmed_amended (p : Pattern) (vals : List Str) (s : Str)
    (hwf : wfB p = true) (hca : p.catchAll = true)
    (hok : p.path vals = .ok s) :
    s = splice p.catchAll vals 0 p.static ∧
    (vals.getD (p.vars.length - 1) []).headD ' ' = '/' ∧
    ∃ pre, s = pre ++ vals.getD (p.vars.length - 1) [] := by
  have hsplice : s = splice p.catchAll vals 0 p.static := by
    unfold Pattern.path at hok
    by_cases hlen : vals.length ≠ p.vars.length
    · rw [if_pos hlen] at hok; cases hok
    · rw [if_neg hlen] at hok
      exact pathLoop_ok p.catchAll vals p.static 0 s hok
  have hconds := (path_ok_iff p vals hwf).mp ⟨s, hok⟩
  obtain ⟨hlen, _, h2, _⟩ := hconds
  have hslash : (vals.getD (0 + p.vars.length - 1) []).headD ' ' = '/' := h2 hca
  have hz : 0 + p.vars.length - 1 = p.vars.length - 1 := by omega
  rw [hz] at hslash
  refine ⟨hsplice, hslash, ?_⟩
  unfold wfB at hwf
  rcases hst : p.static with _ | ⟨s0, tail⟩
  · rw [hst] at hwf; cases hwf
  · rw [hst] at hwf
    simp only [Bool.and_eq_true, decide_eq_true_eq] at hwf
    obtain ⟨⟨⟨hs0, hs0h⟩, hs0e⟩, hsegs⟩ := hwf
    rw [hca] at hsegs
    have hshape : splice p.catchAll vals 0 (s0 :: tail) =
        s0 ++ splice p.catchAll vals (0 + 1) tail := by
      show (if s0 ≠ [] then s0 ++ splice p.catchAll vals (0 + 1) tail else _) = _
      rw [if_pos hs0]
    have h01 : (0 : Nat) + 1 = 2 * 0 + 1 := by omega
    have hvform := headD_slash _ hslash
    rcases splice_last vals tail p.vars.length 0 hsegs with ⟨hval, hrest⟩ | ⟨pre, hpre⟩
    · subst hrest
      have hsend : s0.getLast? = some '/' := by simpa using hs0e
      have hsd : s0 = s0.dropLast ++ ['/'] := by
        conv_lhs => rw [← List.dropLast_append_getLast hs0]
        congr 1
        rw [List.getLast?_eq_getLast s0 hs0] at hsend
        simp only [Option.some_inj] at hsend
        rw [hsend]
      refine ⟨s0.dropLast, ?_⟩
      rw [hsplice, hst, hshape, h01, hca, hval]
      have hz0 : (0 : Nat) + p.vars.length - 1 = p.vars.length - 1 := by omega
      rw [hz0]
      conv_rhs => rw [hvform]
      conv_lhs => rw [hsd]
      simp [List.append_assoc]
    · refine ⟨s0 ++ pre, ?_⟩
      rw [hsplice, hst, hshape, h01, hca, hpre]
      have hz0 : (0 : Nat) + p.vars.length - 1 = p.vars.length - 1 := by omega
      rw [hz0]
      conv_rhs => rw [hvform]
      simp [List.append_assoc]

/-- C9 amended witness: the amended statement applied to the parsed
pattern /a/*c with value /x, which builds /a/x: trimmed splice, yet
ending with the untrimmed value /x. -/
theorem catchall_slash_trimmed_amended_witness :
    S "/a/x" = splice true [S "/x"] 0 [S "/a/", []] ∧
    (([S "/x"] : List Str).getD 0 []).headD ' ' = '/' ∧
    ∃ pre, S "/a/x" = pre ++ ([S "/x"] : List Str).getD 0 [] :=
  catchall_slash_trimmed_amended ⟨[S "/a/", []], [S "c"], true⟩ [S "/x"] (S "/a/x")
    (by rfl) (by rfl) (by rfl)

/-! ### Method table resolution (C6) -/

/-- A registration triple (method, handler, pattern) as a handler
entry. -/
def toEntry (r : Str × H × Pattern) : HandlerEntry H := ⟨r.1, r.2.1, r.2.2⟩

/-- Folds a sequence of registrations over a handlers list with
node.setHandler; None as soon as one is a duplicate. -/
def setAll (hs : List (HandlerEntry H)) : List (Str × H × Pattern) →
    Option (List (HandlerEntry H))
  | [] => some hs
  | r :: rest =>
    match setHandlers hs r.1 r.2.1 r.2.2 with
    | none => none
    | some hs1 => setAll hs1 rest

theorem swapLastTwo_cons (x : α) (M : List α) (h : 2 ≤ M.length) :
    swapLastTwo (x :: M) = x :: swapLastTwo M := by
  match M with
  | [] => simp at h
  | [a] => simp at h
  | a :: b :: rest => rfl

theorem swapLastTwo_append (a b : α) :
    ∀ l : List α, swapLastTwo (l ++ [a, b]) = l ++ [b, a]
  | [] => rfl
  | x :: l => by
    have hx : (x :: l) ++ [a, b] = x :: (l ++ [a, b]) := rfl
    rw [hx, swapLastTwo_cons x _ (by simp), swapLastTwo_append a b l]
    rfl

/-- entryForMethod over a block of non-wildcard entries followed by the
rest: the non-wildcard block matches exactly on its method. -/
theorem entryFor_split (m : Str) :
    ∀ (ns st : List (HandlerEntry H)), (∀ e ∈ ns, ¬ e.method = ['*']) →
      entryFor (ns ++ st) m =
        (ns.find? (fun e => decide (e.method = m))).or (entryFor st m)
  | [], st, _ => by simp [List.find?]
  | e :: ns, st, hns => by
    have hens : ¬ e.method = ['*'] := hns e (List.mem_cons_self e ns)
    have hrest : ∀ x ∈ ns, ¬ x.method = ['*'] :=
      fun x hx => hns x (List.mem_cons_of_mem e hx)
    show (if e.method = ['*'] ∨ e.method = m then some e
        else entryFor (ns ++ st) m) = _
    by_cases hem : e.method = m
    · rw [if_pos (Or.inr hem)]
      rw [List.find?_cons_of_pos _ (by simpa using hem)]
      rfl
    · rw [if_neg (by rintro (h | h) <;> exact absurd h (by assumption))]
      rw [List.find?_cons_of_neg _ (by simpa using hem)]
      exact entryFor_split m ns st hrest

/-- entryForMethod over a wildcard-only block of at most one entry. -/
theorem entryFor_star (m : Str) (st : List (HandlerEntry H))
    (hst : ∀ e ∈ st, e.method = ['*']) (hlen : st.length ≤ 1) :
    entryFor st m = st.head? := by
  match st with
  | [] => rfl
  | [e] =>
    have : e.method = ['*'] := hst e (by simp)
    show (if e.method = ['*'] ∨ e.method = m then some e else entryFor [] m) = _
    rw [if_pos (Or.inl this)]
    rfl
  | a :: b :: rest => simp at hlen

/-- The heart of C6: after any sequence of setHandler registrations
over a split state (non-wildcard entries, then at most one wildcard
entry), resolution of a non-"*" method finds the exact registration
first and the wildcard registration only otherwise, regardless of the
order in which the registrations arrived. -/
theorem setAll_resolution (m : Str) (hm : ¬ m = ['*']) :
    ∀ (regs : List (Str × H × Pattern)) (ns st hs' : List (HandlerEntry H)),
      (∀ e ∈ ns, ¬ e.method = ['*']) → (∀ e ∈ st, e.method = ['*']) →
      st.length ≤ 1 →
      setAll (ns ++ st) regs = some hs' →
      entryFor hs' m =
        ((ns.find? (fun e => decide (e.method = m))).or
          ((regs.find? (fun r => decide (r.1 = m))).map toEntry)).or
        ((st.head?).or
          ((regs.find? (fun r => decide (r.1 = ['*']))).map toEntry))
  | [], ns, st, hs', hns, hst, hlen, hok => by
    cases hok
    rw [entryFor_split m ns st hns, entryFor_star m st hst hlen]
    simp only [List.find?, Option.map_none', Option.or_none]
  | r :: rest, ns, st, hs', hns, hst, hlen, hok => by
    have hefm : entryFor (ns ++ st) r.1 =
        (ns.find? (fun e => decide (e.method = r.1))).or st.head? := by
      rw [entryFor_split r.1 ns st hns, entryFor_star r.1 st hst hlen]
    simp only [setAll] at hok
    rcases hnsf : ns.find? (fun e => decide (e.method = r.1)) with _ | e
    case some =>
      exfalso
      have he : e.method = r.1 := by
        have := List.find?_some hnsf
        simpa using this
      have hsh : setHandlers (ns ++ st) r.1 r.2.1 r.2.2 = none := by
        unfold setHandlers
        rw [hefm, hnsf]
        show (if e.method = r.1 then none
          else some (swapLastTwo ((ns ++ st) ++ [toEntry r]))) = none
        rw [if_pos he]
      rw [hsh] at hok
      cases hok
    case none =>
    rcases hsth : st.head? with _ | estar
    case some =>
      -- an existing wildcard entry; st = [estar]
      have hsteq : st = [estar] := by
        cases st with
        | nil => simp at hsth
        | cons a l =>
          cases l with
          | nil => simp only [List.head?_cons, Option.some_inj] at hsth; simp [hsth]
          | cons b l2 => simp at hlen
      have hestar : estar.method = ['*'] := by
        apply hst
        rw [hsteq]
        simp
      by_cases hr1 : r.1 = ['*']
      · exfalso
        have hsh : setHandlers (ns ++ st) r.1 r.2.1 r.2.2 = none := by
          unfold setHandlers
          rw [hefm, hnsf, hsth]
          show (if estar.method = r.1 then none
            else some (swapLastTwo ((ns ++ st) ++ [toEntry r]))) = none
          rw [if_pos (by rw [hestar, hr1])]
        rw [hsh] at hok
        cases hok
      · have hsh : setHandlers (ns ++ st) r.1 r.2.1 r.2.2 =
            some ((ns ++ [toEntry r]) ++ [estar]) := by
          unfold setHandlers
          rw [hefm, hnsf, hsth]
          show (if estar.method = r.1 then none
            else some (swapLastTwo ((ns ++ st) ++ [toEntry r]))) = _
          rw [if_neg (by rw [hestar]; exact fun h => hr1 h.symm)]
          rw [hsteq]
          have hassoc : (ns ++ [estar]) ++ [toEntry r] = ns ++ [estar, toEntry r] := by
            simp
          rw [hassoc, swapLastTwo_append]
          simp
        rw [hsh] at hok
        have ih := setAll_resolution m hm rest (ns ++ [toEntry r]) [estar] hs'
          (by intro x hx
              rcases List.mem_append.mp hx with hx | hx
              · exact hns x hx
              · simp only [List.mem_singleton] at hx
                subst hx
                exact hr1)
          (by intro x hx
              simp only [List.mem_singleton] at hx
              subst hx
              exact hestar)
          (by simp) hok
        rw [ih]
        rw [List.find?_append]
        rw [@List.find?_cons_of_neg _ (fun r' => decide (r'.1 = ['*'])) r rest
          (by simp only [decide_eq_true_eq]; exact hr1)]
        by_cases hrm : r.1 = m
        · rw [List.find?_cons_of_pos rest
            (by simp only [decide_eq_true_eq]; exact hrm)]
          rw [List.find?_cons_of_pos ([] : List (HandlerEntry H))
            (by simp only [decide_eq_true_eq]; exact hrm)]
          cases List.find? (fun e => decide (e.method = m)) ns <;> rfl
        · rw [List.find?_cons_of_neg rest
            (by simp only [decide_eq_true_eq]; exact hrm)]
          rw [List.find?_cons_of_neg ([] : List (HandlerEntry H))
            (by simp only [decide_eq_true_eq]; exact hrm)]
          rw [List.find?_nil, Option.or_none]
          rfl
    case none =>
      have hstnil : st = [] := by
        cases st with
        | nil => rfl
        | cons a l => simp at hsth
      subst hstnil
      have hsh : setHandlers (ns ++ []) r.1 r.2.1 r.2.2 =
          some ((ns ++ []) ++ [toEntry r]) := by
        unfold setHandlers
        rw [hefm, hnsf]
        rfl
      rw [hsh] at hok
      simp only [List.append_nil] at hok
      by_cases hr1 : r.1 = ['*']
      · have ih := setAll_resolution m hm rest ns [toEntry r] hs' hns
          (by intro x hx
              simp only [List.mem_singleton] at hx
              subst hx
              exact hr1)
          (by simp) hok
        rw [ih]
        rw [List.find?_cons_of_neg rest
          (by simp only [decide_eq_true_eq]; rw [hr1]; exact fun hh => hm hh.symm)]
        rw [List.find?_cons_of_pos rest
          (by simp only [decide_eq_true_eq]; exact hr1)]
        rfl
      · have hok' : setAll ((ns ++ [toEntry r]) ++ []) rest = some hs' := by
          rw [List.append_nil]
          exact hok
        have ih := setAll_resolution m hm rest (ns ++ [toEntry r]) [] hs'
          (by intro x hx
              rcases List.mem_append.mp hx with hx | hx
              · exact hns x hx
              · simp only [List.mem_singleton] at hx
                subst hx
                exact hr1)
          (by intro x hx; simp at hx)
          (by simp) hok'
        rw [ih]
        rw [List.find?_append]
        rw [@List.find?_cons_of_neg _ (fun r' => decide (r'.1 = ['*'])) r rest
          (by simp only [decide_eq_true_eq]; exact hr1)]
        by_cases hrm : r.1 = m
        · rw [List.find?_cons_of_pos rest
            (by simp only [decide_eq_true_eq]; exact hrm)]
          rw [List.find?_cons_of_pos ([] : List (HandlerEntry H))
            (by simp only [decide_eq_true_eq]; exact hrm)]
          cases List.find? (fun e => decide (e.method = m)) ns <;> rfl
        · rw [List.find?_cons_of_neg rest
            (by simp only [decide_eq_true_eq]; exact hrm)]
          rw [List.find?_cons_of_neg ([] : List (HandlerEntry H))
            (by simp only [decide_eq_true_eq]; exact hrm)]
          rw [List.find?_nil, Option.or_none]
          rfl

/-- C6: after any sequence of registrations at a node (in any order),
method resolution returns the entry registered for the exact method
when one exists and the wildcard-method entry only otherwise; in
particular registering an exact method after the wildcard leaves the
wildcard still served for every other method (concretely: register
method "*" then GET — GET resolves to the specific handler, OPTIONS to
the wildcard handler). -/
theorem method_resolution_exact_over_wildcard :
    (∀ (H : Type) (regs : List (Str × H × Pattern)) (hs : List (HandlerEntry H))
      (m : Str), ¬ m = ['*'] → setAll [] regs = some hs →
      entryFor hs m =
        ((regs.find? (fun r => decide (r.1 = m))).map toEntry).or
          ((regs.find? (fun r => decide (r.1 = ['*']))).map toEntry)) ∧
    ((setAll [] [(S "*", 0, Pattern.mk [] [] false),
        (S "GET", 1, Pattern.mk [] [] false)]).map
      (fun hs => ((entryFor hs (S "GET")).map (fun e => e.handler),
                  (entryFor hs (S "OPTIONS")).map (fun e => e.handler))) =
      some (some 1, some 0)) := by
  refine ⟨?_, by rfl⟩
  intro H regs hs m hm hok
  have hres := setAll_resolution m hm regs [] [] hs
    (by intro x hx; simp at hx) (by intro x hx; simp at hx) (by simp) hok
  simpa using hres

/-- C6 witness: the resolution law applied to the wildcard-then-GET
registration sequence at method OPTIONS. -/
theorem method_resolution_exact_over_wildcard_witness :
    entryFor ((setAll [] [(S "*", 0, Pattern.mk [] [] false),
        (S "GET", 1, Pattern.mk [] [] false)]).getD []) (S "OPTIONS") =
      (([(S "*", (0 : Nat), Pattern.mk [] [] false),
          (S "GET", 1, Pattern.mk [] [] false)].find?
            (fun r => decide (r.1 = S "OPTIONS"))).map toEntry).or
        (([(S "*", (0 : Nat), Pattern.mk [] [] false),
          (S "GET", 1, Pattern.mk [] [] false)].find?
            (fun r => decide (r.1 = ['*']))).map toEntry) :=
  method_resolution_exact_over_wildcard.1 Nat
    [(S "*", 0, Pattern.mk [] [] false), (S "GET", 1, Pattern.mk [] [] false)]
    ((setAll [] [(S "*", (0 : Nat), Pattern.mk [] [] false),
        (S "GET", 1, Pattern.mk [] [] false)]).getD [])
    (S "OPTIONS") (by decide) (by rfl)

/-! ### Round trip: the tree built by a single registration -/

/-- The tree produced by inserting one pattern below a fresh node whose
path is the pattern's current static run: a chain alternating literal
nodes and wildcard hops, ending in the node that carries the handler
entry (attached as the catch-all child for a catch-all pattern). -/
def chain (e : HandlerEntry H) (ca : Bool) : Str → List Str → Node H
  | pfx, [] => .mk pfx [] none none [e]
  | pfx, _ :: rest2 =>
    match rest2 with
    | [] =>
      let leaf : Node H := .mk [] [] none none [e]
      if ca then .mk pfx [] none (some leaf) []
      else .mk pfx [] (some leaf) none []
    | nextPfx :: rest' =>
      let w : Node H :=
        match nextPfx with
        | [] => .mk [] [] none none []
        | b :: np => .mk [] [(b, chain e ca np rest')] none none []
      .mk pfx [] (some w) none []

theorem commonPref_self : ∀ (l : Str), commonPref l l = l
  | [] => rfl
  | a :: as => by simp [commonPref, commonPref_self as]

/-- Inserting the remaining pattern elements into a fresh node whose
path already equals the current static prefix yields exactly the chain
tree (no split, no duplicate panic). -/
theorem insert_fresh {H : Type} (m : Str) (h : H) (origPat : Pattern) (ca : Bool)
    (vars : List Str) :
    ∀ (tail : List Str) (j : Nat) (pfx : Str) (fuel : Nat),
      wfSegsB tail j ca = true →
      insWeight pfx { static := tail, vars := vars, catchAll := ca } < fuel →
      addStaticPref fuel (Node.mk pfx [] none none []) pfx
          { static := tail, vars := vars, catchAll := ca } m h origPat =
        some (chain ⟨m, h, origPat⟩ ca pfx tail)
  | [], j, pfx, fuel, hwf, hfuel => by
    rcases fuel with _ | f
    · omega
    · simp only [addStaticPref, Node.path, commonPref_self, lt_self_iff_false, if_false,
        reduceIte]
      rfl
  | [e0], j, pfx, fuel, hwf, hfuel => by
    rcases fuel with _ | f
    · omega
    · simp only [addStaticPref, Node.path, commonPref_self, lt_self_iff_false, if_false,
        reduceIte]
      cases ca with
      | false =>
        simp [Node.setHandler, setHandlers, entryFor, chain, Node.withWild,
          Node.withCatchAll, Node.catchAll, Node.wild]
      | true =>
        simp [Node.setHandler, setHandlers, entryFor, chain, Node.withWild,
          Node.withCatchAll, Node.catchAll, Node.wild]
  | e0 :: s :: rest', j, pfx, fuel, hwf, hfuel => by
    rcases j with _ | j'
    · simp [wfSegsB] at hwf
    simp only [wfSegsB, Bool.and_eq_true, decide_eq_true_eq] at hwf
    obtain ⟨⟨⟨⟨he0, hs⟩, hshead⟩, hor⟩, htail⟩ := hwf
    cases s with
    | nil => exact absurd rfl hs
    | cons b np =>
    rcases fuel with _ | f
    · omega
    rcases f with _ | f'
    · simp only [insWeight, List.map_cons, List.sum_cons, List.length_cons] at hfuel
      omega
    have hb : insWeight np { static := rest', vars := vars, catchAll := ca } < f' := by
      simp only [insWeight, List.map_cons, List.sum_cons, List.length_cons] at hfuel ⊢
      omega
    have hrec := insert_fresh m h origPat ca vars rest' j' np f' htail hb
    have hcat : ¬(rest'.length + 1 + 1 = 1 ∧ ca = true) := by simp
    simp only [addStaticPref, Node.path, commonPref_self, lt_self_iff_false, if_false,
      reduceIte, List.drop_zero, List.length_cons, commonPref, List.length_nil,
      Nat.succ_pos, if_true, findChild, hrec, Node.children, Node.withChildren,
      List.nil_append, hcat, Node.withWild, Node.wild, Node.catchAll, ite_self,
      Option.getD_none, chain]

/-- A path without slashes is one whole path element. -/
theorem pathElem_all (v : Str) (h : '/' ∉ v) : pathElem v = (v, []) := by
  induction v with
  | nil => rfl
  | cons c cs ih =>
    simp only [List.mem_cons, not_or] at h
    have hcne : ¬ c = '/' := fun hc => h.1 hc.symm
    simp only [pathElem, if_neg hcne, ih h.2]

/-- pathElem splits a slash-free run off the rest at the first '/'. -/
theorem pathElem_split (v z : Str) (h : '/' ∉ v) :
    pathElem (v ++ '/' :: z) = (v, '/' :: z) := by
  induction v with
  | nil => simp [pathElem]
  | cons c cs ih =>
    simp only [List.mem_cons, not_or] at h
    have hcne : ¬ c = '/' := fun hc => h.1 hc.symm
    simp only [List.cons_append, pathElem, if_neg hcne, List.append_eq, ih h.2]

/-- Dropping everything up to one byte before a suffix of a path that
continues a slash-ended prefix yields the suffix with its slash. -/
theorem drop_before_suffix (A t : Str) (h : A.getLast? = some '/') :
    (A ++ t).drop ((A ++ t).length - t.length - 1) = '/' :: t := by
  obtain ⟨q, rfl⟩ := List.getLast?_eq_some_iff.mp h
  have h1 : (q ++ ['/'] ++ t).length - t.length - 1 = q.length := by
    simp only [List.length_append, List.length_cons, List.length_nil]
    omega
  rw [h1, List.append_assoc, List.singleton_append, List.drop_left]

/-- One lookup iteration at a node whose whole path is consumed exactly:
the node is returned. -/
theorem lookupGo_arrive (op : Str) (f : Nat) (n : Node H) (params : Params)
    (camemo : Option (Node H × Str × Params)) :
    lookupGo op (f + 1) n n.path params camemo = (some n, params) := by
  simp only [lookupGo, lt_self_iff_false, if_false, List.take_length, ne_eq,
    not_true_eq_false, if_false, List.drop_length]

/-- One lookup iteration at a node whose path is consumed with bytes to
spare: the dispatch over static child, wildcard and fallback. -/
theorem lookupGo_step (op : Str) (f : Nat) (n : Node H) (c : Char) (r : Str)
    (params : Params) (camemo : Option (Node H × Str × Params)) :
    lookupGo op (f + 1) n (n.path ++ c :: r) params camemo =
      (match findChild n.children c with
       | some child => lookupGo op f child r params (rememberCA n (c :: r) params camemo)
       | none =>
         match n.wild with
         | none => lookupFall op (rememberCA n (c :: r) params camemo)
         | some w =>
           if (pathElem (c :: r)).1 = [] then
             lookupFall op (rememberCA n (c :: r) params camemo)
           else lookupGo op f w (pathElem (c :: r)).2
             (params ++ [([], (pathElem (c :: r)).1)])
             (rememberCA n (c :: r) params camemo)) := by
  have h1 : ¬ (n.path ++ c :: r).length < n.path.length := by
    simp only [List.length_append, List.length_cons]
    omega
  simp only [lookupGo, if_neg h1, List.take_left, ne_eq, not_true_eq_false, if_false,
    List.drop_left]

/-- Passing a node without a catch-all child leaves the catch-all memo
unchanged. -/
theorem rememberCA_none (p : Str) (ch : List (Char × Node H)) (w : Option (Node H))
    (hs : List (HandlerEntry H)) (r : Str) (ps : Params)
    (m : Option (Node H × Str × Params)) :
    rememberCA (Node.mk p ch w none hs) r ps m = m := rfl

/-- lookupGo_arrive stated on a literal node. -/
theorem lookupGo_arrive_mk (op : Str) (f : Nat) (p : Str) (ch : List (Char × Node H))
    (w ca : Option (Node H)) (hs : List (HandlerEntry H)) (params : Params)
    (camemo : Option (Node H × Str × Params)) :
    lookupGo op (f + 1) (Node.mk p ch w ca hs) p params camemo =
      (some (Node.mk p ch w ca hs), params) := by
  have h := lookupGo_arrive op f (Node.mk p ch w ca hs) params camemo
  simpa [Node.path] using h

/-- lookupGo_step stated on a literal node. -/
theorem lookupGo_step_mk (op : Str) (f : Nat) (p : Str) (ch : List (Char × Node H))
    (w ca : Option (Node H)) (hs : List (HandlerEntry H)) (c : Char) (r : Str)
    (params : Params) (camemo : Option (Node H × Str × Params)) :
    lookupGo op (f + 1) (Node.mk p ch w ca hs) (p ++ c :: r) params camemo =
      (match findChild ch c with
       | some child =>
         lookupGo op f child r params (rememberCA (Node.mk p ch w ca hs) (c :: r) params camemo)
       | none =>
         match w with
         | none => lookupFall op (rememberCA (Node.mk p ch w ca hs) (c :: r) params camemo)
         | some wn =>
           if (pathElem (c :: r)).1 = [] then
             lookupFall op (rememberCA (Node.mk p ch w ca hs) (c :: r) params camemo)
           else lookupGo op f wn (pathElem (c :: r)).2
             (params ++ [([], (pathElem (c :: r)).1)])
             (rememberCA (Node.mk p ch w ca hs) (c :: r) params camemo)) := by
  have h := lookupGo_step op f (Node.mk p ch w ca hs) c r params camemo
  simpa [Node.path, Node.children, Node.wild] using h

/-- lookupGo_step at a node with an empty stored path. -/
theorem lookupGo_step_nil (op : Str) (f : Nat) (ch : List (Char × Node H))
    (w ca : Option (Node H)) (hs : List (HandlerEntry H)) (c : Char) (r : Str)
    (params : Params) (camemo : Option (Node H × Str × Params)) :
    lookupGo op (f + 1) (Node.mk [] ch w ca hs) (c :: r) params camemo =
      (match findChild ch c with
       | some child =>
         lookupGo op f child r params (rememberCA (Node.mk [] ch w ca hs) (c :: r) params camemo)
       | none =>
         match w with
         | none => lookupFall op (rememberCA (Node.mk [] ch w ca hs) (c :: r) params camemo)
         | some wn =>
           if (pathElem (c :: r)).1 = [] then
             lookupFall op (rememberCA (Node.mk [] ch w ca hs) (c :: r) params camemo)
           else lookupGo op f wn (pathElem (c :: r)).2
             (params ++ [([], (pathElem (c :: r)).1)])
             (rememberCA (Node.mk [] ch w ca hs) (c :: r) params camemo)) := by
  have h := lookupGo_step_mk op f [] ch w ca hs c r params camemo
  simpa using h

/-- The path remainder Pattern.path builds for the elements after the
leading static run, with the remaining values listed explicitly:
values alternate with literal runs, and the final catch-all value is
emitted with its leading slash trimmed. -/
def tailPath (ca : Bool) : List Str → List Str → Str
  | [], _ => []
  | [_], vs => if ca then (vs.headD []).tail else vs.headD []
  | _ :: s :: rest', vs => vs.headD [] ++ s ++ tailPath ca rest' vs.tail

/-- The conditions on a value list: every value bound to a
single-segment variable is non-empty and slash-free, and a catch-all
value (always the last one) starts with '/'. -/
def goodVals (ca : Bool) : List Str → Prop
  | [] => True
  | [v] => if ca then v.headD ' ' = '/' else v ≠ [] ∧ '/' ∉ v
  | v :: vs => (v ≠ [] ∧ '/' ∉ v) ∧ goodVals ca vs

theorem chain_nil (e : HandlerEntry H) (ca : Bool) (pfx : Str) :
    chain e ca pfx [] = .mk pfx [] none none [e] := rfl

theorem chain_one_false (e : HandlerEntry H) (pfx e0 : Str) :
    chain e false pfx [e0] = .mk pfx [] (some (.mk [] [] none none [e])) none [] := rfl

theorem chain_one_true (e : HandlerEntry H) (pfx e0 : Str) :
    chain e true pfx [e0] = .mk pfx [] none (some (.mk [] [] none none [e])) [] := rfl

theorem chain_cons (e : HandlerEntry H) (ca : Bool) (pfx e0 : Str) (b : Char) (np : Str)
    (rest' : List Str) :
    chain e ca pfx (e0 :: (b :: np) :: rest') =
      .mk pfx [] (some (.mk [] [(b, chain e ca np rest')] none none [])) none [] := rfl

/-- Looking up the built path below a chain tree of a pattern without
catch-all: the descent reaches the node holding the handler entry,
collecting exactly the values in order. -/
theorem lookup_chain_nonca {H : Type} (e : HandlerEntry H) (op : Str) :
    ∀ (tail : List Str) (vs : List Str) (pfx : Str) (params : Params)
      (camemo : Option (Node H × Str × Params)) (fuel : Nat),
      wfSegsB tail vs.length false = true →
      goodVals false vs →
      (pfx ++ tailPath false tail vs).length < fuel →
      ∃ fnd : Node H,
        lookupGo op fuel (chain e false pfx tail) (pfx ++ tailPath false tail vs)
            params camemo =
          (some fnd, params ++ vs.map (fun v => (([] : Str), v))) ∧
        fnd.handlers = [e] ∧ fnd.catchAll = none
  | [], vs, pfx, params, camemo, fuel, hwf, hgv, hfuel => by
    have hvs : vs = [] := by
      simp only [wfSegsB, Bool.and_eq_true, decide_eq_true_eq, Bool.not_eq_true'] at hwf
      exact List.length_eq_zero.mp hwf.1
    subst hvs
    rcases fuel with _ | f
    · omega
    refine ⟨Node.mk pfx [] none none [e], ?_, rfl, rfl⟩
    have h := lookupGo_arrive_mk op f pfx ([] : List (Char × Node H)) none none [e]
      params camemo
    simpa [chain_nil, tailPath] using h
  | [e0], vs, pfx, params, camemo, fuel, hwf, hgv, hfuel => by
    rcases vs with _ | ⟨v, vs'⟩
    · simp [wfSegsB] at hwf
    rcases vs' with _ | ⟨v2, vs''⟩
    · have hv : v ≠ [] ∧ '/' ∉ v := hgv
      obtain ⟨hvne, hvsl⟩ := hv
      obtain ⟨c, v', rfl⟩ : ∃ c v', v = c :: v' := by
        rcases v with _ | ⟨c, v'⟩
        · exact absurd rfl hvne
        · exact ⟨c, v', rfl⟩
      have hT : tailPath false [e0] [c :: v'] = c :: v' := rfl
      rcases fuel with _ | f
      · omega
      rcases f with _ | f'
      · rw [hT] at hfuel
        simp only [List.length_append, List.length_cons] at hfuel
        omega
      refine ⟨Node.mk [] [] none none [e], ?_, rfl, rfl⟩
      rw [hT, chain_one_false, lookupGo_step_mk]
      simp only [findChild, pathElem_all (c :: v') hvsl, List.cons_ne_nil, if_false,
        reduceIte, lookupGo_arrive_mk, List.map_cons, List.map_nil]
    · exfalso
      simp only [wfSegsB, Bool.and_eq_true, decide_eq_true_eq, List.length_cons] at hwf
      omega
  | e0 :: s :: rest', vs, pfx, params, camemo, fuel, hwf, hgv, hfuel => by
    rcases vs with _ | ⟨v, vs'⟩
    · simp [wfSegsB] at hwf
    simp only [wfSegsB, Bool.and_eq_true, decide_eq_true_eq, List.length_cons] at hwf
    obtain ⟨⟨⟨⟨he0, hs⟩, hshead⟩, hor⟩, htail⟩ := hwf
    have hv : v ≠ [] ∧ '/' ∉ v := by
      rcases vs' with _ | ⟨v2, vs''⟩
      · exact hgv
      · exact hgv.1
    have hrest : goodVals false vs' := by
      rcases vs' with _ | ⟨v2, vs''⟩
      · trivial
      · exact hgv.2
    cases s with
    | nil => exact absurd rfl hs
    | cons b np =>
    have hb : b = '/' := by simpa using hshead
    subst hb
    obtain ⟨c, v', rfl⟩ : ∃ c v', v = c :: v' := by
      rcases v with _ | ⟨c, v'⟩
      · exact absurd rfl hv.1
      · exact ⟨c, v', rfl⟩
    have hT : tailPath false (e0 :: ('/' :: np) :: rest') ((c :: v') :: vs') =
        ((c :: v') ++ '/' :: np) ++ tailPath false rest' vs' := rfl
    rw [hT] at hfuel ⊢
    simp only [List.length_append, List.length_cons] at hfuel
    rcases fuel with _ | f
    · omega
    rcases f with _ | f2
    · omega
    obtain ⟨fnd, hres, hh, hca⟩ :=
      lookup_chain_nonca e op rest' vs' np (params ++ [(([] : Str), c :: v')])
        camemo f2 htail hrest
        (by simp only [List.length_append]; omega)
    refine ⟨fnd, ?_, hh, hca⟩
    rw [chain_cons]
    simp only [List.append_assoc, List.cons_append]
    rw [lookupGo_step_mk]
    have hpe : pathElem (c :: (v' ++ '/' :: (np ++ tailPath false rest' vs'))) =
        (c :: v', '/' :: (np ++ tailPath false rest' vs')) := by
      have h := pathElem_split (c :: v') (np ++ tailPath false rest' vs') hv.2
      simpa using h
    have hfc : findChild [('/', chain e false np rest')] '/' =
        some (chain e false np rest') := by simp [findChild]
    simp only [findChild, hpe, List.cons_ne_nil, if_false, reduceIte, rememberCA_none]
    rw [lookupGo_step_nil]
    simp only [hfc, rememberCA_none, hres, List.map_cons]
    simp

/-- Looking up the built path below a chain tree of a catch-all
pattern: for a slash-only final value the descent stops at the parent
of the catch-all leaf (whose catch-all child holds the entry); for any
longer final value it falls back to the remembered catch-all leaf,
capturing the full untrimmed value with its leading slash. -/
theorem lookup_chain_ca {H : Type} (e : HandlerEntry H) :
    ∀ (tail : List Str) (vs : List Str) (pfx pre : Str) (params : Params)
      (camemo : Option (Node H × Str × Params)) (fuel : Nat),
      wfSegsB tail vs.length true = true →
      goodVals true vs →
      (pre ++ pfx).getLast? = some '/' →
      (pfx ++ tailPath true tail vs).length < fuel →
      (vs.getLast?.getD [] = ['/'] →
        ∃ fnd : Node H,
          lookupGo (pre ++ (pfx ++ tailPath true tail vs)) fuel (chain e true pfx tail)
              (pfx ++ tailPath true tail vs) params camemo =
            (some fnd, params ++ vs.dropLast.map (fun v => (([] : Str), v))) ∧
          fnd.handlers = [] ∧ fnd.catchAll = some (Node.mk [] [] none none [e])) ∧
      (vs.getLast?.getD [] ≠ ['/'] →
        lookupGo (pre ++ (pfx ++ tailPath true tail vs)) fuel (chain e true pfx tail)
            (pfx ++ tailPath true tail vs) params camemo =
          (some (Node.mk [] [] none none [e]),
            params ++ vs.dropLast.map (fun v => (([] : Str), v)) ++
              [(([] : Str), vs.getLast?.getD [])]))
  | [], vs, pfx, pre, params, camemo, fuel, hwf, hgv, hpre, hfuel => by
    simp [wfSegsB] at hwf
  | [e0], vs, pfx, pre, params, camemo, fuel, hwf, hgv, hpre, hfuel => by
    rcases vs with _ | ⟨v, vs'⟩
    · simp [wfSegsB] at hwf
    rcases vs' with _ | ⟨v2, vs''⟩
    case cons.cons =>
      exfalso
      simp only [wfSegsB, Bool.and_eq_true, decide_eq_true_eq, List.length_cons] at hwf
      omega
    have hvh : v.headD ' ' = '/' := hgv
    have hv : v = '/' :: v.tail := headD_slash v hvh
    have hT : tailPath true [e0] [v] = v.tail := rfl
    rw [hT] at hfuel ⊢
    rcases fuel with _ | f
    · omega
    rcases htl : v.tail with _ | ⟨c, t'⟩
    · have hveq : v = ['/'] := by rw [htl] at hv; exact hv
      constructor
      · intro _
        refine ⟨Node.mk pfx [] none (some (Node.mk [] [] none none [e])) [], ?_, rfl, rfl⟩
        rw [chain_one_true]
        have h := lookupGo_arrive_mk (pre ++ (pfx ++ ([] : Str))) f pfx
          ([] : List (Char × Node H)) none (some (Node.mk [] [] none none [e]))
          ([] : List (HandlerEntry H)) params camemo
        simpa using h
      · intro hl
        exact absurd (by rw [hveq]; rfl) hl
    · have hveq : v = '/' :: c :: t' := by rw [htl] at hv; exact hv
      constructor
      · intro hl
        exfalso
        rw [show [v].getLast?.getD [] = v from rfl, hveq] at hl
        simp at hl
      · intro hl
        rw [chain_one_true, lookupGo_step_mk]
        have hfc : findChild ([] : List (Char × Node H)) c = none := rfl
        simp only [hfc, rememberCA, Node.catchAll, lookupFall]
        have hassoc : pre ++ (pfx ++ c :: t') = (pre ++ pfx) ++ (c :: t') :=
          (List.append_assoc pre pfx (c :: t')).symm
        rw [hassoc, drop_before_suffix (pre ++ pfx) (c :: t') hpre]
        rw [show [v].getLast?.getD [] = v from rfl, hveq]
        simp
  | e0 :: s :: rest', vs, pfx, pre, params, camemo, fuel, hwf, hgv, hpre, hfuel => by
    rcases vs with _ | ⟨v, vs'⟩
    · simp [wfSegsB] at hwf
    simp only [wfSegsB, Bool.and_eq_true, decide_eq_true_eq, List.length_cons] at hwf
    obtain ⟨⟨⟨⟨he0, hs⟩, hshead⟩, hor⟩, htail⟩ := hwf
    have hrestne : rest' ≠ [] := by
      intro h
      subst h
      simp [wfSegsB] at htail
    have hvs'pos : 1 ≤ vs'.length := wfSegs_ca_pos rest' vs'.length htail
    rcases vs' with _ | ⟨v2, vs''⟩
    · simp at hvs'pos
    obtain ⟨hv, hrest⟩ : (v ≠ [] ∧ '/' ∉ v) ∧ goodVals true (v2 :: vs'') := hgv
    cases s with
    | nil => exact absurd rfl hs
    | cons b np =>
    have hb : b = '/' := by simpa using hshead
    subst hb
    have hslast : ('/' :: np).getLast? = some '/' := by
      rcases rest' with _ | _
      · exact absurd rfl hrestne
      · simpa using hor
    obtain ⟨c, v', rfl⟩ : ∃ c v', v = c :: v' := by
      rcases v with _ | ⟨c, v'⟩
      · exact absurd rfl hv.1
      · exact ⟨c, v', rfl⟩
    have hT : tailPath true (e0 :: ('/' :: np) :: rest') ((c :: v') :: v2 :: vs'') =
        ((c :: v') ++ '/' :: np) ++ tailPath true rest' (v2 :: vs'') := rfl
    rw [hT] at hfuel ⊢
    simp only [List.length_append, List.length_cons] at hfuel
    rcases fuel with _ | f
    · omega
    rcases f with _ | f2
    · omega
    have hpre2 : ((pre ++ (pfx ++ ((c :: v') ++ ['/']))) ++ np).getLast? = some '/' := by
      rcases np with _ | ⟨n1, np'⟩
      · rw [List.append_nil,
          List.getLast?_append_of_ne_nil _ (by simp : pfx ++ ((c :: v') ++ ['/']) ≠ []),
          List.getLast?_append_of_ne_nil _ (by simp : (c :: v') ++ ['/'] ≠ []),
          List.getLast?_append_cons]
        rfl
      · rw [List.getLast?_cons_cons] at hslast
        rw [List.getLast?_append_of_ne_nil _ (List.cons_ne_nil n1 np')]
        exact hslast
    obtain ⟨ih1, ih2⟩ :=
      lookup_chain_ca e rest' (v2 :: vs'') np (pre ++ (pfx ++ ((c :: v') ++ ['/'])))
        (params ++ [(([] : Str), c :: v')]) camemo f2 htail hrest hpre2
        (by simp only [List.length_append]; omega)
    have hop : pre ++ (pfx ++ (((c :: v') ++ '/' :: np) ++ tailPath true rest' (v2 :: vs''))) =
        (pre ++ (pfx ++ ((c :: v') ++ ['/']))) ++ (np ++ tailPath true rest' (v2 :: vs'')) := by
      simp [List.append_assoc]
    have hstep : lookupGo
        (pre ++ (pfx ++ (((c :: v') ++ '/' :: np) ++ tailPath true rest' (v2 :: vs''))))
        (f2 + 1 + 1)
        (chain e true pfx (e0 :: ('/' :: np) :: rest'))
        (pfx ++ (((c :: v') ++ '/' :: np) ++ tailPath true rest' (v2 :: vs'')))
        params camemo =
      lookupGo
        (pre ++ (pfx ++ (((c :: v') ++ '/' :: np) ++ tailPath true rest' (v2 :: vs''))))
        f2 (chain e true np rest') (np ++ tailPath true rest' (v2 :: vs''))
        (params ++ [(([] : Str), c :: v')]) camemo := by
      rw [chain_cons]
      simp only [List.append_assoc, List.cons_append]
      rw [lookupGo_step_mk]
      have hpe : pathElem (c :: (v' ++ '/' :: (np ++ tailPath true rest' (v2 :: vs'')))) =
          (c :: v', '/' :: (np ++ tailPath true rest' (v2 :: vs''))) := by
        have h := pathElem_split (c :: v') (np ++ tailPath true rest' (v2 :: vs'')) hv.2
        simpa using h
      have hfc : findChild [('/', chain e true np rest')] '/' =
          some (chain e true np rest') := by simp [findChild]
      simp only [findChild, hpe, List.cons_ne_nil, if_false, reduceIte, rememberCA_none]
      rw [lookupGo_step_nil]
      simp only [hfc, rememberCA_none]
    refine ⟨fun hl => ?_, fun hl => ?_⟩
    · have hl' : (v2 :: vs'').getLast?.getD [] = ['/'] := by
        rw [List.getLast?_cons_cons] at hl
        exact hl
      obtain ⟨fnd, hres, hh, hca⟩ := ih1 hl'
      refine ⟨fnd, ?_, hh, hca⟩
      rw [hstep, hop, hres]
      simp [List.append_assoc]
    · have hl' : (v2 :: vs'').getLast?.getD [] ≠ ['/'] := by
        rw [List.getLast?_cons_cons] at hl
        exact hl
      have hres := ih2 hl'
      rw [hstep, hop, hres]
      rw [List.getLast?_cons_cons]
      simp [List.append_assoc]

theorem headD_drop (l : List Str) (n : Nat) : (l.drop n).headD [] = l.getD n [] := by
  simp [List.headD_eq_head?, List.head?_drop, List.getD_eq_getElem?_getD]

/-- On a well-formed static tail, the splice of Pattern.path (starting
at placeholder index 2k+1) equals the explicit tail path over the
remaining values. -/
theorem splice_tailPath (ca : Bool) (vals : List Str) :
    ∀ (tail : List Str) (j k : Nat), wfSegsB tail j ca = true →
      splice ca vals (2 * k + 1) tail = tailPath ca tail (vals.drop k)
  | [], j, k, hwf => rfl
  | [e], j, k, hwf => by
    have he : e = [] := by
      simp only [wfSegsB, Bool.and_eq_true, decide_eq_true_eq] at hwf
      exact hwf.1
    subst he
    have hk : (2 * k + 1) / 2 = k := by omega
    cases ca with
    | false =>
      simp only [splice, ne_eq, not_true_eq_false, if_false, and_false, reduceIte, hk,
        tailPath, headD_drop, List.append_nil]
      simp
    | true =>
      simp only [splice, ne_eq, not_true_eq_false, if_false, and_self, if_true, hk,
        tailPath, headD_drop, List.append_nil, reduceIte]
  | e :: s :: rest', j, k, hwf => by
    rcases j with _ | j'
    · simp [wfSegsB] at hwf
    simp only [wfSegsB, Bool.and_eq_true, decide_eq_true_eq, List.length_cons] at hwf
    obtain ⟨⟨⟨⟨he, hs⟩, hshead⟩, hor⟩, htail⟩ := hwf
    subst he
    have hk : (2 * k + 1) / 2 = k := by omega
    have hne : ¬ ((s :: rest' : List Str) = [] ∧ ca = true) := by simp
    have h3 : 2 * k + 1 + 1 + 1 = 2 * (k + 1) + 1 := by omega
    have hrec := splice_tailPath ca vals rest' j' (k + 1) htail
    simp only [splice, ne_eq, not_true_eq_false, if_false, hne, reduceIte, hk, if_neg hs,
      hs, if_true, h3, hrec, tailPath, headD_drop, List.tail_drop, List.append_assoc]
    rfl

/-- Filling keys positionally into keyless collected values is zip. -/
theorem assignKeys_zip : ∀ (ks : List Str) (vsl : List Str),
    ks.length = vsl.length →
    assignKeys ks (vsl.map (fun v => (([] : Str), v))) = ks.zip vsl
  | [], [], _ => rfl
  | [], v :: vs, h => by simp at h
  | k :: ks', [], h => by simp at h
  | k :: ks', v :: vs, h => by
    simp only [List.map_cons, assignKeys, List.zip_cons_cons]
    rw [assignKeys_zip ks' vs (by simpa using h)]

/-- A non-empty list is its dropLast plus its optional last element. -/
theorem dropLast_getD (l : List Str) (h : l ≠ []) :
    l.dropLast ++ [l.getLast?.getD []] = l := by
  rw [List.getLast?_eq_getLast l h]
  exact List.dropLast_append_getLast h

/-- getValue when the lookup returns a node holding the entry and
keyless collected values: the handler with the zipped parameters. -/
theorem getValue_entry {H : Type} (t : Node H) (m bp : Str) (e : HandlerEntry H)
    (fnd : Node H) (vals : List Str)
    (hlk : t.lookup bp = (some fnd, vals.map (fun v => (([] : Str), v))))
    (hh : fnd.handlers = [e]) (hm : e.method = m)
    (harity : e.pattern.vars.length = vals.length) :
    lookupResult t m bp = (some e.handler, e.pattern.vars.zip vals) := by
  simp only [lookupResult, Node.getValue, hlk, Node.entryForMethod, hh, entryFor]
  rw [if_pos (Or.inr hm)]
  by_cases hv : vals = []
  · subst hv
    simp [finishValue, List.zip_nil_right]
  · simp only [finishValue, if_neg (by simpa using hv : ¬ vals.map
      (fun v => (([] : Str), v)) = [])]
    rw [assignKeys_zip e.pattern.vars vals harity]

/-- getValue when the lookup returns a handlerless node whose catch-all
child holds the entry: the synthetic "/" value is appended and the
handler is resolved from the child. -/
theorem getValue_ca_entry {H : Type} (t : Node H) (m bp : Str) (e : HandlerEntry H)
    (fnd leaf : Node H) (ps : Params) (vals : List Str)
    (hlk : t.lookup bp = (some fnd, ps))
    (hh : fnd.handlers = []) (hca : fnd.catchAll = some leaf)
    (hlh : leaf.handlers = [e]) (hm : e.method = m)
    (hps : ps ++ [(([] : Str), (['/'] : Str))] = vals.map (fun v => (([] : Str), v)))
    (harity : e.pattern.vars.length = vals.length) :
    lookupResult t m bp = (some e.handler, e.pattern.vars.zip vals) := by
  have hvne : ¬ vals.map (fun v => (([] : Str), v)) = [] := by
    rw [← hps]
    simp
  simp only [lookupResult, Node.getValue, hlk, Node.entryForMethod, hh, entryFor, hca,
    hlh]
  rw [if_pos (Or.inr hm), hps]
  simp only [finishValue, if_neg hvne]
  rw [assignKeys_zip e.pattern.vars vals harity]

/-- One registration of a well-formed pattern on a fresh root, then a
lookup of the path built from good values: getValue returns the
registered handler with the pattern's variables zipped to the values. -/
theorem single_route_lookup {H : Type} (pat : Pattern) (m : Str) (h : H) (t : Node H)
    (vals : List Str) (bp : Str)
    (hwf : wfB pat = true)
    (hgv : goodVals pat.catchAll vals)
    (hadd : addRoute (Node.mk ['/'] [] none none []) pat m h = some t)
    (hpath : pat.path vals = .ok bp) :
    lookupResult t m bp = (some h, pat.vars.zip vals) := by
  rcases pat with ⟨static, vars, ca⟩
  rcases static with _ | ⟨s0, tail⟩
  · simp [wfB] at hwf
  simp only [wfB, Bool.and_eq_true, decide_eq_true_eq] at hwf
  obtain ⟨⟨⟨hs0ne, hs0head⟩, hor0⟩, htail0⟩ := hwf
  simp only [Pattern.path] at hpath
  by_cases harity : vals.length = vars.length
  swap
  · rw [if_pos (by simpa using harity)] at hpath
    cases hpath
  rw [if_neg (by simpa using harity)] at hpath
  rw [← harity] at htail0
  have hbp := pathLoop_ok ca vals (s0 :: tail) 0 bp hpath
  have hsp : splice ca vals 0 (s0 :: tail) = s0 ++ tailPath ca tail vals := by
    have h1 := splice_tailPath ca vals tail vals.length 0 htail0
    rw [show 2 * 0 + 1 = 0 + 1 from rfl, List.drop_zero] at h1
    simp only [splice, ne_eq, hs0ne, not_false_eq_true, if_true, h1]
  rw [hsp] at hbp
  subst hbp
  rcases s0 with _ | ⟨ch0, s0t⟩
  · exact absurd rfl hs0ne
  have hch0 : ch0 = '/' := by simpa using hs0head
  subst hch0
  rcases s0t with _ | ⟨c2, s0r⟩
  · -- the leading static run is exactly "/": the chain starts at the root
    have hins := insert_fresh m h (Pattern.mk (['/'] :: tail) vars ca) ca vars tail
      vals.length ['/']
      (insWeight ['/'] { static := tail, vars := vars, catchAll := ca } + 1)
      htail0 (Nat.lt_succ_self _)
    simp only [addRoute, hins] at hadd
    have ht := Option.some.inj hadd
    subst ht
    cases ca with
    | false =>
      obtain ⟨fnd, hres, hh, _⟩ :=
        lookup_chain_nonca (HandlerEntry.mk m h (Pattern.mk (['/'] :: tail) vars false))
          (['/'] ++ tailPath false tail vals) tail vals ['/'] [] none
          ((['/'] ++ tailPath false tail vals).length + 1)
          htail0 hgv (Nat.lt_succ_self _)
      exact getValue_entry _ m _ _ fnd vals hres hh rfl harity.symm
    | true =>
      have hvpos : 1 ≤ vals.length := wfSegs_ca_pos tail vals.length htail0
      have hvalsne : vals ≠ [] := by
        intro hx
        rw [hx] at hvpos
        simp at hvpos
      obtain ⟨ih1, ih2⟩ :=
        lookup_chain_ca (HandlerEntry.mk m h (Pattern.mk (['/'] :: tail) vars true))
          tail vals ['/'] [] [] none
          ((['/'] ++ tailPath true tail vals).length + 1)
          htail0 hgv rfl (Nat.lt_succ_self _)
      have hrecon : vals.dropLast ++ [vals.getLast?.getD []] = vals :=
        dropLast_getD vals hvalsne
      by_cases hlast : vals.getLast?.getD [] = ['/']
      · obtain ⟨fnd, hres, hh, hca2⟩ := ih1 hlast
        refine getValue_ca_entry _ m _ _ fnd (Node.mk [] [] none none
          [HandlerEntry.mk m h (Pattern.mk (['/'] :: tail) vars true)])
          (vals.dropLast.map (fun v => (([] : Str), v))) vals hres hh hca2 rfl rfl ?_
          harity.symm
        rw [hlast] at hrecon
        conv_rhs => rw [← hrecon]
        rw [List.map_append]
        rfl
      · have hres := ih2 hlast
        refine getValue_entry _ m _ _ (Node.mk [] [] none none
          [HandlerEntry.mk m h (Pattern.mk (['/'] :: tail) vars true)]) vals ?_ rfl rfl
          harity.symm
        have hmap : vals.map (fun v => (([] : Str), v)) =
            vals.dropLast.map (fun v => (([] : Str), v)) ++
              [(([] : Str), vals.getLast?.getD [])] := by
          conv_lhs => rw [← hrecon]
          rw [List.map_append]
          rfl
        rw [hmap]
        exact hres
  · -- the leading static run continues past "/": one child hop first
    have hb : insWeight s0r { static := tail, vars := vars, catchAll := ca } <
        insWeight ('/' :: c2 :: s0r) { static := tail, vars := vars, catchAll := ca } := by
      simp only [insWeight, List.length_cons]
      omega
    have hins := insert_fresh m h (Pattern.mk (('/' :: c2 :: s0r) :: tail) vars ca) ca vars
      tail vals.length s0r
      (insWeight ('/' :: c2 :: s0r) { static := tail, vars := vars, catchAll := ca })
      htail0 hb
    have hcp : commonPref ('/' :: c2 :: s0r) ['/'] = ['/'] := rfl
    simp only [addRoute, addStaticPref, Node.path, hcp, lt_self_iff_false, if_false,
      List.length_cons, List.length_nil, List.drop_succ_cons,
      List.drop_zero, findChild, hins, Node.withChildren, List.nil_append] at hadd
    rw [if_pos (show 0 + 1 < s0r.length + 1 + 1 by omega)] at hadd
    simp only [Node.children, List.nil_append] at hadd
    have ht := Option.some.inj hadd
    subst ht
    have hlk0 : (Node.mk ['/']
        [(c2, chain (HandlerEntry.mk m h (Pattern.mk (('/' :: c2 :: s0r) :: tail) vars ca))
          ca s0r tail)] none none ([] : List (HandlerEntry H))).lookup
        (('/' :: c2 :: s0r) ++ tailPath ca tail vals) =
      lookupGo (('/' :: c2 :: s0r) ++ tailPath ca tail vals)
        ((('/' :: c2 :: s0r) ++ tailPath ca tail vals).length)
        (chain (HandlerEntry.mk m h (Pattern.mk (('/' :: c2 :: s0r) :: tail) vars ca))
          ca s0r tail)
        (s0r ++ tailPath ca tail vals) [] none := by
      have hfc : findChild [(c2, chain
          (HandlerEntry.mk m h (Pattern.mk (('/' :: c2 :: s0r) :: tail) vars ca))
          ca s0r tail)] c2 =
        some (chain (HandlerEntry.mk m h (Pattern.mk (('/' :: c2 :: s0r) :: tail) vars ca))
          ca s0r tail) := by simp [findChild]
      have h0 := lookupGo_step_mk (('/' :: c2 :: s0r) ++ tailPath ca tail vals)
        ((('/' :: c2 :: s0r) ++ tailPath ca tail vals).length) ['/']
        [(c2, chain (HandlerEntry.mk m h (Pattern.mk (('/' :: c2 :: s0r) :: tail) vars ca))
          ca s0r tail)] none none ([] : List (HandlerEntry H)) c2
        (s0r ++ tailPath ca tail vals) ([] : Params) none
      rw [hfc] at h0
      exact h0
    cases ca with
    | false =>
      obtain ⟨fnd, hres, hh, _⟩ :=
        lookup_chain_nonca
          (HandlerEntry.mk m h (Pattern.mk (('/' :: c2 :: s0r) :: tail) vars false))
          (('/' :: c2 :: s0r) ++ tailPath false tail vals) tail vals s0r [] none
          ((('/' :: c2 :: s0r) ++ tailPath false tail vals).length)
          htail0 hgv (by simp only [List.length_append, List.length_cons]; omega)
      refine getValue_entry _ m _ _ fnd vals ?_ hh rfl harity.symm
      rw [hlk0]
      exact hres
    | true =>
      have hvpos : 1 ≤ vals.length := wfSegs_ca_pos tail vals.length htail0
      have hvalsne : vals ≠ [] := by
        intro hx
        rw [hx] at hvpos
        simp at hvpos
      have htailne : tail ≠ [] := by
        intro hx
        rw [hx] at htail0
        simp [wfSegsB] at htail0
      have hs0last : ('/' :: c2 :: s0r).getLast? = some '/' := by
        rcases tail with _ | _
        · exact absurd rfl htailne
        · simpa using hor0
      obtain ⟨ih1, ih2⟩ :=
        lookup_chain_ca
          (HandlerEntry.mk m h (Pattern.mk (('/' :: c2 :: s0r) :: tail) vars true))
          tail vals s0r ['/', c2] ([] : Params) none
          ((('/' :: c2 :: s0r) ++ tailPath true tail vals).length)
          htail0 hgv hs0last (by simp only [List.length_append, List.length_cons]; omega)
      have hrecon : vals.dropLast ++ [vals.getLast?.getD []] = vals :=
        dropLast_getD vals hvalsne
      by_cases hlast : vals.getLast?.getD [] = ['/']
      · obtain ⟨fnd, hres, hh, hca2⟩ := ih1 hlast
        refine getValue_ca_entry _ m _ _ fnd (Node.mk [] [] none none
          [HandlerEntry.mk m h (Pattern.mk (('/' :: c2 :: s0r) :: tail) vars true)])
          (vals.dropLast.map (fun v => (([] : Str), v))) vals ?_ hh hca2 rfl rfl ?_
          harity.symm
        · rw [hlk0]
          exact hres
        · rw [hlast] at hrecon
          conv_rhs => rw [← hrecon]
          rw [List.map_append]
          rfl
      · have hres := ih2 hlast
        refine getValue_entry _ m _ _ (Node.mk [] [] none none
          [HandlerEntry.mk m h (Pattern.mk (('/' :: c2 :: s0r) :: tail) vars true)])
          vals ?_ rfl rfl harity.symm
        have hmap : vals.map (fun v => (([] : Str), v)) =
            vals.dropLast.map (fun v => (([] : Str), v)) ++
              [(([] : Str), vals.getLast?.getD [])] := by
          conv_lhs => rw [← hrecon]
          rw [List.map_append]
          rfl
        rw [hlk0, hmap]
        exact hres

/-- C5 counterexample: the claim's conditions allow values containing
slashes and routers with more than one pattern, and then the round trip
fails.  With only `/:x` registered, the value "a/b" is non-empty and
the pattern has no catch-all, and building gives /a/b, yet looking /a/b
up returns no handler and an empty parameter list; with `/:x` and
`/foo` both registered, building /:x with value "foo" gives /foo, whose
lookup returns the handler of /foo with an empty parameter list instead
of {x: "foo"}. -/
theorem build_lookup_roundtrip_counterexample :
    ((ParsePattern (S "/:x")).map (fun pat => pat.path [S "a/b"]) =
      .ok (.ok (S "/a/b"))) ∧
    ((regAll [(S "GET", S "/:x")]).map
        (fun n => lookupResult n (S "GET") (S "/a/b")) = some (none, [])) ∧
    ((ParsePattern (S "/:x")).map (fun pat => pat.path [S "foo"]) =
      .ok (.ok (S "/foo"))) ∧
    ((regAll [(S "GET", S "/:x"), (S "GET", S "/foo")]).map
        (fun n => lookupResult n (S "GET") (S "/foo")) = some (some 1, [])) :=
  ⟨rfl, rfl, rfl, rfl⟩

/-- C5 (amended): for a router holding exactly one registered pattern,
with every single-segment value non-empty and slash-free and the
catch-all value (if any) starting with '/', building the path with
Pattern.path and looking it up returns the registered handler with the
pattern's variables zipped to the given values, in order. -/
theorem build_lookup_roundtrip_amended (H : Type) (pat : Pattern) (m : Str) (h : H)
    (t : Node H) (vals : List Str) (bp : Str)
    (hwf : wfB pat = true)
    (hgv : goodVals pat.catchAll vals)
    (hadd : addRoute (Node.mk ['/'] [] none none []) pat m h = some t)
    (hpath : pat.path vals = .ok bp) :
    lookupResult t m bp = (some h, pat.vars.zip vals) :=
  single_route_lookup pat m h t vals bp hwf hgv hadd hpath

/-- C5 witness: the amended round trip at the pattern /u/:x/*r with
values "a" and "/b/c": the built path /u/a/b/c resolves to the
registered handler with params {x: a, r: /b/c}. -/
theorem build_lookup_roundtrip_amended_witness :
    lookupResult
        ((addRoute (Node.mk ['/'] [] none none [])
          (Pattern.mk [S "/u/", [], S "/", []] [S "x", S "r"] true)
          (S "GET") (0 : Nat)).getD (Node.mk [] [] none none []))
        (S "GET") (S "/u/a/b/c") =
      (some 0, (Pattern.mk [S "/u/", [], S "/", []] [S "x", S "r"] true).vars.zip
        [S "a", S "/b/c"]) :=
  build_lookup_roundtrip_amended Nat
    (Pattern.mk [S "/u/", [], S "/", []] [S "x", S "r"] true) (S "GET") 0
    ((addRoute (Node.mk ['/'] [] none none [])
      (Pattern.mk [S "/u/", [], S "/", []] [S "x", S "r"] true)
      (S "GET") (0 : Nat)).getD (Node.mk [] [] none none []))
    [S "a", S "/b/c"] (S "/u/a/b/c")
    (by rfl) (by constructor <;> simp [goodVals, S]) (by rfl) (by rfl)

/-! ### Insertion-order independence: the uncompressed view of the tree

The compressed radix tree is compared across insertion orders through
an uncompressed one-byte-per-level view in which child maps and
handler tables are functions (so that insertion order cannot leave a
trace in a list ordering).  A Boolean mark distinguishes positions that
are real nodes of the compressed tree (where an exhausted path is a
successful arrival) from positions in the middle of a stored edge. -/

inductive FT (H : Type) : Type where
  | mk (isNode : Bool) (children : Char → Option (FT H)) (wild : Option (FT H))
      (catchAll : Option (FT H)) (handlers : Str → Option (H × Pattern))

def FT.isNode : FT H → Bool
  | .mk b _ _ _ _ => b

def FT.children : FT H → Char → Option (FT H)
  | .mk _ ch _ _ _ => ch

def FT.wild : FT H → Option (FT H)
  | .mk _ _ w _ _ => w

def FT.catchAll : FT H → Option (FT H)
  | .mk _ _ _ ca _ => ca

def FT.handlers : FT H → Str → Option (H × Pattern)
  | .mk _ _ _ _ hf => hf

def FT.withIsNode : FT H → Bool → FT H
  | .mk _ ch w ca hf, b => .mk b ch w ca hf

def FT.withChild : FT H → Char → FT H → FT H
  | .mk b ch w ca hf, c, t => .mk b (fun x => if x = c then some t else ch x) w ca hf

def FT.withWild : FT H → Option (FT H) → FT H
  | .mk b ch _ ca hf, w => .mk b ch w ca hf

def FT.withCatchAll : FT H → Option (FT H) → FT H
  | .mk b ch w _ hf, ca => .mk b ch w ca hf

def FT.withHandlers : FT H → (Str → Option (H × Pattern)) → FT H
  | .mk b ch w ca _, hf => .mk b ch w ca hf

/-- The empty handler table. -/
def hEmpty : Str → Option (H × Pattern) := fun _ => none

/-- The empty child map. -/
def chEmpty : Char → Option (FT H) := fun _ => none

/-- A fresh boundary node of the uncompressed view. -/
def ftFresh : FT H := .mk true chEmpty none none hEmpty

/-- Wraps a tree under a chain of single-child mid-edge positions, one
per byte of the stored path. -/
def wrapP : Str → FT H → FT H
  | [], t => t
  | c :: rest, t =>
    .mk false (fun b => if c = b then some (wrapP rest t) else none) none none hEmpty

/-- The canonical handler table of a handler list: lookup by exact
method. -/
def hOfList (hs : List (HandlerEntry H)) : Str → Option (H × Pattern) :=
  fun m => (hs.find? (fun e => decide (e.method = m))).map (fun e => (e.handler, e.pattern))

/-- setHandler on a handler table: fails exactly on an exact-method
duplicate, otherwise binds the method. -/
def ftSetH (f : Str → Option (H × Pattern)) (m : Str) (h : H) (pat : Pattern) :
    Option (Str → Option (H × Pattern)) :=
  match f m with
  | some _ => none
  | none => some (fun m' => if m' = m then some (h, pat) else f m')

mutual
/-- The uncompressed view of a compressed node: its stored path becomes
a chain of mid-edge positions ending in a boundary node carrying the
translated children, wildcards and handler table. -/
def flatten : Node H → FT H
  | .mk path ch w ca hs =>
    wrapP path (.mk true (flattenCh ch) (flattenO w) (flattenO ca) (hOfList hs))

def flattenCh : List (Char × Node H) → Char → Option (FT H)
  | [], _ => none
  | (c, n) :: rest, b => if c = b then some (flatten n) else flattenCh rest b

def flattenO : Option (Node H) → Option (FT H)
  | none => none
  | some n => some (flatten n)
end

theorem flattenCh_findChild (ch : List (Char × Node H)) (b : Char) :
    flattenCh ch b = (findChild ch b).map flatten := by
  induction ch with
  | nil => rfl
  | cons p rest ih =>
    rcases p with ⟨c, n⟩
    simp only [flattenCh, findChild]
    by_cases hc : c = b
    · rw [if_pos hc, if_pos hc]
      rfl
    · rw [if_neg hc, if_neg hc]
      exact ih

/-- The lookup fallback on the uncompressed view (same value formula as
lookupFall). -/
def ftFall (origPath : Str) : Option (FT H × Str × Params) → Option (FT H) × Params
  | none => (none, [])
  | some (ca, caPath, caParams) =>
    (some ca, caParams ++ [([], origPath.drop (origPath.length - caPath.length - 1))])

/-- The catch-all memo update on the uncompressed view. -/
def ftRemember (t : FT H) (rest : Str) (params : Params)
    (ca : Option (FT H × Str × Params)) : Option (FT H × Str × Params) :=
  match t.catchAll with
  | some c => some (c, rest, params)
  | none => ca

/-- The lookup loop on the uncompressed view: one byte per step, an
exhausted path succeeds only at a boundary position. -/
def ftLookup (origPath : Str) : Nat → FT H → Str → Params →
    Option (FT H × Str × Params) → Option (FT H) × Params
  | 0, _, _, _, ca => ftFall origPath ca
  | fuel + 1, t, path, params, ca =>
    match path with
    | [] => if t.isNode then (some t, params) else ftFall origPath ca
    | b :: rest =>
      let ca' := ftRemember t (b :: rest) params ca
      match t.children b with
      | some child => ftLookup origPath fuel child rest params ca'
      | none =>
        match t.wild with
        | none => ftFall origPath ca'
        | some w =>
          if (pathElem (b :: rest)).1 = [] then ftFall origPath ca'
          else ftLookup origPath fuel w (pathElem (b :: rest)).2
            (params ++ [([], (pathElem (b :: rest)).1)]) ca'

/-- ftLookup does not depend on the fuel once it exceeds the path
length. -/
theorem ftLookup_fuel (org : Str) : ∀ (f1 f2 : Nat) (t : FT H) (path : Str)
    (params : Params) (camemo : Option (FT H × Str × Params)),
    path.length < f1 → path.length < f2 →
    ftLookup org f1 t path params camemo = ftLookup org f2 t path params camemo
  | 0, _, _, path, _, _, h1, _ => absurd h1 (by omega)
  | _ + 1, 0, _, path, _, _, _, h2 => absurd h2 (by omega)
  | a + 1, b + 1, t, path, params, camemo, h1, h2 => by
    cases path with
    | nil => rfl
    | cons c rest =>
      simp only [ftLookup]
      cases hch : t.children c with
      | some child =>
        simp only [hch]
        exact ftLookup_fuel org a b child rest params _
          (by simp only [List.length_cons] at h1; omega)
          (by simp only [List.length_cons] at h2; omega)
      | none =>
        simp only [hch]
        cases hw : t.wild with
        | none => simp only [hw]
        | some w =>
          simp only [hw]
          by_cases he : (pathElem (c :: rest)).1 = []
          · rw [if_pos he, if_pos he]
          · rw [if_neg he, if_neg he]
            have hlt := pathElem_snd_lt (c :: rest) he
            exact ftLookup_fuel org a b w _ _ _
              (by simp only [List.length_cons] at h1 hlt ⊢; omega)
              (by simp only [List.length_cons] at h2 hlt ⊢; omega)

/-- Walking an edge of the uncompressed view: the bytes of the wrapped
path are consumed literally, and any mismatch or mid-edge exhaustion
falls back with the memo unchanged. -/
theorem ftLookup_wrap (org : Str) : ∀ (p : Str) (ffuel : Nat) (inner : FT H)
    (path : Str) (params : Params) (camemo : Option (FT H × Str × Params)),
    path.length < ffuel →
    ftLookup org ffuel (wrapP p inner) path params camemo =
      if path.take p.length = p
      then ftLookup org (ffuel - p.length) inner (path.drop p.length) params camemo
      else ftFall org camemo
  | [], ffuel, inner, path, params, camemo, hf => by
    simp only [wrapP, List.length_nil, List.take_zero, if_pos rfl, Nat.sub_zero,
      List.drop_zero, if_true]
  | c :: p', ffuel, inner, path, params, camemo, hf => by
    rcases ffuel with _ | f
    · omega
    cases path with
    | nil =>
      have hne : ¬ (([] : Str).take (c :: p').length = c :: p') := by
        simp [List.take_nil]
      rw [if_neg hne]
      rfl
    | cons b rest =>
      simp only [ftLookup, wrapP, FT.children, FT.wild, FT.catchAll, ftRemember,
        List.length_cons, List.take_succ_cons, List.drop_succ_cons]
      by_cases hb : c = b
      · subst hb
        rw [if_pos rfl]
        have ih := ftLookup_wrap org p' f inner rest params camemo
          (by simp only [List.length_cons] at hf; omega)
        show ftLookup org f (wrapP p' inner) rest params camemo = _
        rw [ih]
        have harith : f + 1 - (p'.length + 1) = f - p'.length := by omega
        rw [harith]
        by_cases htake : rest.take p'.length = p'
        · rw [if_pos htake, if_pos (by rw [htake])]
        · rw [if_neg htake, if_neg (by simp [htake])]
      · rw [if_neg hb]
        rw [if_neg (by
          simp only [List.cons.injEq, not_and]
          intro hx
          exact absurd hx.symm hb)]

/-- The boundary node of the uncompressed view, without the path
wrapper. -/
def fnode : Node H → FT H
  | .mk _ ch w ca hs => .mk true (flattenCh ch) (flattenO w) (flattenO ca) (hOfList hs)

theorem flatten_eq_wrap (n : Node H) : flatten n = wrapP n.path (fnode n) := by
  cases n
  simp [flatten, fnode, Node.path]

/-- The image of a compressed catch-all memo in the uncompressed view. -/
def mapMemo : Option (Node H × Str × Params) → Option (FT H × Str × Params) :=
  Option.map (fun x => (fnode x.1, x.2.1, x.2.2))

theorem ftFall_map (org : Str) (x : Option (Node H × Str × Params)) :
    ftFall org (mapMemo x) = ((lookupFall org x).1.map fnode, (lookupFall org x).2) := by
  cases x with
  | none => rfl
  | some y =>
    rcases y with ⟨nd, s, ps⟩
    rfl

/-- Well-formedness of handler lists as maintained by setHandler: a
wildcard-method entry can only be last. -/
def hOK (hs : List (HandlerEntry H)) : Prop :=
  ∀ e ∈ hs.dropLast, e.method ≠ ['*']

/-- Invariants of reachable trees: every handler list is hOK and every
wildcard or catch-all child sits at an empty stored path. -/
inductive NodeOK : Node H → Prop where
  | mk {path : Str} {ch : List (Char × Node H)} {w ca : Option (Node H)}
      {hs : List (HandlerEntry H)} :
      hOK hs →
      (∀ c n', (c, n') ∈ ch → NodeOK n') →
      (∀ wn, w = some wn → wn.path = []) →
      (∀ wn, w = some wn → NodeOK wn) →
      (∀ cn, ca = some cn → cn.path = []) →
      (∀ cn, ca = some cn → NodeOK cn) →
      NodeOK (.mk path ch w ca hs)

theorem findChild_mem : ∀ (ch : List (Char × Node H)) (b : Char) (child : Node H),
    findChild ch b = some child → ∃ c, (c, child) ∈ ch
  | [], _, _, h => by cases h
  | (c, n) :: rest, b, child, h => by
    simp only [findChild] at h
    by_cases hc : c = b
    · rw [if_pos hc] at h
      cases h
      exact ⟨c, by simp⟩
    · rw [if_neg hc] at h
      obtain ⟨c', hc'⟩ := findChild_mem rest b child h
      exact ⟨c', by simp [hc']⟩

theorem nodeOK_hOK {n : Node H} (h : NodeOK n) : hOK n.handlers := by
  cases h
  assumption

theorem nodeOK_child {n : Node H} {b : Char} {child : Node H} (h : NodeOK n)
    (hc : findChild n.children b = some child) : NodeOK child := by
  cases h with
  | mk h1 h2 h3 h4 h5 h6 =>
    obtain ⟨c, hmem⟩ := findChild_mem _ b child hc
    exact h2 c child hmem

theorem nodeOK_wild {n : Node H} {wn : Node H} (h : NodeOK n)
    (hw : n.wild = some wn) : wn.path = [] ∧ NodeOK wn := by
  cases h with
  | mk h1 h2 h3 h4 h5 h6 => exact ⟨h3 wn hw, h4 wn hw⟩

theorem nodeOK_ca {n : Node H} {cn : Node H} (h : NodeOK n)
    (hc : n.catchAll = some cn) : cn.path = [] ∧ NodeOK cn := by
  cases h with
  | mk h1 h2 h3 h4 h5 h6 => exact ⟨h5 cn hc, h6 cn hc⟩

/-- The lookup loops agree: the uncompressed lookup of the flattened
tree computes the compressed lookup's result, found nodes translated
to their boundary views. -/
theorem flatten_lookupGo (org : Str) : ∀ (cfuel : Nat) (n : Node H) (path : Str)
    (params : Params) (camemo : Option (Node H × Str × Params)) (ffuel : Nat),
    NodeOK n →
    path.length < cfuel → path.length < ffuel →
    ftLookup org ffuel (flatten n) path params (mapMemo camemo) =
      ((lookupGo org cfuel n path params camemo).1.map fnode,
       (lookupGo org cfuel n path params camemo).2)
  | 0, _, path, _, _, _, _, hc, _ => absurd hc (by omega)
  | c + 1, n, path, params, camemo, ffuel, hok, hc, hf => by
    rcases n with ⟨np, nch, nw, nca, nhs⟩
    rw [flatten_eq_wrap, ftLookup_wrap org _ ffuel _ path params _ hf]
    simp only [Node.path, Node.children, Node.wild, fnode, lookupGo]
    by_cases hpre : path.take np.length = np
    · have hlen : ¬ path.length < np.length := by
        have hh := congrArg List.length hpre
        simp only [List.length_take] at hh
        omega
      rw [if_pos hpre, if_neg hlen, if_neg (by simpa using hpre)]
      rcases hdrop : path.drop np.length with _ | ⟨b, rest⟩
      · obtain ⟨g, hg⟩ : ∃ g, ffuel - np.length = g + 1 :=
          ⟨ffuel - np.length - 1, by omega⟩

        rw [hg]
        rfl
      · have hdlen : (path.drop np.length).length = path.length - np.length :=
          List.length_drop np.length path
        rw [hdrop] at hdlen
        simp only [List.length_cons] at hdlen
        obtain ⟨g, hg⟩ : ∃ g, ffuel - np.length = g + 1 :=
          ⟨ffuel - np.length - 1, by omega⟩
        rw [hg]
        simp only [ftLookup, FT.children, FT.wild, FT.catchAll, FT.isNode, ftRemember]
        have hmemo : (match flattenO nca with
            | some cc => some (cc, b :: rest, params)
            | none => mapMemo camemo) =
            mapMemo (rememberCA (Node.mk np nch nw nca nhs) (b :: rest) params camemo) := by
          rcases hnca : nca with _ | cn
          · simp [flattenO, rememberCA, Node.catchAll]
          · have hpc := nodeOK_ca hok
              (by simp only [Node.catchAll]; exact hnca :
                (Node.mk np nch nw nca nhs).catchAll = some cn)
            simp only [flattenO, rememberCA, Node.catchAll, mapMemo, Option.map_some]
            rw [flatten_eq_wrap, hpc.1]
            rfl
        rw [hmemo, flattenCh_findChild]
        rcases hfc : findChild nch b with _ | child
        · rcases hnw : nw with _ | w
          · exact ftFall_map org _
          · simp only [Option.map_none, flattenO]
            by_cases he : (pathElem (b :: rest)).1 = []
            · rw [if_pos he, if_pos he]
              exact ftFall_map org _
            · rw [if_neg he, if_neg he]
              have hwok := nodeOK_wild hok
                (by simp only [Node.wild]; exact hnw :
                  (Node.mk np nch nw nca nhs).wild = some w)
              have hplt := pathElem_snd_lt (b :: rest) he
              exact flatten_lookupGo org c w _ _ _ g hwok.2
                (by simp only [List.length_cons] at hplt ⊢; omega)
                (by simp only [List.length_cons] at hplt ⊢; omega)
        · exact flatten_lookupGo org c child rest params _ g
            (nodeOK_child hok (by simp only [Node.children]; exact hfc))
            (by omega) (by omega)
    · rw [if_neg hpre]
      by_cases hlen2 : path.length < np.length
      · rw [if_pos hlen2]
        exact ftFall_map org camemo
      · rw [if_neg hlen2, if_pos (by simpa using hpre)]
        exact ftFall_map org camemo

theorem hOK_tail {e : HandlerEntry H} {rest : List (HandlerEntry H)}
    (h : hOK (e :: rest)) : hOK rest := by
  intro x hx
  apply h
  rcases rest with _ | ⟨r, rest'⟩
  · simp at hx
  · simp only [List.dropLast_cons₂, List.mem_cons]
    right
    simpa using hx

/-- Under the handler-list invariant, entryForMethod is exact-method
lookup orelse wildcard lookup. -/
theorem entryFor_hOK : ∀ (hs : List (HandlerEntry H)), hOK hs → ∀ (m : Str),
    (entryFor hs m).map (fun e => (e.handler, e.pattern)) =
      (hOfList hs m).or (hOfList hs ['*'])
  | [], _, m => rfl
  | e :: rest, hok, m => by
    simp only [entryFor, hOfList, List.find?]
    by_cases hm : e.method = m
    · rw [if_pos (Or.inr hm)]
      rw [show (decide (e.method = m)) = true by simpa using hm]
      simp
    · by_cases hst : e.method = ['*']
      · rw [if_pos (Or.inl hst)]
        have hrest : rest = [] := by
          rcases rest with _ | ⟨r, rest'⟩
          · rfl
          · exfalso
            exact hok e (by simp [List.dropLast_cons₂]) hst
        subst hrest
        rw [show (decide (e.method = m)) = false by simpa using hm]
        rw [show (decide (e.method = ['*'])) = true by simpa using hst]
        simp [List.find?]
      · rw [if_neg (by tauto)]
        rw [show (decide (e.method = m)) = false by simpa using hm]
        rw [show (decide (e.method = ['*'])) = false by simpa using hst]
        simp only [Bool.false_eq_true, if_false]
        exact entryFor_hOK rest (hOK_tail hok) m

/-- Method resolution on the uncompressed view. -/
def ftEntry (t : FT H) (m : Str) : Option (H × Pattern) :=
  (t.handlers m).or (t.handlers ['*'])

/-- getValue's finishing step on the uncompressed view. -/
def ftFinish (hp : H × Pattern) (params : Params) : Option H × Params :=
  if params = [] then (some hp.1, [])
  else (some hp.1, assignKeys hp.2.vars params)

/-- The observable lookup result on the uncompressed view. -/
def ftResult (t : FT H) (m path : Str) : Option H × Params :=
  match ftLookup path (path.length + 1) t path [] none with
  | (none, _) => (none, [])
  | (some found, params) =>
    match ftEntry found m with
    | some hp => ftFinish hp params
    | none =>
      match found.catchAll with
      | none => (none, [])
      | some caChild =>
        match ftEntry caChild m with
        | none => (none, [])
        | some hp => ftFinish hp (params ++ [([], ['/'])])

/-- Memo contents reachable during lookup are well-formed nodes. -/
def memoOK : Option (Node H × Str × Params) → Prop
  | none => True
  | some x => NodeOK x.1

/-- The node returned by a successful lookup satisfies the tree
invariants. -/
theorem lookup_nodeOK (org : Str) : ∀ (cfuel : Nat) (n : Node H) (path : Str)
    (params : Params) (camemo : Option (Node H × Str × Params)) (fnd : Node H)
    (ps : Params),
    NodeOK n → memoOK camemo →
    lookupGo org cfuel n path params camemo = (some fnd, ps) → NodeOK fnd
  | 0, n, path, params, camemo, fnd, ps, hok, hmem, heq => by
    rcases camemo with _ | x
    · cases heq
    · simp only [lookupGo, lookupFall] at heq
      rcases x with ⟨nd, s, p2⟩
      cases heq
      exact hmem
  | c + 1, n, path, params, camemo, fnd, ps, hok, hmem, heq => by
    have hfall : ∀ (cm : Option (Node H × Str × Params)), memoOK cm →
        lookupFall org cm = (some fnd, ps) → NodeOK fnd := by
      intro cm hcm heq2
      rcases cm with _ | x
      · cases heq2
      · rcases x with ⟨nd, s, p2⟩
        simp only [lookupFall, Prod.mk.injEq, Option.some.injEq] at heq2
        rw [← heq2.1]
        exact hcm
    simp only [lookupGo] at heq
    by_cases h1 : path.length < n.path.length
    · rw [if_pos h1] at heq
      exact hfall camemo hmem heq
    rw [if_neg h1] at heq
    by_cases h2 : path.take n.path.length ≠ n.path
    · rw [if_pos h2] at heq
      exact hfall camemo hmem heq
    rw [if_neg h2] at heq
    split at heq
    · simp only [Prod.mk.injEq, Option.some.injEq] at heq
      rw [← heq.1]
      exact hok
    · rename_i b rest hdrop
      have hmem' : memoOK (rememberCA n (b :: rest) params camemo) := by
        rcases hnca : n.catchAll with _ | cn
        · simpa [rememberCA, hnca] using hmem
        · simp only [rememberCA, hnca, memoOK]
          exact (nodeOK_ca hok hnca).2
      split at heq
      · rename_i child hfc
        exact lookup_nodeOK org c child rest params _ fnd ps (nodeOK_child hok hfc)
          hmem' heq
      · rename_i hfc
        split at heq
        · rename_i hnw
          exact hfall _ hmem' heq
        · rename_i w hnw
          by_cases he : (pathElem (b :: rest)).1 = []
          · rw [if_pos he] at heq
            exact hfall _ hmem' heq
          · rw [if_neg he] at heq
            exact lookup_nodeOK org c w _ _ _ fnd ps (nodeOK_wild hok hnw).2 hmem' heq

theorem fnode_handlers (n : Node H) : (fnode n).handlers = hOfList n.handlers := by
  cases n
  rfl

theorem fnode_catchAll (n : Node H) : (fnode n).catchAll = flattenO n.catchAll := by
  cases n
  rfl

/-- The observable lookup result (handler and parameters) of a
well-formed tree is computed by its uncompressed view. -/
theorem lookupResult_flatten {H : Type} (t : Node H) (m p : Str) (hok : NodeOK t) :
    lookupResult t m p = ftResult (flatten t) m p := by
  have hcorr := flatten_lookupGo p (p.length + 1) t p [] none (p.length + 1) hok
    (Nat.lt_succ_self _) (Nat.lt_succ_self _)
  rw [show mapMemo (none : Option (Node H × Str × Params)) = none from rfl] at hcorr
  rcases hlk : lookupGo p (p.length + 1) t p [] none with ⟨fo, ps⟩
  rcases fo with _ | fnd
  · simp only [hlk, Option.map_none'] at hcorr
    simp only [lookupResult, Node.getValue, Node.lookup, hlk, ftResult, hcorr]
  · simp only [hlk, Option.map_some'] at hcorr
    have hfok : NodeOK fnd :=
      lookup_nodeOK p (p.length + 1) t p [] none fnd ps hok trivial hlk
    simp only [lookupResult, Node.getValue, Node.lookup, hlk, Node.entryForMethod,
      ftResult, hcorr, ftEntry, fnode_handlers, fnode_catchAll]
    rw [← entryFor_hOK fnd.handlers (nodeOK_hOK hfok) m]
    rcases hef : entryFor fnd.handlers m with _ | e
    · simp only [Option.map_none']
      rcases hfca : fnd.catchAll with _ | cachild
      · simp only [flattenO]
      · simp only [flattenO]
        have hcaok := nodeOK_ca hfok hfca
        rw [flatten_eq_wrap, hcaok.1]
        simp only [wrapP, ftEntry, fnode_handlers]
        rw [← entryFor_hOK cachild.handlers (nodeOK_hOK hcaok.2) m]
        rcases entryFor cachild.handlers m with _ | e2
        · simp
        · simp only [Option.map_some']
          by_cases hps : ps ++ [(([] : Str), (['/'] : Str))] = []
          · simp [finishValue, ftFinish, hps]
          · simp [finishValue, ftFinish, hps]
    · simp only [Option.map_some']
      by_cases hps : ps = []
      · simp [finishValue, ftFinish, hps]
      · simp [finishValue, ftFinish, hps]

mutual
/-- Insertion on the uncompressed view: the remaining static prefix is
walked byte by byte; a missing byte attaches a fresh chain (and marks
the current position as a node, which is what the compressed split
does); an exhausted prefix marks the position and processes the
remaining pattern elements there. -/
def ftAdd : FT H → Str → Pattern → Str → H → Pattern → Option (FT H)
  | t, [], pat, m, h, origPat => ftArr (t.withIsNode true) pat m h origPat
  | t, c :: pfx2, pat, m, h, origPat =>
    match t.children c with
    | some child =>
      match ftAdd child pfx2 pat m h origPat with
      | none => none
      | some child2 => some (t.withChild c child2)
    | none =>
      match ftArr ftFresh pat m h origPat with
      | none => none
      | some inner => some ((t.withIsNode true).withChild c (wrapP pfx2 inner))
  termination_by _ pfx pat _ _ _ => (pat.static.length, pfx.length + 1)

/-- The arrival step of the uncompressed insertion: handler
registration, wildcard or catch-all attachment, and descent into the
next static run of the pattern. -/
def ftArr : FT H → Pattern → Str → H → Pattern → Option (FT H)
  | t, ⟨[], _, _⟩, m, h, origPat =>
    (ftSetH t.handlers m h origPat).map (fun f => t.withHandlers f)
  | t, ⟨[_], _, ca⟩, m, h, origPat =>
    let w := (if ca then t.catchAll else t.wild).getD ftFresh
    match (ftSetH w.handlers m h origPat).map (fun f => w.withHandlers f) with
    | none => none
    | some w2 => some (if ca then t.withCatchAll (some w2) else t.withWild (some w2))
  | t, ⟨_ :: nextPfx :: staticRest2, vs, ca⟩, m, h, origPat =>
    let w := t.wild.getD ftFresh
    match ftAdd w nextPfx ⟨staticRest2, vs, ca⟩ m h origPat with
    | none => none
    | some w2 => some (t.withWild (some w2))
  termination_by _ pat _ _ _ => (pat.static.length, 0)
end

theorem wrapP_append (a b : Str) (t : FT H) :
    wrapP (a ++ b) t = wrapP a (wrapP b t) := by
  induction a with
  | nil => rfl
  | cons c a' ih => simp only [List.cons_append, wrapP, List.append_eq, ih]

theorem wrap_withChild (c : Char) (p2 : Str) (inner X : FT H) :
    (wrapP (c :: p2) inner).withChild c X = wrapP [c] X := by
  simp only [wrapP, FT.withChild]
  congr 1
  funext b
  by_cases hb : b = c
  · subst hb
    rw [if_pos rfl, if_pos rfl]
  · rw [if_neg hb, if_neg (fun hx => hb hx.symm), if_neg (fun hx => hb hx.symm)]

theorem hOfList_nil : hOfList ([] : List (HandlerEntry H)) = hEmpty := by
  funext m
  rfl

theorem flattenCh_nil : flattenCh ([] : List (Char × Node H)) = chEmpty := by
  funext b
  simp [flattenCh, chEmpty]

theorem fnode_empty (pfx : Str) :
    fnode (Node.mk pfx [] none none ([] : List (HandlerEntry H))) = ftFresh := by
  simp only [fnode, flattenO, hOfList_nil, flattenCh_nil, ftFresh]

theorem flatten_empty (pfx : Str) :
    flatten (Node.mk pfx [] none none ([] : List (HandlerEntry H))) =
      wrapP pfx ftFresh := by
  rw [flatten_eq_wrap, fnode_empty]
  rfl

theorem nodeOK_fresh (pfx : Str) :
    NodeOK (Node.mk pfx [] none none ([] : List (HandlerEntry H))) := by
  refine NodeOK.mk (by simp [hOK]) ?_ ?_ ?_ ?_ ?_
  · intro c n' hmem
    simp at hmem
  · intro wn hw
    cases hw
  · intro wn hw
    cases hw
  · intro cn hc
    cases hc
  · intro cn hc
    cases hc

theorem commonPref_split : ∀ (a b : Str),
    a = commonPref a b ++ a.drop (commonPref a b).length ∧
    b = commonPref a b ++ b.drop (commonPref a b).length ∧
    (∀ x xs y ys, a.drop (commonPref a b).length = x :: xs →
      b.drop (commonPref a b).length = y :: ys → x ≠ y)
  | [], b => by
    refine ⟨by simp [commonPref], by simp [commonPref], ?_⟩
    intro x xs y ys hx hy
    simp [commonPref] at hx
  | a :: as, [] => by
    refine ⟨by simp [commonPref], by simp [commonPref], ?_⟩
    intro x xs y ys hx hy
    simp [commonPref] at hy
  | a :: as, b :: bs => by
    by_cases hab : a = b
    · obtain ⟨h1, h2, h3⟩ := commonPref_split as bs
      subst hab
      refine ⟨?_, ?_, ?_⟩
      · simp only [commonPref, if_pos rfl, List.length_cons, List.drop_succ_cons,
          List.cons_append]
        exact congrArg (a :: ·) h1
      · simp only [commonPref, if_pos rfl, List.length_cons, List.drop_succ_cons,
          List.cons_append]
        exact congrArg (a :: ·) h2
      · simp only [commonPref, if_pos rfl, List.length_cons, List.drop_succ_cons]
        exact h3
    · refine ⟨by simp [commonPref, hab], by simp [commonPref, hab], ?_⟩
      intro x xs y ys hx hy
      simp only [commonPref, if_neg hab, List.length_nil, List.drop_zero] at hx hy
      cases hx
      cases hy
      exact hab

theorem hOK_decomp {H : Type} (hs : List (HandlerEntry H)) (hok : hOK hs) :
    ∃ ns st, hs = ns ++ st ∧ (∀ e ∈ ns, ¬ e.method = ['*']) ∧
      (∀ e ∈ st, e.method = ['*']) ∧ st.length ≤ 1 := by
  by_cases hne : hs = []
  · exact ⟨[], [], by simp [hne], by simp, by simp, by simp⟩
  by_cases hlast : (hs.getLast hne).method = ['*']
  · exact ⟨hs.dropLast, [hs.getLast hne], (List.dropLast_append_getLast hne).symm,
      hok, by simpa using hlast, by simp⟩
  · refine ⟨hs, [], by simp, ?_, by simp, by simp⟩
    intro e he
    rcases List.mem_append.mp ((List.dropLast_append_getLast hne).symm ▸ he) with h1 | h1
    · exact hok e h1
    · rw [List.mem_singleton.mp h1]
      exact hlast

/-- setHandler corresponds to the handler-table update of the
uncompressed view, and it preserves the handler-list invariant. -/
theorem setH_corr {H : Type} (hs : List (HandlerEntry H)) (m : Str) (h : H)
    (pat : Pattern) (hok : hOK hs) :
    ((setHandlers hs m h pat).map hOfList = ftSetH (hOfList hs) m h pat) ∧
    (∀ hs', setHandlers hs m h pat = some hs' → hOK hs') := by
  obtain ⟨ns, st, rfl, hns, hst, hstlen⟩ := hOK_decomp hs hok
  have hef := entryFor_split m ns st hns
  have hes := entryFor_star m st hst hstlen
  rcases st with _ | ⟨star, st2⟩
  · simp only [List.append_nil] at hef ⊢
    rcases hfe : List.find? (fun e => decide (e.method = m)) ns with _ | e
    · have hentry : entryFor ns m = none := by
        rw [hef, hes, hfe]
        rfl
      have hofl : hOfList ns m = none := by
        simp only [hOfList, hfe, Option.map_none']
      constructor
      · simp only [setHandlers, hentry, ftSetH, hofl, Option.map_some']
        congr 1
        funext m'
        simp only [hOfList, List.find?_append]
        by_cases hm' : m' = m
        · subst hm'
          simp [hfe, List.find?]
        · rw [if_neg hm']
          have hnone : List.find? (fun e => decide (e.method = m'))
              [(⟨m, h, pat⟩ : HandlerEntry H)] = none := by
            simp only [List.find?]
            rw [show (decide ((⟨m, h, pat⟩ : HandlerEntry H).method = m')) = false by
              simpa using fun hx => hm' hx.symm]
          rw [hnone, Option.or_none]
      · intro hs' heq
        simp only [setHandlers, hentry, Option.some.injEq] at heq
        subst heq
        intro e he
        rw [List.dropLast_concat] at he
        exact hns e he
    · have hem : e.method = m := by
        have := List.find?_some hfe
        simpa using this
      have hentry : entryFor ns m = some e := by
        rw [hef, hes, hfe]
        rfl
      constructor
      · simp only [setHandlers, hentry, if_pos hem, ftSetH, hOfList, hfe,
          Option.map_some', Option.map_none']
      · intro hs' heq
        simp only [setHandlers, hentry, if_pos hem] at heq
        exact Option.noConfusion heq
  · have hst2 : st2 = [] := List.eq_nil_of_length_eq_zero
      (by simp only [List.length_cons] at hstlen; omega)
    subst hst2
    have hstar : star.method = ['*'] := hst star (by simp)
    rcases hfe : List.find? (fun e => decide (e.method = m)) ns with _ | e
    · by_cases hm : m = ['*']
      · have hentry : entryFor (ns ++ [star]) m = some star := by
          rw [hef, hes, hfe]
          rfl
        have hofl : hOfList (ns ++ [star]) m = some (star.handler, star.pattern) := by
          simp only [hOfList, List.find?_append, hfe, Option.none_or]
          rw [show List.find? (fun e => decide (e.method = m)) [star] = some star by
            simp [List.find?, hstar, hm]]
          rfl
        constructor
        · simp only [setHandlers, hentry, if_pos (hstar.trans hm.symm), ftSetH, hofl]
          rfl
        · intro hs' heq
          simp only [setHandlers, hentry, if_pos (hstar.trans hm.symm)] at heq
          exact Option.noConfusion heq
      · have hentry : entryFor (ns ++ [star]) m = some star := by
          rw [hef, hes, hfe]
          rfl
        have hofl : hOfList (ns ++ [star]) m = none := by
          simp only [hOfList, List.find?_append, hfe, Option.none_or]
          rw [show List.find? (fun e => decide (e.method = m)) [star] = none by
            simp only [List.find?]
            rw [show (decide (star.method = m)) = false by
              simpa [hstar] using fun hx => hm hx.symm]]
          rfl
        have hswap : swapLastTwo ((ns ++ [star]) ++ [⟨m, h, pat⟩]) =
            ns ++ [⟨m, h, pat⟩, star] := by
          rw [List.append_assoc]
          exact swapLastTwo_append star ⟨m, h, pat⟩ ns
        have hcond : ¬ star.method = m := fun hx => hm (hx.symm.trans hstar)
        constructor
        · simp only [setHandlers, hentry,
            if_neg hcond, ftSetH, hofl,
            Option.map_some', hswap]
          congr 1
          funext m'
          simp only [hOfList, List.find?_append, hfe, Option.none_or]
          by_cases hm' : m' = m
          · rw [hm', if_pos rfl, hfe, Option.none_or]
            rw [show List.find? (fun e => decide (e.method = m))
                [(⟨m, h, pat⟩ : HandlerEntry H), star] = some ⟨m, h, pat⟩ by
              simp [List.find?]]
            rfl
          · rw [if_neg hm']
            rw [show List.find? (fun e => decide (e.method = m'))
                [(⟨m, h, pat⟩ : HandlerEntry H), star] =
                List.find? (fun e => decide (e.method = m')) [star] by
              simp only [List.find?]
              rw [show (decide ((⟨m, h, pat⟩ : HandlerEntry H).method = m')) = false by
                simpa using fun hx => hm' hx.symm]]
        · intro hs' heq
          simp only [setHandlers, hentry,
            if_neg hcond, hswap,
            Option.some.injEq] at heq
          subst heq
          intro e he
          rw [show ns ++ [(⟨m, h, pat⟩ : HandlerEntry H), star] =
            (ns ++ [⟨m, h, pat⟩]) ++ [star] by simp] at he
          rw [List.dropLast_concat] at he
          rcases List.mem_append.mp he with h1 | h1
          · exact hns e h1
          · rw [List.mem_singleton.mp h1]
            intro hx
            exact hm (by simpa using hx)
    · have hem : e.method = m := by
        have := List.find?_some hfe
        simpa using this
      have hentry : entryFor (ns ++ [star]) m = some e := by
        rw [hef, hes, hfe]
        rfl
      have hofl : hOfList (ns ++ [star]) m = some (e.handler, e.pattern) := by
        simp only [hOfList, List.find?_append, hfe]
        rfl
      constructor
      · simp only [setHandlers, hentry, if_pos hem, ftSetH, hofl]
        rfl
      · intro hs' heq
        simp only [setHandlers, hentry, if_pos hem] at heq
        exact Option.noConfusion heq

theorem flattenCh_replace : ∀ (ch : List (Char × Node H)) (b : Char)
    (child child2 : Node H),
    findChild ch b = some child →
    flattenCh (replaceChild ch b child2) =
      fun x => if x = b then some (flatten child2) else flattenCh ch x
  | [], b, child, child2, h => by cases h
  | (c, n) :: rest, b, child, child2, h => by
    simp only [findChild] at h
    funext x
    by_cases hc : c = b
    · simp only [replaceChild, if_pos hc, flattenCh]
      by_cases hx : x = b
      · rw [if_pos hx, if_pos (hc.trans hx.symm)]
      · have hcx : ¬ c = x := fun hcx => hx (hcx.symm.trans hc)
        rw [if_neg hx, if_neg hcx, if_neg hcx]
    · rw [if_neg hc] at h
      simp only [replaceChild, if_neg hc, flattenCh,
        flattenCh_replace rest b child child2 h]
      by_cases hx : x = b
      · rw [if_pos hx, if_neg (fun hcx => hc (hcx.trans hx)), if_pos hx]
      · rw [if_neg hx, if_neg hx]

theorem flattenCh_append : ∀ (ch : List (Char × Node H)) (b : Char) (fresh : Node H),
    findChild ch b = none →
    flattenCh (ch ++ [(b, fresh)]) =
      fun x => if x = b then some (flatten fresh) else flattenCh ch x
  | [], b, fresh, _ => by
    funext x
    simp only [List.nil_append, flattenCh]
    by_cases hx : x = b
    · rw [if_pos hx.symm, if_pos hx]
    · rw [if_neg (fun hbx => hx hbx.symm), if_neg hx]
  | (c, n) :: rest, b, fresh, h => by
    simp only [findChild] at h
    have hc : ¬ c = b := by
      intro hcb
      rw [if_pos hcb] at h
      cases h
    rw [if_neg hc] at h
    funext x
    simp only [List.cons_append, flattenCh, List.append_eq,
      flattenCh_append rest b fresh h]
    by_cases hx : x = b
    · rw [if_pos hx, if_neg (fun hcx => hc (hcx.trans hx)), if_pos hx]
    · rw [if_neg hx, if_neg hx]

/-- Insertion through a wrapped edge whose bytes are all shared: the
walk descends through the edge and the update happens below it. -/
theorem ftAdd_walk : ∀ (np : Str) (inner : FT H) (pfxRest : Str) (pat : Pattern)
    (m : Str) (h : H) (origPat : Pattern),
    ftAdd (wrapP np inner) (np ++ pfxRest) pat m h origPat =
      (ftAdd inner pfxRest pat m h origPat).map (wrapP np)
  | [], inner, pfxRest, pat, m, h, o => by
    simp only [wrapP, List.nil_append]
    cases ftAdd inner pfxRest pat m h o <;> rfl
  | c :: np', inner, pfxRest, pat, m, h, o => by
    simp only [List.cons_append, ftAdd, wrapP, FT.children]
    simp only [if_true]
    show (match ftAdd (wrapP np' inner) (np' ++ pfxRest) pat m h o with
      | none => none
      | some child2 => some ((wrapP (c :: np') inner).withChild c child2)) = _
    rw [ftAdd_walk np' inner pfxRest pat m h o]
    cases hres : ftAdd inner pfxRest pat m h o with
    | none => rfl
    | some sub =>
      simp only [Option.map_some']
      rw [wrap_withChild]
      rw [← wrapP_append]
      rfl

def Node.withHandlers : Node H → List (HandlerEntry H) → Node H
  | .mk p ch w ca _, hs => .mk p ch w ca hs

theorem setHandler_eq (n : Node H) (m : Str) (h : H) (o : Pattern) :
    n.setHandler m h o = (setHandlers n.handlers m h o).map n.withHandlers := by
  cases n
  rfl

theorem fnode_mark (n : Node H) : (fnode n).withIsNode true = fnode n := by
  cases n
  rfl

theorem fnode_wild (n : Node H) : (fnode n).wild = flattenO n.wild := by
  cases n
  rfl

theorem fnode_withHandlers (n : Node H) (hs : List (HandlerEntry H)) :
    fnode (n.withHandlers hs) = (fnode n).withHandlers (hOfList hs) := by
  cases n
  rfl

theorem fnode_withCatchAll (n : Node H) (x : Option (Node H)) :
    fnode (n.withCatchAll x) = (fnode n).withCatchAll (flattenO x) := by
  cases n
  rfl

theorem fnode_withWild (n : Node H) (x : Option (Node H)) :
    fnode (n.withWild x) = (fnode n).withWild (flattenO x) := by
  cases n
  rfl

theorem withHandlers_path (n : Node H) (hs : List (HandlerEntry H)) :
    (n.withHandlers hs).path = n.path := by
  cases n
  rfl

theorem withCatchAll_path (n : Node H) (x : Option (Node H)) :
    (n.withCatchAll x).path = n.path := by
  cases n
  rfl

theorem withWild_path (n : Node H) (x : Option (Node H)) :
    (n.withWild x).path = n.path := by
  cases n
  rfl

theorem withChildren_path (n : Node H) (ch : List (Char × Node H)) :
    (n.withChildren ch).path = n.path := by
  cases n
  rfl

theorem fnode_withChildren (n : Node H) (ch : List (Char × Node H)) :
    fnode (n.withChildren ch) =
      FT.mk true (flattenCh ch) (flattenO n.wild) (flattenO n.catchAll)
        (hOfList n.handlers) := by
  cases n
  rfl

theorem fnode_def (n : Node H) :
    fnode n =
      FT.mk true (flattenCh n.children) (flattenO n.wild) (flattenO n.catchAll)
        (hOfList n.handlers) := by
  cases n
  rfl

/-- Inserting below a node with the node's own path as remaining
prefix: no split, immediate arrival. -/
theorem addSP_chunk (f : Nat) (n : Node H) (pat : Pattern) (m : Str) (h : H)
    (o : Pattern) :
    addStaticPref (f + 1) n n.path pat m h o =
      (match pat.static with
       | [] => n.setHandler m h o
       | _ :: staticRest =>
         match staticRest with
         | [] =>
           match ((if pat.static.length = 1 ∧ pat.catchAll then n.catchAll
               else n.wild).getD (.mk [] [] none none [])).setHandler m h o with
           | none => none
           | some w2 =>
             some (if pat.static.length = 1 ∧ pat.catchAll then n.withCatchAll (some w2)
               else n.withWild (some w2))
         | nextPfx :: staticRest2 =>
           match addStaticPref f
               ((if pat.static.length = 1 ∧ pat.catchAll then n.catchAll
                 else n.wild).getD (.mk [] [] none none []))
               nextPfx { static := staticRest2, vars := pat.vars, catchAll := pat.catchAll }
               m h o with
           | none => none
           | some w2 =>
             some (if pat.static.length = 1 ∧ pat.catchAll then n.withCatchAll (some w2)
               else n.withWild (some w2))) := by
  simp only [addStaticPref, commonPref_self, lt_self_iff_false, if_false]

theorem fnode_children (n : Node H) : (fnode n).children = flattenCh n.children := by
  cases n
  rfl

theorem nodeOK_repath (p2 : Str) {p : Str} {ch : List (Char × Node H)}
    {w ca : Option (Node H)} {hs : List (HandlerEntry H)}
    (h : NodeOK (Node.mk p ch w ca hs)) : NodeOK (Node.mk p2 ch w ca hs) := by
  cases h with
  | mk h1 h2 h3 h4 h5 h6 => exact NodeOK.mk h1 h2 h3 h4 h5 h6

theorem splitNode_path (n : Node H) (common : Str) (c : Char) (dnR : Str)
    (hdn : n.path.drop common.length = c :: dnR) :
    (splitNode n common).path = common := by
  cases n
  simp only [Node.path] at hdn
  simp only [splitNode, Node.path, hdn]

theorem nodeOK_split (n : Node H) (common : Str) (hok : NodeOK n) :
    NodeOK (splitNode n common) := by
  rcases n with ⟨np, nch, nw, nca, nhs⟩
  simp only [splitNode, Node.path]
  rcases hdn : np.drop common.length with _ | ⟨c, dnR⟩
  · exact hok
  · refine NodeOK.mk (by simp [hOK]) ?_ ?_ ?_ ?_ ?_
    · intro c2 n2 hmem
      simp only [List.mem_singleton, Prod.mk.injEq, Node.children, Node.wild,
        Node.catchAll, Node.handlers] at hmem
      rw [hmem.2]
      exact nodeOK_repath dnR hok
    · intro wn hw
      cases hw
    · intro wn hw
      cases hw
    · intro cn hc
      cases hc
    · intro cn hc
      cases hc

theorem fnode_split (n : Node H) (common : Str) (c : Char) (dnR : Str)
    (hdn : n.path.drop common.length = c :: dnR) :
    fnode (splitNode n common) = (wrapP (c :: dnR) (fnode n)).withIsNode true := by
  rcases n with ⟨np, nch, nw, nca, nhs⟩
  simp only [Node.path] at hdn
  simp only [splitNode, Node.path, hdn, fnode, wrapP, FT.withIsNode]
  congr 1

/-- The wildcard or catch-all slot of a well-formed node, compared with
its uncompressed counterpart. -/
theorem slot_node (wopt : Option (Node H))
    (hwp : ∀ wn, wopt = some wn → wn.path = [] ∧ NodeOK wn) :
    flatten (wopt.getD (Node.mk [] [] none none [])) =
      (flattenO wopt).getD ftFresh ∧
    hOK (wopt.getD (Node.mk [] [] none none [])).handlers ∧
    NodeOK (wopt.getD (Node.mk [] [] none none [])) ∧
    (wopt.getD (Node.mk [] [] none none [])).path = [] := by
  rcases wopt with _ | wn
  · refine ⟨?_, by simp [Node.handlers, hOK], nodeOK_fresh [], rfl⟩
    show flatten (Node.mk [] [] none none []) = (flattenO (none : Option (Node H))).getD ftFresh
    rw [flatten_empty]
    rfl
  · obtain ⟨hp, hok⟩ := hwp wn rfl
    exact ⟨rfl, nodeOK_hOK hok, hok, hp⟩

theorem ftArr_nil (t : FT H) (pv : List Str) (ca : Bool) (m : Str) (h : H) (o : Pattern) :
    ftArr t ⟨[], pv, ca⟩ m h o =
      (ftSetH t.handlers m h o).map (fun f => t.withHandlers f) := by
  simp only [ftArr]

theorem ftArr_one_false (t : FT H) (e0 : Str) (pv : List Str) (m : Str) (h : H)
    (o : Pattern) :
    ftArr t ⟨[e0], pv, false⟩ m h o =
      (match (ftSetH (t.wild.getD ftFresh).handlers m h o).map
          (fun f => (t.wild.getD ftFresh).withHandlers f) with
       | none => none
       | some w2 => some (t.withWild (some w2))) := by
  simp only [ftArr]
  rfl

theorem ftArr_one_true (t : FT H) (e0 : Str) (pv : List Str) (m : Str) (h : H)
    (o : Pattern) :
    ftArr t ⟨[e0], pv, true⟩ m h o =
      (match (ftSetH (t.catchAll.getD ftFresh).handlers m h o).map
          (fun f => (t.catchAll.getD ftFresh).withHandlers f) with
       | none => none
       | some w2 => some (t.withCatchAll (some w2))) := by
  simp only [ftArr]
  rfl

theorem ftArr_cons (t : FT H) (e0 nextPfx : Str) (srest2 : List Str) (pv : List Str)
    (ca : Bool) (m : Str) (h : H) (o : Pattern) :
    ftArr t ⟨e0 :: nextPfx :: srest2, pv, ca⟩ m h o =
      (match ftAdd (t.wild.getD ftFresh) nextPfx ⟨srest2, pv, ca⟩ m h o with
       | none => none
       | some w2 => some (t.withWild (some w2))) := by
  simp only [ftArr]

theorem ftAdd_nil_eq (t : FT H) (pat : Pattern) (m : Str) (h : H) (o : Pattern) :
    ftAdd t [] pat m h o = ftArr (t.withIsNode true) pat m h o := by
  simp only [ftAdd]

theorem ftAdd_cons_some (t child : FT H) (c : Char) (pfx2 : Str) (pat : Pattern)
    (m : Str) (h : H) (o : Pattern) (hc : t.children c = some child) :
    ftAdd t (c :: pfx2) pat m h o = (ftAdd child pfx2 pat m h o).map (t.withChild c) := by
  simp only [ftAdd, hc]
  cases ftAdd child pfx2 pat m h o <;> rfl

theorem ftAdd_cons_none (t : FT H) (c : Char) (pfx2 : Str) (pat : Pattern)
    (m : Str) (h : H) (o : Pattern) (hc : t.children c = none) :
    ftAdd t (c :: pfx2) pat m h o =
      (ftArr ftFresh pat m h o).map
        (fun inner => (t.withIsNode true).withChild c (wrapP pfx2 inner)) := by
  simp only [ftAdd, hc]
  cases ftArr ftFresh pat m h o <;> rfl

theorem fnode_replace (n : Node H) (b : Char) (child child2 : Node H)
    (hfc : findChild n.children b = some child) :
    fnode (n.withChildren (replaceChild n.children b child2)) =
      (fnode n).withChild b (flatten child2) := by
  rw [fnode_withChildren, flattenCh_replace n.children b child child2 hfc, fnode_def]
  rfl

theorem fnode_append (n : Node H) (b : Char) (fresh : Node H)
    (hfc : findChild n.children b = none) :
    fnode (n.withChildren (n.children ++ [(b, fresh)])) =
      (fnode n).withChild b (flatten fresh) := by
  rw [fnode_withChildren, flattenCh_append n.children b fresh hfc, fnode_def]
  rfl

theorem splitNode_children (n : Node H) (common : Str) (c : Char) (dnR : Str)
    (hdn : n.path.drop common.length = c :: dnR) :
    (splitNode n common).children =
      [(c, Node.mk dnR n.children n.wild n.catchAll n.handlers)] := by
  cases n
  simp only [Node.path] at hdn
  simp only [splitNode, Node.path, hdn, Node.children, Node.wild, Node.catchAll,
    Node.handlers]

mutual

/-- The compressed insertion is computed by the uncompressed insertion
on the flattened tree. -/
theorem flatten_insert {H : Type} : ∀ (fuel : Nat) (n : Node H) (pfx : Str)
    (pat : Pattern) (m : Str) (h : H) (o : Pattern), NodeOK n →
    insWeight pfx pat < fuel →
    Option.map flatten (addStaticPref fuel n pfx pat m h o) =
      ftAdd (flatten n) pfx pat m h o
  | 0, n, pfx, pat, m, h, o, _, hfuel => absurd hfuel (by omega)
  | fuel + 1, n, pfx, pat, m, h, o, hok, hfuel => by
    obtain ⟨hA, hB, hC⟩ := commonPref_split pfx n.path
    have harr : ∀ e0 nextPfx srest2, pat.static = e0 :: nextPfx :: srest2 →
        insWeight nextPfx ⟨srest2, pat.vars, pat.catchAll⟩ < fuel := by
      intro e0 nextPfx srest2 hps
      simp only [insWeight, hps, List.map_cons, List.sum_cons] at hfuel ⊢
      omega
    have hflat : flatten n =
        wrapP (commonPref pfx n.path)
          (wrapP (n.path.drop (commonPref pfx n.path).length) (fnode n)) := by
      rw [flatten_eq_wrap, ← wrapP_append, ← hB]
    have hsplit := ftAdd_walk (commonPref pfx n.path)
        (wrapP (n.path.drop (commonPref pfx n.path).length) (fnode n))
        (pfx.drop (commonPref pfx n.path).length) pat m h o
    rw [← hA, ← hflat] at hsplit
    rw [hsplit]
    rcases hdp : pfx.drop (commonPref pfx n.path).length with _ | ⟨b, dpR⟩
    · rcases hdn : n.path.drop (commonPref pfx n.path).length with _ | ⟨c, dnR⟩
      · -- arrival without split: pfx is exactly the node path
        have hpfx : pfx = commonPref pfx n.path := by
          conv_lhs => rw [hA]
          rw [hdp, List.append_nil]
        have hnp : n.path = commonPref pfx n.path := by
          conv_lhs => rw [hB]
          rw [hdn, List.append_nil]
        rw [show pfx = n.path from hpfx.trans hnp.symm, commonPref_self]
        simp only [wrapP]
        rw [ftAdd_nil_eq, fnode_mark]
        exact flatten_arr fuel n pat m h o hok harr
      · -- arrival with split: the node path extends past the prefix
        have hlenB := congrArg List.length hB
        rw [hdn] at hlenB
        simp only [List.length_append, List.length_cons] at hlenB
        have hlt1 : (commonPref pfx n.path).length < n.path.length := by omega
        have hlenA := congrArg List.length hA
        rw [hdp] at hlenA
        simp only [List.length_append, List.length_nil] at hlenA
        have hnlt2 : ¬ (commonPref pfx n.path).length < pfx.length := by omega
        simp only [addStaticPref, hlt1, hnlt2, if_true, if_false]
        rw [← addSP_chunk fuel (splitNode n (commonPref pfx n.path)) pat m h o]
        rw [flatten_arr fuel (splitNode n (commonPref pfx n.path)) pat m h o
          (nodeOK_split n (commonPref pfx n.path) hok) harr]
        rw [splitNode_path n (commonPref pfx n.path) c dnR hdn,
          fnode_split n (commonPref pfx n.path) c dnR hdn]
        rw [ftAdd_nil_eq]
    · have hlenA := congrArg List.length hA
      rw [hdp] at hlenA
      simp only [List.length_append, List.length_cons] at hlenA
      have hlt2 : (commonPref pfx n.path).length < pfx.length := by omega
      have hfw : insWeight dpR pat < fuel := by
        simp only [insWeight] at hfuel ⊢
        omega
      rcases hdn : n.path.drop (commonPref pfx n.path).length with _ | ⟨c, dnR⟩
      · -- descend without split
        have hlenB := congrArg List.length hB
        rw [hdn] at hlenB
        simp only [List.length_append, List.length_nil] at hlenB
        have hnlt1 : ¬ (commonPref pfx n.path).length < n.path.length := by omega
        have hnp : n.path = commonPref pfx n.path := by
          conv_lhs => rw [hB]
          rw [hdn, List.append_nil]
        rw [← hnp]
        simp only [wrapP]
        rcases hfc : findChild n.children b with _ | child
        · -- no child for this byte: graft a fresh subtree
          simp only [addStaticPref, hnlt1, hlt2, if_true, if_false, hdp, hfc]
          have hfnc : (fnode n).children b = none := by
            rw [fnode_children, flattenCh_findChild, hfc]
            rfl
          rw [ftAdd_cons_none _ _ _ _ _ _ _ hfnc, fnode_mark]
          have hrec := flatten_insert fuel (Node.mk dpR [] none none []) dpR pat m h o
            (nodeOK_fresh dpR) hfw
          rw [flatten_empty] at hrec
          have hwalk := ftAdd_walk dpR ftFresh [] pat m h o
          rw [List.append_nil] at hwalk
          rw [hwalk, ftAdd_nil_eq] at hrec
          rw [show (ftFresh : FT H).withIsNode true = ftFresh from rfl] at hrec
          cases hra : addStaticPref fuel (Node.mk dpR [] none none []) dpR pat m h o with
          | none =>
            rw [hra] at hrec
            simp only [Option.map_none'] at hrec
            rw [Option.map_eq_none'.mp hrec.symm]
            rfl
          | some fresh2 =>
            rw [hra] at hrec
            simp only [Option.map_some'] at hrec
            obtain ⟨inner, hft, hfl2⟩ := Option.map_eq_some'.mp hrec.symm
            rw [hft]
            show some (flatten (n.withChildren (n.children ++ [(b, fresh2)]))) =
              some (wrapP n.path ((fnode n).withChild b (wrapP dpR inner)))
            rw [flatten_eq_wrap, withChildren_path, fnode_append n b fresh2 hfc, ← hfl2]
        · -- existing child: recurse into it
          simp only [addStaticPref, hnlt1, hlt2, if_true, if_false, hdp, hfc]
          have hfcs : (fnode n).children b = some (flatten child) := by
            rw [fnode_children, flattenCh_findChild, hfc]
            rfl
          rw [ftAdd_cons_some _ _ _ _ _ _ _ _ hfcs]
          have hrec := flatten_insert fuel child dpR pat m h o (nodeOK_child hok hfc) hfw
          rw [← hrec]
          cases hra : addStaticPref fuel child dpR pat m h o with
          | none => rfl
          | some child2 =>
            show some (flatten (n.withChildren (replaceChild n.children b child2))) =
              some (wrapP n.path ((fnode n).withChild b (flatten child2)))
            rw [flatten_eq_wrap, withChildren_path, fnode_replace n b child child2 hfc]
      · -- split, then graft a fresh subtree beside the split-off child
        have hlenB := congrArg List.length hB
        rw [hdn] at hlenB
        simp only [List.length_append, List.length_cons] at hlenB
        have hlt1 : (commonPref pfx n.path).length < n.path.length := by omega
        have hbc : b ≠ c := hC b dpR c dnR hdp hdn
        have hcb : ¬ c = b := fun hx => hbc hx.symm
        have hfc2 : findChild (splitNode n (commonPref pfx n.path)).children b = none := by
          rw [splitNode_children n (commonPref pfx n.path) c dnR hdn]
          simp only [findChild, hcb, if_false]
        simp only [addStaticPref, hlt1, hlt2, if_true, hdp, hfc2]
        have hwc : (wrapP (c :: dnR) (fnode n)).children b = none := by
          simp only [wrapP, FT.children, hcb, if_false]
        rw [ftAdd_cons_none _ _ _ _ _ _ _ hwc]
        rw [← fnode_split n (commonPref pfx n.path) c dnR hdn]
        have hrec := flatten_insert fuel (Node.mk dpR [] none none []) dpR pat m h o
          (nodeOK_fresh dpR) hfw
        rw [flatten_empty] at hrec
        have hwalk := ftAdd_walk dpR ftFresh [] pat m h o
        rw [List.append_nil] at hwalk
        rw [hwalk, ftAdd_nil_eq] at hrec
        rw [show (ftFresh : FT H).withIsNode true = ftFresh from rfl] at hrec
        cases hra : addStaticPref fuel (Node.mk dpR [] none none []) dpR pat m h o with
        | none =>
          rw [hra] at hrec
          simp only [Option.map_none'] at hrec
          rw [Option.map_eq_none'.mp hrec.symm]
          rfl
        | some fresh2 =>
          rw [hra] at hrec
          simp only [Option.map_some'] at hrec
          obtain ⟨inner, hft, hfl2⟩ := Option.map_eq_some'.mp hrec.symm
          rw [hft]
          show some (flatten ((splitNode n (commonPref pfx n.path)).withChildren
              ((splitNode n (commonPref pfx n.path)).children ++ [(b, fresh2)]))) =
            some (wrapP (commonPref pfx n.path)
              ((fnode (splitNode n (commonPref pfx n.path))).withChild b (wrapP dpR inner)))
          rw [flatten_eq_wrap, withChildren_path,
            splitNode_path n (commonPref pfx n.path) c dnR hdn,
            fnode_append (splitNode n (commonPref pfx n.path)) b fresh2 hfc2, ← hfl2]
  termination_by fuel _ _ _ _ _ _ _ _ => (fuel, 0)

/-- The arrival step of the compressed insertion is computed by the
uncompressed arrival step at the flattened node boundary. -/
theorem flatten_arr {H : Type} : ∀ (f : Nat) (n : Node H) (pat : Pattern) (m : Str)
    (h : H) (o : Pattern), NodeOK n →
    (∀ e0 nextPfx srest2, pat.static = e0 :: nextPfx :: srest2 →
      insWeight nextPfx ⟨srest2, pat.vars, pat.catchAll⟩ < f) →
    Option.map flatten (addStaticPref (f + 1) n n.path pat m h o) =
      (ftArr (fnode n) pat m h o).map (wrapP n.path)
  | f, n, pat, m, h, o, hok, harr => by
    rw [addSP_chunk f n pat m h o]
    rcases pat with ⟨pst, pv, pca⟩
    rcases pst with _ | ⟨e0, srest⟩
    · -- no static element left: bind the handler here
      show Option.map flatten (n.setHandler m h o) =
        (ftArr (fnode n) ⟨[], pv, pca⟩ m h o).map (wrapP n.path)
      rw [ftArr_nil, fnode_handlers, setHandler_eq]
      obtain ⟨hc1, _⟩ := setH_corr n.handlers m h o (nodeOK_hOK hok)
      rw [← hc1]
      cases hs1 : setHandlers n.handlers m h o with
      | none => rfl
      | some hs2 =>
        show some (flatten (n.withHandlers hs2)) =
          some (wrapP n.path ((fnode n).withHandlers (hOfList hs2)))
        rw [flatten_eq_wrap, withHandlers_path, fnode_withHandlers]
    · rcases srest with _ | ⟨nextPfx, srest2⟩
      · -- a single placeholder: bind on the wildcard or catch-all slot
        cases pca with
        | false =>
          show Option.map flatten
              (match (n.wild.getD (Node.mk [] [] none none [])).setHandler m h o with
               | none => none
               | some w2 => some (n.withWild (some w2))) =
            (ftArr (fnode n) ⟨[e0], pv, false⟩ m h o).map (wrapP n.path)
          rw [ftArr_one_false, fnode_wild]
          obtain ⟨hfl, hhok, hnok, hpW⟩ :=
            slot_node n.wild (fun wn hw => nodeOK_wild hok hw)
          have hfW : flatten (n.wild.getD (Node.mk [] [] none none [])) =
              fnode (n.wild.getD (Node.mk [] [] none none [])) := by
            rw [flatten_eq_wrap, hpW]
            rfl
          rw [← hfl, hfW, fnode_handlers]
          obtain ⟨hc1, _⟩ :=
            setH_corr (n.wild.getD (Node.mk [] [] none none [])).handlers m h o hhok
          rw [← hc1, setHandler_eq]
          cases hs1 :
              setHandlers (n.wild.getD (Node.mk [] [] none none [])).handlers m h o with
          | none => rfl
          | some hs2 =>
            show some (flatten (n.withWild
                (some ((n.wild.getD (Node.mk [] [] none none [])).withHandlers hs2)))) =
              some (wrapP n.path ((fnode n).withWild
                (some ((fnode (n.wild.getD (Node.mk [] [] none none []))).withHandlers
                  (hOfList hs2)))))
            rw [flatten_eq_wrap, withWild_path, fnode_withWild]
            simp only [flattenO]
            rw [flatten_eq_wrap, withHandlers_path, hpW, fnode_withHandlers]
            rfl
        | true =>
          show Option.map flatten
              (match (n.catchAll.getD (Node.mk [] [] none none [])).setHandler m h o with
               | none => none
               | some w2 => some (n.withCatchAll (some w2))) =
            (ftArr (fnode n) ⟨[e0], pv, true⟩ m h o).map (wrapP n.path)
          rw [ftArr_one_true, fnode_catchAll]
          obtain ⟨hfl, hhok, hnok, hpW⟩ :=
            slot_node n.catchAll (fun cn hc => nodeOK_ca hok hc)
          have hfW : flatten (n.catchAll.getD (Node.mk [] [] none none [])) =
              fnode (n.catchAll.getD (Node.mk [] [] none none [])) := by
            rw [flatten_eq_wrap, hpW]
            rfl
          rw [← hfl, hfW, fnode_handlers]
          obtain ⟨hc1, _⟩ :=
            setH_corr (n.catchAll.getD (Node.mk [] [] none none [])).handlers m h o hhok
          rw [← hc1, setHandler_eq]
          cases hs1 :
              setHandlers (n.catchAll.getD (Node.mk [] [] none none [])).handlers m h o with
          | none => rfl
          | some hs2 =>
            show some (flatten (n.withCatchAll
                (some ((n.catchAll.getD (Node.mk [] [] none none [])).withHandlers hs2)))) =
              some (wrapP n.path ((fnode n).withCatchAll
                (some ((fnode (n.catchAll.getD (Node.mk [] [] none none []))).withHandlers
                  (hOfList hs2)))))
            rw [flatten_eq_wrap, withCatchAll_path, fnode_withCatchAll]
            simp only [flattenO]
            rw [flatten_eq_wrap, withHandlers_path, hpW, fnode_withHandlers]
            rfl
      · -- another static run follows: recurse below the wildcard slot
        show Option.map flatten
            (match addStaticPref f (n.wild.getD (Node.mk [] [] none none [])) nextPfx
                ⟨srest2, pv, pca⟩ m h o with
             | none => none
             | some w2 => some (n.withWild (some w2))) =
          (ftArr (fnode n) ⟨e0 :: nextPfx :: srest2, pv, pca⟩ m h o).map (wrapP n.path)
        rw [ftArr_cons, fnode_wild]
        obtain ⟨hfl, hhok, hnok, hpW⟩ :=
          slot_node n.wild (fun wn hw => nodeOK_wild hok hw)
        rw [← hfl]
        have hrec := flatten_insert f (n.wild.getD (Node.mk [] [] none none [])) nextPfx
          ⟨srest2, pv, pca⟩ m h o hnok (harr e0 nextPfx srest2 rfl)
        rw [← hrec]
        cases hra : addStaticPref f (n.wild.getD (Node.mk [] [] none none [])) nextPfx
            ⟨srest2, pv, pca⟩ m h o with
        | none => rfl
        | some w2 =>
          show some (flatten (n.withWild (some w2))) =
            some (wrapP n.path ((fnode n).withWild (some (flatten w2))))
          rw [flatten_eq_wrap, withWild_path, fnode_withWild]
          simp only [flattenO]
  termination_by f _ _ _ _ _ _ _ => (f, 1)

end

theorem commonPref_nil_right : ∀ (a : Str), commonPref a [] = []
  | [] => rfl
  | _ :: _ => rfl

theorem nodeOK_withHandlers (n : Node H) (hs2 : List (HandlerEntry H)) (hok : NodeOK n)
    (hh : hOK hs2) : NodeOK (n.withHandlers hs2) := by
  cases n
  cases hok with
  | mk h1 h2 h3 h4 h5 h6 => exact NodeOK.mk hh h2 h3 h4 h5 h6

theorem nodeOK_withWild (n wn : Node H) (hok : NodeOK n) (hp : wn.path = [])
    (hw : NodeOK wn) : NodeOK (n.withWild (some wn)) := by
  cases n
  cases hok with
  | mk h1 h2 h3 h4 h5 h6 =>
    refine NodeOK.mk h1 h2 ?_ ?_ h5 h6
    · intro w2 hw2
      cases hw2
      exact hp
    · intro w2 hw2
      cases hw2
      exact hw

theorem nodeOK_withCatchAll (n cn : Node H) (hok : NodeOK n) (hp : cn.path = [])
    (hw : NodeOK cn) : NodeOK (n.withCatchAll (some cn)) := by
  cases n
  cases hok with
  | mk h1 h2 h3 h4 h5 h6 =>
    refine NodeOK.mk h1 h2 h3 h4 ?_ ?_
    · intro c2 hc2
      cases hc2
      exact hp
    · intro c2 hc2
      cases hc2
      exact hw

theorem replaceChild_mem : ∀ (ch : List (Char × Node H)) (b : Char) (x2 : Node H)
    (c : Char) (x : Node H), (c, x) ∈ replaceChild ch b x2 → (c, x) ∈ ch ∨ x = x2
  | [], b, x2, c, x, hmem => by cases hmem
  | (c0, n0) :: rest, b, x2, c, x, hmem => by
    simp only [replaceChild] at hmem
    by_cases hc0 : c0 = b
    · rw [if_pos hc0] at hmem
      rcases List.mem_cons.mp hmem with heq | htail
      · right
        exact (Prod.mk.injEq _ _ _ _ ▸ heq).2
      · left
        exact List.mem_cons_of_mem _ htail
    · rw [if_neg hc0] at hmem
      rcases List.mem_cons.mp hmem with heq | htail
      · left
        rw [heq]
        exact List.mem_cons_self _ _
      · rcases replaceChild_mem rest b x2 c x htail with hin | hx
        · left
          exact List.mem_cons_of_mem _ hin
        · right
          exact hx

theorem nodeOK_withChildren_replace (n : Node H) (b : Char) (child2 : Node H)
    (hok : NodeOK n) (hc2 : NodeOK child2) :
    NodeOK (n.withChildren (replaceChild n.children b child2)) := by
  rcases n with ⟨np, nch, nw, nca, nhs⟩
  cases hok with
  | mk h1 h2 h3 h4 h5 h6 =>
    refine NodeOK.mk h1 ?_ h3 h4 h5 h6
    intro c x hmem
    rcases replaceChild_mem nch b child2 c x hmem with hin | hx
    · exact h2 c x hin
    · rw [hx]
      exact hc2

theorem nodeOK_withChildren_append (n : Node H) (b : Char) (fresh2 : Node H)
    (hok : NodeOK n) (hf : NodeOK fresh2) :
    NodeOK (n.withChildren (n.children ++ [(b, fresh2)])) := by
  rcases n with ⟨np, nch, nw, nca, nhs⟩
  cases hok with
  | mk h1 h2 h3 h4 h5 h6 =>
    refine NodeOK.mk h1 ?_ h3 h4 h5 h6
    intro c x hmem
    rcases List.mem_append.mp hmem with hin | hone
    · exact h2 c x hin
    · simp only [List.mem_singleton, Prod.mk.injEq] at hone
      rw [hone.2]
      exact hf

mutual

/-- Insertion preserves the well-formedness invariant, and the
resulting node keeps its path or shortens it to the common prefix. -/
theorem nodeOK_addSP {H : Type} : ∀ (fuel : Nat) (n : Node H) (pfx : Str)
    (pat : Pattern) (m : Str) (h : H) (o : Pattern) (n2 : Node H), NodeOK n →
    addStaticPref fuel n pfx pat m h o = some n2 →
    NodeOK n2 ∧ (n2.path = n.path ∨ n2.path = commonPref pfx n.path)
  | 0, n, pfx, pat, m, h, o, n2, _, hadd => Option.noConfusion hadd
  | fuel + 1, n, pfx, pat, m, h, o, n2, hok, hadd => by
    obtain ⟨hA, hB, hC⟩ := commonPref_split pfx n.path
    rcases hdp : pfx.drop (commonPref pfx n.path).length with _ | ⟨b, dpR⟩
    · rcases hdn : n.path.drop (commonPref pfx n.path).length with _ | ⟨c, dnR⟩
      · have hpfx : pfx = commonPref pfx n.path := by
          conv_lhs => rw [hA]
          rw [hdp, List.append_nil]
        have hnp : n.path = commonPref pfx n.path := by
          conv_lhs => rw [hB]
          rw [hdn, List.append_nil]
        rw [show pfx = n.path from hpfx.trans hnp.symm] at hadd
        obtain ⟨hnok2, hpath⟩ := nodeOK_arr fuel n pat m h o n2 hok hadd
        exact ⟨hnok2, Or.inl hpath⟩
      · have hlenB := congrArg List.length hB
        rw [hdn] at hlenB
        simp only [List.length_append, List.length_cons] at hlenB
        have hlt1 : (commonPref pfx n.path).length < n.path.length := by omega
        have hlenA := congrArg List.length hA
        rw [hdp] at hlenA
        simp only [List.length_append, List.length_nil] at hlenA
        have hnlt2 : ¬ (commonPref pfx n.path).length < pfx.length := by omega
        simp only [addStaticPref, hlt1, hnlt2, if_true, if_false] at hadd
        rw [← addSP_chunk fuel (splitNode n (commonPref pfx n.path)) pat m h o] at hadd
        obtain ⟨hnok2, hpath⟩ := nodeOK_arr fuel (splitNode n (commonPref pfx n.path))
          pat m h o n2 (nodeOK_split n (commonPref pfx n.path) hok) hadd
        refine ⟨hnok2, Or.inr ?_⟩
        rw [hpath, splitNode_path n (commonPref pfx n.path) c dnR hdn]
    · have hlenA := congrArg List.length hA
      rw [hdp] at hlenA
      simp only [List.length_append, List.length_cons] at hlenA
      have hlt2 : (commonPref pfx n.path).length < pfx.length := by omega
      rcases hdn : n.path.drop (commonPref pfx n.path).length with _ | ⟨c, dnR⟩
      · have hlenB := congrArg List.length hB
        rw [hdn] at hlenB
        simp only [List.length_append, List.length_nil] at hlenB
        have hnlt1 : ¬ (commonPref pfx n.path).length < n.path.length := by omega
        rcases hfc : findChild n.children b with _ | child
        · simp only [addStaticPref, hnlt1, hlt2, if_true, if_false, hdp, hfc] at hadd
          cases hra : addStaticPref fuel (Node.mk dpR [] none none []) dpR pat m h o with
          | none =>
            rw [hra] at hadd
            exact Option.noConfusion hadd
          | some fresh2 =>
            rw [hra] at hadd
            obtain ⟨hfok, -⟩ := nodeOK_addSP fuel (Node.mk dpR [] none none []) dpR
              pat m h o fresh2 (nodeOK_fresh dpR) hra
            have hn2 := Option.some.inj hadd
            refine ⟨?_, Or.inl ?_⟩
            · rw [← hn2]
              exact nodeOK_withChildren_append n b fresh2 hok hfok
            · rw [← hn2, withChildren_path]
        · simp only [addStaticPref, hnlt1, hlt2, if_true, if_false, hdp, hfc] at hadd
          cases hra : addStaticPref fuel child dpR pat m h o with
          | none =>
            rw [hra] at hadd
            exact Option.noConfusion hadd
          | some child2 =>
            rw [hra] at hadd
            obtain ⟨hcok, -⟩ := nodeOK_addSP fuel child dpR pat m h o child2
              (nodeOK_child hok hfc) hra
            have hn2 := Option.some.inj hadd
            refine ⟨?_, Or.inl ?_⟩
            · rw [← hn2]
              exact nodeOK_withChildren_replace n b child2 hok hcok
            · rw [← hn2, withChildren_path]
      · have hlenB := congrArg List.length hB
        rw [hdn] at hlenB
        simp only [List.length_append, List.length_cons] at hlenB
        have hlt1 : (commonPref pfx n.path).length < n.path.length := by omega
        have hbc : b ≠ c := hC b dpR c dnR hdp hdn
        have hcb : ¬ c = b := fun hx => hbc hx.symm
        have hfc2 : findChild (splitNode n (commonPref pfx n.path)).children b = none := by
          rw [splitNode_children n (commonPref pfx n.path) c dnR hdn]
          simp only [findChild, hcb, if_false]
        simp only [addStaticPref, hlt1, hlt2, if_true, hdp, hfc2] at hadd
        cases hra : addStaticPref fuel (Node.mk dpR [] none none []) dpR pat m h o with
        | none =>
          rw [hra] at hadd
          exact Option.noConfusion hadd
        | some fresh2 =>
          rw [hra] at hadd
          obtain ⟨hfok, -⟩ := nodeOK_addSP fuel (Node.mk dpR [] none none []) dpR
            pat m h o fresh2 (nodeOK_fresh dpR) hra
          have hn2 := Option.some.inj hadd
          refine ⟨?_, Or.inr ?_⟩
          · rw [← hn2]
            exact nodeOK_withChildren_append (splitNode n (commonPref pfx n.path)) b fresh2
              (nodeOK_split n (commonPref pfx n.path) hok) hfok
          · rw [← hn2, withChildren_path, splitNode_path n (commonPref pfx n.path) c dnR hdn]
  termination_by fuel _ _ _ _ _ _ _ _ _ => (fuel, 0)

/-- The arrival step preserves the invariant and the node path. -/
theorem nodeOK_arr {H : Type} : ∀ (f : Nat) (n : Node H) (pat : Pattern) (m : Str)
    (h : H) (o : Pattern) (n2 : Node H), NodeOK n →
    addStaticPref (f + 1) n n.path pat m h o = some n2 →
    NodeOK n2 ∧ n2.path = n.path
  | f, n, pat, m, h, o, n2, hok, hadd => by
    rw [addSP_chunk f n pat m h o] at hadd
    rcases pat with ⟨pst, pv, pca⟩
    rcases pst with _ | ⟨e0, srest⟩
    · have hadd2 : n.setHandler m h o = some n2 := hadd
      rw [setHandler_eq] at hadd2
      obtain ⟨hs2, hset, heq⟩ := Option.map_eq_some'.mp hadd2
      obtain ⟨-, hok2⟩ := setH_corr n.handlers m h o (nodeOK_hOK hok)
      refine ⟨?_, ?_⟩
      · rw [← heq]
        exact nodeOK_withHandlers n hs2 hok (hok2 hs2 hset)
      · rw [← heq, withHandlers_path]
    · rcases srest with _ | ⟨nextPfx, srest2⟩
      · cases pca with
        | false =>
          have hadd2 :
              (match (n.wild.getD (Node.mk [] [] none none [])).setHandler m h o with
               | none => none
               | some w2 => some (n.withWild (some w2))) = some n2 := hadd
          obtain ⟨hfl, hhok, hnok, hpW⟩ :=
            slot_node n.wild (fun wn hw => nodeOK_wild hok hw)
          cases hset : (n.wild.getD (Node.mk [] [] none none [])).setHandler m h o with
          | none =>
            rw [hset] at hadd2
            exact Option.noConfusion hadd2
          | some w2 =>
            rw [hset] at hadd2
            have hn2 := Option.some.inj hadd2
            rw [setHandler_eq] at hset
            obtain ⟨hs2, hsh, hw2⟩ := Option.map_eq_some'.mp hset
            obtain ⟨-, hok2⟩ :=
              setH_corr (n.wild.getD (Node.mk [] [] none none [])).handlers m h o hhok
            have hw2ok : NodeOK w2 := by
              rw [← hw2]
              exact nodeOK_withHandlers _ hs2 hnok (hok2 hs2 hsh)
            have hw2p : w2.path = [] := by
              rw [← hw2, withHandlers_path, hpW]
            refine ⟨?_, ?_⟩
            · rw [← hn2]
              exact nodeOK_withWild n w2 hok hw2p hw2ok
            · rw [← hn2, withWild_path]
        | true =>
          have hadd2 :
              (match (n.catchAll.getD (Node.mk [] [] none none [])).setHandler m h o with
               | none => none
               | some w2 => some (n.withCatchAll (some w2))) = some n2 := hadd
          obtain ⟨hfl, hhok, hnok, hpW⟩ :=
            slot_node n.catchAll (fun cn hc => nodeOK_ca hok hc)
          cases hset : (n.catchAll.getD (Node.mk [] [] none none [])).setHandler m h o with
          | none =>
            rw [hset] at hadd2
            exact Option.noConfusion hadd2
          | some w2 =>
            rw [hset] at hadd2
            have hn2 := Option.some.inj hadd2
            rw [setHandler_eq] at hset
            obtain ⟨hs2, hsh, hw2⟩ := Option.map_eq_some'.mp hset
            obtain ⟨-, hok2⟩ :=
              setH_corr (n.catchAll.getD (Node.mk [] [] none none [])).handlers m h o hhok
            have hw2ok : NodeOK w2 := by
              rw [← hw2]
              exact nodeOK_withHandlers _ hs2 hnok (hok2 hs2 hsh)
            have hw2p : w2.path = [] := by
              rw [← hw2, withHandlers_path, hpW]
            refine ⟨?_, ?_⟩
            · rw [← hn2]
              exact nodeOK_withCatchAll n w2 hok hw2p hw2ok
            · rw [← hn2, withCatchAll_path]
      · have hadd2 :
            (match addStaticPref f (n.wild.getD (Node.mk [] [] none none [])) nextPfx
                ⟨srest2, pv, pca⟩ m h o with
             | none => none
             | some w2 => some (n.withWild (some w2))) = some n2 := hadd
        obtain ⟨hfl, hhok, hnok, hpW⟩ :=
          slot_node n.wild (fun wn hw => nodeOK_wild hok hw)
        cases hra : addStaticPref f (n.wild.getD (Node.mk [] [] none none [])) nextPfx
            ⟨srest2, pv, pca⟩ m h o with
        | none =>
          rw [hra] at hadd2
          exact Option.noConfusion hadd2
        | some w2 =>
          rw [hra] at hadd2
          have hn2 := Option.some.inj hadd2
          obtain ⟨hwok, hwpath⟩ := nodeOK_addSP f (n.wild.getD (Node.mk [] [] none none []))
            nextPfx ⟨srest2, pv, pca⟩ m h o w2 hnok hra
          have hw2p : w2.path = [] := by
            rcases hwpath with hp1 | hp2
            · rw [hp1, hpW]
            · rw [hp2, hpW, commonPref_nil_right]
          refine ⟨?_, ?_⟩
          · rw [← hn2]
            exact nodeOK_withWild n w2 hok hw2p hwok
          · rw [← hn2, withWild_path]
  termination_by f _ _ _ _ _ _ _ _ => (f, 1)

end

theorem FT.ext2 : ∀ (t1 t2 : FT H), t1.isNode = t2.isNode → t1.children = t2.children →
    t1.wild = t2.wild → t1.catchAll = t2.catchAll → t1.handlers = t2.handlers → t1 = t2
  | .mk b1 ch1 w1 ca1 hf1, .mk b2 ch2 w2 ca2 hf2, h1, h2, h3, h4, h5 => by
    simp only [FT.isNode, FT.children, FT.wild, FT.catchAll, FT.handlers] at h1 h2 h3 h4 h5
    rw [h1, h2, h3, h4, h5]

@[simp] theorem isNode_withChild (t : FT H) (c : Char) (y : FT H) :
    (t.withChild c y).isNode = t.isNode := by cases t; rfl

@[simp] theorem children_withChild (t : FT H) (c : Char) (y : FT H) :
    (t.withChild c y).children = fun z => if z = c then some y else t.children z := by
  cases t; rfl

@[simp] theorem wild_withChild (t : FT H) (c : Char) (y : FT H) :
    (t.withChild c y).wild = t.wild := by cases t; rfl

@[simp] theorem catchAll_withChild (t : FT H) (c : Char) (y : FT H) :
    (t.withChild c y).catchAll = t.catchAll := by cases t; rfl

@[simp] theorem handlers_withChild (t : FT H) (c : Char) (y : FT H) :
    (t.withChild c y).handlers = t.handlers := by cases t; rfl

@[simp] theorem isNode_withWild (t : FT H) (w : Option (FT H)) :
    (t.withWild w).isNode = t.isNode := by cases t; rfl

@[simp] theorem children_withWild (t : FT H) (w : Option (FT H)) :
    (t.withWild w).children = t.children := by cases t; rfl

@[simp] theorem wild_withWild (t : FT H) (w : Option (FT H)) :
    (t.withWild w).wild = w := by cases t; rfl

@[simp] theorem catchAll_withWild (t : FT H) (w : Option (FT H)) :
    (t.withWild w).catchAll = t.catchAll := by cases t; rfl

@[simp] theorem handlers_withWild (t : FT H) (w : Option (FT H)) :
    (t.withWild w).handlers = t.handlers := by cases t; rfl

@[simp] theorem isNode_withCatchAll (t : FT H) (a : Option (FT H)) :
    (t.withCatchAll a).isNode = t.isNode := by cases t; rfl

@[simp] theorem children_withCatchAll (t : FT H) (a : Option (FT H)) :
    (t.withCatchAll a).children = t.children := by cases t; rfl

@[simp] theorem wild_withCatchAll (t : FT H) (a : Option (FT H)) :
    (t.withCatchAll a).wild = t.wild := by cases t; rfl

@[simp] theorem catchAll_withCatchAll (t : FT H) (a : Option (FT H)) :
    (t.withCatchAll a).catchAll = a := by cases t; rfl

@[simp] theorem handlers_withCatchAll (t : FT H) (a : Option (FT H)) :
    (t.withCatchAll a).handlers = t.handlers := by cases t; rfl

@[simp] theorem isNode_withHandlers (t : FT H) (f : Str → Option (H × Pattern)) :
    (t.withHandlers f).isNode = t.isNode := by cases t; rfl

@[simp] theorem children_withHandlers (t : FT H) (f : Str → Option (H × Pattern)) :
    (t.withHandlers f).children = t.children := by cases t; rfl

@[simp] theorem wild_withHandlers (t : FT H) (f : Str → Option (H × Pattern)) :
    (t.withHandlers f).wild = t.wild := by cases t; rfl

@[simp] theorem catchAll_withHandlers (t : FT H) (f : Str → Option (H × Pattern)) :
    (t.withHandlers f).catchAll = t.catchAll := by cases t; rfl

@[simp] theorem handlers_withHandlers (t : FT H) (f : Str → Option (H × Pattern)) :
    (t.withHandlers f).handlers = f := by cases t; rfl

@[simp] theorem isNode_withIsNode (t : FT H) (b : Bool) :
    (t.withIsNode b).isNode = b := by cases t; rfl

@[simp] theorem children_withIsNode (t : FT H) (b : Bool) :
    (t.withIsNode b).children = t.children := by cases t; rfl

@[simp] theorem wild_withIsNode (t : FT H) (b : Bool) :
    (t.withIsNode b).wild = t.wild := by cases t; rfl

@[simp] theorem catchAll_withIsNode (t : FT H) (b : Bool) :
    (t.withIsNode b).catchAll = t.catchAll := by cases t; rfl

@[simp] theorem handlers_withIsNode (t : FT H) (b : Bool) :
    (t.withIsNode b).handlers = t.handlers := by cases t; rfl

theorem cc_ne (t : FT H) (c d : Char) (x y : FT H) (hcd : c ≠ d) :
    (t.withChild c x).withChild d y = (t.withChild d y).withChild c x := by
  refine FT.ext2 _ _ (by simp) ?_ (by simp) (by simp) (by simp)
  simp only [children_withChild]
  funext z
  by_cases hz1 : z = d
  · rw [if_pos hz1, if_neg (fun hx => hcd ((hz1 ▸ hx).symm)), if_pos hz1]
  · rw [if_neg hz1]
    by_cases hz2 : z = c
    · rw [if_pos hz2, if_pos hz2]
    · rw [if_neg hz2, if_neg hz2, if_neg hz1]

theorem cc_same (t : FT H) (c : Char) (x y : FT H) :
    (t.withChild c x).withChild c y = t.withChild c y := by
  refine FT.ext2 _ _ (by simp) ?_ (by simp) (by simp) (by simp)
  simp only [children_withChild]
  funext z
  by_cases hz : z = c
  · rw [if_pos hz, if_pos hz]
  · rw [if_neg hz, if_neg hz, if_neg hz]

theorem mark_withChild (t : FT H) (c : Char) (x : FT H) (b : Bool) :
    (t.withChild c x).withIsNode b = (t.withIsNode b).withChild c x := by
  cases t; rfl

theorem mark_withWild (t : FT H) (w : Option (FT H)) (b : Bool) :
    (t.withWild w).withIsNode b = (t.withIsNode b).withWild w := by
  cases t; rfl

theorem mark_withCatchAll (t : FT H) (a : Option (FT H)) (b : Bool) :
    (t.withCatchAll a).withIsNode b = (t.withIsNode b).withCatchAll a := by
  cases t; rfl

theorem mark_withHandlers (t : FT H) (f : Str → Option (H × Pattern)) (b : Bool) :
    (t.withHandlers f).withIsNode b = (t.withIsNode b).withHandlers f := by
  cases t; rfl

theorem mark_mark (t : FT H) (b1 b2 : Bool) :
    (t.withIsNode b1).withIsNode b2 = t.withIsNode b2 := by
  cases t; rfl

theorem mark_of_true (t : FT H) (hb : t.isNode = true) : t.withIsNode true = t := by
  cases t
  simp only [FT.isNode] at hb
  rw [FT.withIsNode, hb]

theorem wh_wc (t : FT H) (c : Char) (x : FT H) (f : Str → Option (H × Pattern)) :
    (t.withChild c x).withHandlers f = (t.withHandlers f).withChild c x := by
  cases t; rfl

theorem ww_wc (t : FT H) (c : Char) (x : FT H) (w : Option (FT H)) :
    (t.withChild c x).withWild w = (t.withWild w).withChild c x := by
  cases t; rfl

theorem wca_wc (t : FT H) (c : Char) (x : FT H) (a : Option (FT H)) :
    (t.withChild c x).withCatchAll a = (t.withCatchAll a).withChild c x := by
  cases t; rfl

theorem ww_wh (t : FT H) (f : Str → Option (H × Pattern)) (w : Option (FT H)) :
    (t.withHandlers f).withWild w = (t.withWild w).withHandlers f := by
  cases t; rfl

theorem wca_wh (t : FT H) (f : Str → Option (H × Pattern)) (a : Option (FT H)) :
    (t.withHandlers f).withCatchAll a = (t.withCatchAll a).withHandlers f := by
  cases t; rfl

theorem ww_wca (t : FT H) (a : Option (FT H)) (w : Option (FT H)) :
    (t.withCatchAll a).withWild w = (t.withWild w).withCatchAll a := by
  cases t; rfl

theorem ww_ww (t : FT H) (w1 w2 : Option (FT H)) :
    (t.withWild w1).withWild w2 = t.withWild w2 := by
  cases t; rfl

theorem wca_wca (t : FT H) (a1 a2 : Option (FT H)) :
    (t.withCatchAll a1).withCatchAll a2 = t.withCatchAll a2 := by
  cases t; rfl

theorem wh_wh (t : FT H) (f1 f2 : Str → Option (H × Pattern)) :
    (t.withHandlers f1).withHandlers f2 = t.withHandlers f2 := by
  cases t; rfl

theorem bindMap {α β γ : Type} (o : Option α) (f : α → β) (g : β → Option γ) :
    (o.map f).bind g = o.bind (fun a => g (f a)) := by
  cases o <;> rfl

theorem mapBind {α β γ : Type} (o : Option α) (f : α → Option β) (g : β → γ) :
    (o.bind f).map g = o.bind (fun a => (f a).map g) := by
  cases o <;> rfl

theorem obind_congr {α β : Type} (o : Option α) (f g : α → Option β)
    (h : ∀ a, o = some a → f a = g a) : o.bind f = o.bind g := by
  cases o with
  | none => rfl
  | some a => exact h a rfl

theorem ftSetH_comm (f : Str → Option (H × Pattern)) (m1 : Str) (h1 : H) (o1 : Pattern)
    (m2 : Str) (h2 : H) (o2 : Pattern) :
    (ftSetH f m1 h1 o1).bind (fun g => ftSetH g m2 h2 o2) =
    (ftSetH f m2 h2 o2).bind (fun g => ftSetH g m1 h1 o1) := by
  by_cases hm : m2 = m1
  · subst hm
    cases hf : f m2 with
    | none => simp [ftSetH, hf]
    | some e => simp [ftSetH, hf]
  · have hm2 : ¬ m1 = m2 := fun hx => hm hx.symm
    cases hf1 : f m1 <;> cases hf2 : f m2
    · simp only [ftSetH, hf1, hf2, Option.some_bind, hm, hm2, if_false]
      congr 1
      funext m3
      by_cases h3a : m3 = m2
      · rw [if_pos h3a, if_neg (fun hx : m3 = m1 => hm (h3a.symm.trans hx)), if_pos h3a]
      · rw [if_neg h3a]
        by_cases h3b : m3 = m1
        · rw [if_pos h3b, if_pos h3b]
        · rw [if_neg h3b, if_neg h3b, if_neg h3a]
    · simp [ftSetH, hf1, hf2, hm, hm2]
    · simp [ftSetH, hf1, hf2, hm, hm2]
    · simp [ftSetH, hf1, hf2]

/-- Updates the wildcard slot of an uncompressed node through an
arbitrary slot operation. -/
def updW (t : FT H) (g : FT H → Option (FT H)) : Option (FT H) :=
  (g (t.wild.getD ftFresh)).map (fun w2 => t.withWild (some w2))

/-- Updates the catch-all slot. -/
def updC (t : FT H) (g : FT H → Option (FT H)) : Option (FT H) :=
  (g (t.catchAll.getD ftFresh)).map (fun w2 => t.withCatchAll (some w2))

/-- Binds a handler in the node's own handler table. -/
def updH (t : FT H) (m : Str) (h : H) (o : Pattern) : Option (FT H) :=
  (ftSetH t.handlers m h o).map (fun f => t.withHandlers f)

theorem ftArr_nil_upd (t : FT H) (vs : List Str) (ca : Bool) (m : Str) (h : H)
    (o : Pattern) : ftArr t ⟨[], vs, ca⟩ m h o = updH t m h o := by
  rw [ftArr_nil]
  rfl

theorem ftArr_one_false_upd (t : FT H) (e0 : Str) (vs : List Str) (m : Str) (h : H)
    (o : Pattern) :
    ftArr t ⟨[e0], vs, false⟩ m h o = updW t (fun w => updH w m h o) := by
  rw [ftArr_one_false]
  simp only [updW, updH]
  cases ftSetH (t.wild.getD ftFresh).handlers m h o <;> rfl

theorem ftArr_one_true_upd (t : FT H) (e0 : Str) (vs : List Str) (m : Str) (h : H)
    (o : Pattern) :
    ftArr t ⟨[e0], vs, true⟩ m h o = updC t (fun w => updH w m h o) := by
  rw [ftArr_one_true]
  simp only [updC, updH]
  cases ftSetH (t.catchAll.getD ftFresh).handlers m h o <;> rfl

theorem ftArr_cons_upd (t : FT H) (e0 np : Str) (sr : List Str) (vs : List Str)
    (ca : Bool) (m : Str) (h : H) (o : Pattern) :
    ftArr t ⟨e0 :: np :: sr, vs, ca⟩ m h o =
      updW t (fun w => ftAdd w np ⟨sr, vs, ca⟩ m h o) := by
  rw [ftArr_cons]
  simp only [updW]
  cases ftAdd (t.wild.getD ftFresh) np ⟨sr, vs, ca⟩ m h o <;> rfl

theorem updW_seq (t : FT H) (g1 g2 : FT H → Option (FT H)) :
    (updW t g1).bind (fun x => updW x g2) = updW t (fun w => (g1 w).bind g2) := by
  simp only [updW]
  cases hg : g1 (t.wild.getD ftFresh) with
  | none => rfl
  | some w1 =>
    simp only [Option.map_some', Option.some_bind, wild_withWild, Option.getD_some]
    cases g2 w1 with
    | none => rfl
    | some w2 => simp only [Option.map_some', ww_ww]

theorem updC_seq (t : FT H) (g1 g2 : FT H → Option (FT H)) :
    (updC t g1).bind (fun x => updC x g2) = updC t (fun w => (g1 w).bind g2) := by
  simp only [updC]
  cases hg : g1 (t.catchAll.getD ftFresh) with
  | none => rfl
  | some w1 =>
    simp only [Option.map_some', Option.some_bind, catchAll_withCatchAll, Option.getD_some]
    cases g2 w1 with
    | none => rfl
    | some w2 => simp only [Option.map_some', wca_wca]

theorem updW_updC_comm (t : FT H) (g1 g2 : FT H → Option (FT H)) :
    (updW t g1).bind (fun x => updC x g2) = (updC t g2).bind (fun x => updW x g1) := by
  simp only [updW, updC, wild_withCatchAll, catchAll_withWild]
  cases hg1 : g1 (t.wild.getD ftFresh) <;> cases hg2 : g2 (t.catchAll.getD ftFresh)
  · rfl
  · simp [hg1, hg2]
  · simp [hg1, hg2]
  · simp [hg1, hg2, ww_wca]

theorem updH_updW_comm (t : FT H) (m : Str) (h : H) (o : Pattern)
    (g : FT H → Option (FT H)) :
    (updH t m h o).bind (fun x => updW x g) = (updW t g).bind (fun x => updH x m h o) := by
  simp only [updH, updW, wild_withHandlers, handlers_withWild]
  cases hs : ftSetH t.handlers m h o <;> cases hg : g (t.wild.getD ftFresh)
  · rfl
  · simp [hs, hg]
  · simp [hs, hg]
  · simp [hs, hg, ww_wh]

theorem updH_updC_comm (t : FT H) (m : Str) (h : H) (o : Pattern)
    (g : FT H → Option (FT H)) :
    (updH t m h o).bind (fun x => updC x g) = (updC t g).bind (fun x => updH x m h o) := by
  simp only [updH, updC, catchAll_withHandlers, handlers_withCatchAll]
  cases hs : ftSetH t.handlers m h o <;> cases hg : g (t.catchAll.getD ftFresh)
  · rfl
  · simp [hs, hg]
  · simp [hs, hg]
  · simp [hs, hg, wca_wh]

theorem updH_updH_comm (t : FT H) (m1 : Str) (h1 : H) (o1 : Pattern) (m2 : Str) (h2 : H)
    (o2 : Pattern) :
    (updH t m1 h1 o1).bind (fun x => updH x m2 h2 o2) =
    (updH t m2 h2 o2).bind (fun x => updH x m1 h1 o1) := by
  have key := ftSetH_comm t.handlers m1 h1 o1 m2 h2 o2
  have lift : ∀ (ma : Str) (ha : H) (oa : Pattern) (mb : Str) (hb : H) (ob : Pattern),
      (updH t ma ha oa).bind (fun x => updH x mb hb ob) =
        ((ftSetH t.handlers ma ha oa).bind
          (fun g => ftSetH g mb hb ob)).map (fun f => t.withHandlers f) := by
    intro ma ha oa mb hb ob
    simp only [updH]
    cases hs1 : ftSetH t.handlers ma ha oa with
    | none => rfl
    | some f1 =>
      simp only [Option.map_some', Option.some_bind, handlers_withHandlers]
      cases ftSetH f1 mb hb ob with
      | none => rfl
      | some f2 => simp only [Option.map_some', wh_wh]
  rw [lift, lift, key]

theorem ftArr_isNode (t : FT H) (P : Pattern) (m : Str) (h : H) (o : Pattern)
    (x : FT H) (hx : ftArr t P m h o = some x) : x.isNode = t.isNode := by
  rcases P with ⟨pst, vs, ca⟩
  rcases pst with _ | ⟨e0, sr⟩
  · rw [ftArr_nil] at hx
    obtain ⟨f, -, heq⟩ := Option.map_eq_some'.mp hx
    rw [← heq]
    simp
  · rcases sr with _ | ⟨np, sr2⟩
    · cases ca
      · rw [ftArr_one_false] at hx
        cases hset : (ftSetH ((t.wild.getD ftFresh)).handlers m h o).map
            (fun f => (t.wild.getD ftFresh).withHandlers f) with
        | none => rw [hset] at hx; exact Option.noConfusion hx
        | some w2 =>
          rw [hset] at hx
          rw [← Option.some.inj hx]
          simp
      · rw [ftArr_one_true] at hx
        cases hset : (ftSetH ((t.catchAll.getD ftFresh)).handlers m h o).map
            (fun f => (t.catchAll.getD ftFresh).withHandlers f) with
        | none => rw [hset] at hx; exact Option.noConfusion hx
        | some w2 =>
          rw [hset] at hx
          rw [← Option.some.inj hx]
          simp
    · rw [ftArr_cons] at hx
      cases hadd : ftAdd (t.wild.getD ftFresh) np ⟨sr2, vs, ca⟩ m h o with
      | none => rw [hadd] at hx; exact Option.noConfusion hx
      | some w2 =>
        rw [hadd] at hx
        rw [← Option.some.inj hx]
        simp

theorem ftArr_children (t : FT H) (P : Pattern) (m : Str) (h : H) (o : Pattern)
    (x : FT H) (hx : ftArr t P m h o = some x) : x.children = t.children := by
  rcases P with ⟨pst, vs, ca⟩
  rcases pst with _ | ⟨e0, sr⟩
  · rw [ftArr_nil] at hx
    obtain ⟨f, -, heq⟩ := Option.map_eq_some'.mp hx
    rw [← heq]
    simp
  · rcases sr with _ | ⟨np, sr2⟩
    · cases ca
      · rw [ftArr_one_false] at hx
        cases hset : (ftSetH ((t.wild.getD ftFresh)).handlers m h o).map
            (fun f => (t.wild.getD ftFresh).withHandlers f) with
        | none => rw [hset] at hx; exact Option.noConfusion hx
        | some w2 =>
          rw [hset] at hx
          rw [← Option.some.inj hx]
          simp
      · rw [ftArr_one_true] at hx
        cases hset : (ftSetH ((t.catchAll.getD ftFresh)).handlers m h o).map
            (fun f => (t.catchAll.getD ftFresh).withHandlers f) with
        | none => rw [hset] at hx; exact Option.noConfusion hx
        | some w2 =>
          rw [hset] at hx
          rw [← Option.some.inj hx]
          simp
    · rw [ftArr_cons] at hx
      cases hadd : ftAdd (t.wild.getD ftFresh) np ⟨sr2, vs, ca⟩ m h o with
      | none => rw [hadd] at hx; exact Option.noConfusion hx
      | some w2 =>
        rw [hadd] at hx
        rw [← Option.some.inj hx]
        simp

theorem ftAdd_cons_keeps (t : FT H) (c : Char) (p : Str) (P : Pattern) (m : Str) (h : H)
    (o : Pattern) (x : FT H) (hx : ftAdd t (c :: p) P m h o = some x) :
    x.handlers = t.handlers ∧ x.wild = t.wild ∧ x.catchAll = t.catchAll := by
  cases hc : t.children c with
  | some child =>
    rw [ftAdd_cons_some t child c p P m h o hc] at hx
    obtain ⟨z, -, heq⟩ := Option.map_eq_some'.mp hx
    rw [← heq]
    refine ⟨by simp, by simp, by simp⟩
  | none =>
    rw [ftAdd_cons_none t c p P m h o hc] at hx
    obtain ⟨i, -, heq⟩ := Option.map_eq_some'.mp hx
    rw [← heq]
    refine ⟨by simp, by simp, by simp⟩

theorem ftArr_withChild (t : FT H) (c : Char) (y : FT H) (P : Pattern) (m : Str) (h : H)
    (o : Pattern) :
    ftArr (t.withChild c y) P m h o = (ftArr t P m h o).map (fun x => x.withChild c y) := by
  rcases P with ⟨pst, vs, ca⟩
  rcases pst with _ | ⟨e0, sr⟩
  · rw [ftArr_nil, ftArr_nil]
    simp only [handlers_withChild]
    cases ftSetH t.handlers m h o with
    | none => rfl
    | some f => simp only [Option.map_some', wh_wc]
  · rcases sr with _ | ⟨np, sr2⟩
    · cases ca
      · rw [ftArr_one_false, ftArr_one_false]
        simp only [wild_withChild]
        cases (ftSetH ((t.wild.getD ftFresh)).handlers m h o).map
            (fun f => (t.wild.getD ftFresh).withHandlers f) with
        | none => rfl
        | some w2 => simp only [Option.map_some', ww_wc]
      · rw [ftArr_one_true, ftArr_one_true]
        simp only [catchAll_withChild]
        cases (ftSetH ((t.catchAll.getD ftFresh)).handlers m h o).map
            (fun f => (t.catchAll.getD ftFresh).withHandlers f) with
        | none => rfl
        | some w2 => simp only [Option.map_some', wca_wc]
    · rw [ftArr_cons, ftArr_cons]
      simp only [wild_withChild]
      cases ftAdd (t.wild.getD ftFresh) np ⟨sr2, vs, ca⟩ m h o with
      | none => rfl
      | some w2 => simp only [Option.map_some', ww_wc]

theorem ftArr_withIsNode (t : FT H) (b : Bool) (P : Pattern) (m : Str) (h : H)
    (o : Pattern) :
    ftArr (t.withIsNode b) P m h o = (ftArr t P m h o).map (fun x => x.withIsNode b) := by
  rcases P with ⟨pst, vs, ca⟩
  rcases pst with _ | ⟨e0, sr⟩
  · rw [ftArr_nil, ftArr_nil]
    simp only [handlers_withIsNode]
    cases ftSetH t.handlers m h o with
    | none => rfl
    | some f => simp only [Option.map_some', mark_withHandlers]
  · rcases sr with _ | ⟨np, sr2⟩
    · cases ca
      · rw [ftArr_one_false, ftArr_one_false]
        simp only [wild_withIsNode]
        cases (ftSetH ((t.wild.getD ftFresh)).handlers m h o).map
            (fun f => (t.wild.getD ftFresh).withHandlers f) with
        | none => rfl
        | some w2 => simp only [Option.map_some', mark_withWild]
      · rw [ftArr_one_true, ftArr_one_true]
        simp only [catchAll_withIsNode]
        cases (ftSetH ((t.catchAll.getD ftFresh)).handlers m h o).map
            (fun f => (t.catchAll.getD ftFresh).withHandlers f) with
        | none => rfl
        | some w2 => simp only [Option.map_some', mark_withCatchAll]
    · rw [ftArr_cons, ftArr_cons]
      simp only [wild_withIsNode]
      cases ftAdd (t.wild.getD ftFresh) np ⟨sr2, vs, ca⟩ m h o with
      | none => rfl
      | some w2 => simp only [Option.map_some', mark_withWild]

theorem ftAdd_cons_withHandlers (t : FT H) (f : Str → Option (H × Pattern)) (c : Char)
    (p : Str) (P : Pattern) (m : Str) (h : H) (o : Pattern) :
    ftAdd (t.withHandlers f) (c :: p) P m h o =
      (ftAdd t (c :: p) P m h o).map (fun x => x.withHandlers f) := by
  cases hc : t.children c with
  | some child =>
    rw [ftAdd_cons_some t child c p P m h o hc,
      ftAdd_cons_some (t.withHandlers f) child c p P m h o (by simp [hc])]
    cases ftAdd child p P m h o with
    | none => rfl
    | some z => simp only [Option.map_some', wh_wc]
  | none =>
    rw [ftAdd_cons_none t c p P m h o hc,
      ftAdd_cons_none (t.withHandlers f) c p P m h o (by simp [hc])]
    cases ftArr ftFresh P m h o with
    | none => rfl
    | some i =>
      simp only [Option.map_some', mark_withHandlers, wh_wc]

theorem ftAdd_cons_withWild (t : FT H) (w : Option (FT H)) (c : Char)
    (p : Str) (P : Pattern) (m : Str) (h : H) (o : Pattern) :
    ftAdd (t.withWild w) (c :: p) P m h o =
      (ftAdd t (c :: p) P m h o).map (fun x => x.withWild w) := by
  cases hc : t.children c with
  | some child =>
    rw [ftAdd_cons_some t child c p P m h o hc,
      ftAdd_cons_some (t.withWild w) child c p P m h o (by simp [hc])]
    cases ftAdd child p P m h o with
    | none => rfl
    | some z => simp only [Option.map_some', ww_wc]
  | none =>
    rw [ftAdd_cons_none t c p P m h o hc,
      ftAdd_cons_none (t.withWild w) c p P m h o (by simp [hc])]
    cases ftArr ftFresh P m h o with
    | none => rfl
    | some i =>
      simp only [Option.map_some', mark_withWild, ww_wc]

theorem ftAdd_cons_withCatchAll (t : FT H) (a : Option (FT H)) (c : Char)
    (p : Str) (P : Pattern) (m : Str) (h : H) (o : Pattern) :
    ftAdd (t.withCatchAll a) (c :: p) P m h o =
      (ftAdd t (c :: p) P m h o).map (fun x => x.withCatchAll a) := by
  cases hc : t.children c with
  | some child =>
    rw [ftAdd_cons_some t child c p P m h o hc,
      ftAdd_cons_some (t.withCatchAll a) child c p P m h o (by simp [hc])]
    cases ftAdd child p P m h o with
    | none => rfl
    | some z => simp only [Option.map_some', wca_wc]
  | none =>
    rw [ftAdd_cons_none t c p P m h o hc,
      ftAdd_cons_none (t.withCatchAll a) c p P m h o (by simp [hc])]
    cases ftArr ftFresh P m h o with
    | none => rfl
    | some i =>
      simp only [Option.map_some', mark_withCatchAll, wca_wc]

theorem ftAdd_cons_mark (t : FT H) (c : Char) (p : Str) (P : Pattern) (m : Str) (h : H)
    (o : Pattern) :
    ftAdd (t.withIsNode true) (c :: p) P m h o =
      (ftAdd t (c :: p) P m h o).map (fun x => x.withIsNode true) := by
  cases hc : t.children c with
  | some child =>
    rw [ftAdd_cons_some t child c p P m h o hc,
      ftAdd_cons_some (t.withIsNode true) child c p P m h o (by simp [hc])]
    cases ftAdd child p P m h o with
    | none => rfl
    | some z => simp only [Option.map_some', mark_withChild]
  | none =>
    rw [ftAdd_cons_none t c p P m h o hc,
      ftAdd_cons_none (t.withIsNode true) c p P m h o (by simp [hc])]
    cases ftArr ftFresh P m h o with
    | none => rfl
    | some i =>
      simp only [Option.map_some', mark_mark, mark_withChild]

theorem ftAdd_cons_withChild_ne (t : FT H) (d : Char) (y : FT H) (c : Char)
    (p : Str) (P : Pattern) (m : Str) (h : H) (o : Pattern) (hdc : d ≠ c) :
    ftAdd (t.withChild d y) (c :: p) P m h o =
      (ftAdd t (c :: p) P m h o).map (fun x => x.withChild d y) := by
  have hch : (t.withChild d y).children c = t.children c := by
    simp only [children_withChild]
    rw [if_neg (fun hx => hdc hx.symm)]
  cases hc : t.children c with
  | some child =>
    rw [ftAdd_cons_some t child c p P m h o hc,
      ftAdd_cons_some (t.withChild d y) child c p P m h o (hch.trans hc)]
    cases ftAdd child p P m h o with
    | none => rfl
    | some z => simp only [Option.map_some', cc_ne t d c y z hdc]
  | none =>
    rw [ftAdd_cons_none t c p P m h o hc,
      ftAdd_cons_none (t.withChild d y) c p P m h o (hch.trans hc)]
    cases ftArr ftFresh P m h o with
    | none => rfl
    | some i =>
      simp only [Option.map_some', mark_withChild,
        cc_ne (t.withIsNode true) d c y (wrapP p i) hdc]

mutual

theorem ftAdd_fresh_some {H : Type} : ∀ (p : Str) (P : Pattern) (m : Str) (h : H)
    (o : Pattern), ∃ i, ftAdd (ftFresh : FT H) p P m h o = some i
  | [], P, m, h, o => by
    rw [ftAdd_nil_eq, show (ftFresh : FT H).withIsNode true = ftFresh from rfl]
    exact ftArr_fresh_some P m h o
  | c :: p, P, m, h, o => by
    rw [ftAdd_cons_none (ftFresh : FT H) c p P m h o rfl]
    obtain ⟨i, hi⟩ := ftArr_fresh_some (H := H) P m h o
    exact ⟨_, by rw [hi]; rfl⟩
  termination_by p P _ _ _ => (P.static.length, p.length + 1)

theorem ftArr_fresh_some {H : Type} : ∀ (P : Pattern) (m : Str) (h : H) (o : Pattern),
    ∃ i, ftArr (ftFresh : FT H) P m h o = some i
  | ⟨[], vs, ca⟩, m, h, o => by
    rw [ftArr_nil]
    exact ⟨_, rfl⟩
  | ⟨[e0], vs, false⟩, m, h, o => by
    rw [ftArr_one_false]
    exact ⟨_, rfl⟩
  | ⟨[e0], vs, true⟩, m, h, o => by
    rw [ftArr_one_true]
    exact ⟨_, rfl⟩
  | ⟨e0 :: np :: sr, vs, ca⟩, m, h, o => by
    obtain ⟨i, hi⟩ := ftAdd_fresh_some (H := H) np ⟨sr, vs, ca⟩ m h o
    refine ⟨(ftFresh : FT H).withWild (some i), ?_⟩
    rw [ftArr_cons, show ((ftFresh : FT H).wild.getD ftFresh) = ftFresh from rfl, hi]
  termination_by P _ _ _ => (P.static.length, 0)

end

theorem comm_updH_addcons (t : FT H) (m : Str) (h : H) (o : Pattern) (c : Char) (p : Str)
    (P : Pattern) (m2 : Str) (h2 : H) (o2 : Pattern) :
    (updH t m h o).bind (fun x => ftAdd x (c :: p) P m2 h2 o2) =
    (ftAdd t (c :: p) P m2 h2 o2).bind (fun x => updH x m h o) := by
  simp only [updH]
  cases hs : ftSetH t.handlers m h o with
  | none =>
    cases ha : ftAdd t (c :: p) P m2 h2 o2 with
    | none => simp [hs, ha]
    | some x => simp [hs, ha, (ftAdd_cons_keeps t c p P m2 h2 o2 x ha).1]
  | some f =>
    rw [Option.map_some', Option.some_bind, ftAdd_cons_withHandlers]
    cases ha : ftAdd t (c :: p) P m2 h2 o2 with
    | none => simp [ha]
    | some x =>
      simp only [ha, Option.map_some', Option.some_bind]
      rw [(ftAdd_cons_keeps t c p P m2 h2 o2 x ha).1, hs]
      rfl

theorem comm_updW_addcons (t : FT H) (g : FT H → Option (FT H)) (c : Char) (p : Str)
    (P : Pattern) (m2 : Str) (h2 : H) (o2 : Pattern) :
    (updW t g).bind (fun x => ftAdd x (c :: p) P m2 h2 o2) =
    (ftAdd t (c :: p) P m2 h2 o2).bind (fun x => updW x g) := by
  simp only [updW]
  cases hg : g (t.wild.getD ftFresh) with
  | none =>
    cases ha : ftAdd t (c :: p) P m2 h2 o2 with
    | none => simp [hg, ha]
    | some x => simp [hg, ha, (ftAdd_cons_keeps t c p P m2 h2 o2 x ha).2.1]
  | some w1 =>
    rw [Option.map_some', Option.some_bind, ftAdd_cons_withWild]
    cases ha : ftAdd t (c :: p) P m2 h2 o2 with
    | none => simp [ha]
    | some x =>
      simp only [ha, Option.map_some', Option.some_bind]
      rw [(ftAdd_cons_keeps t c p P m2 h2 o2 x ha).2.1, hg]
      rfl

theorem comm_updC_addcons (t : FT H) (g : FT H → Option (FT H)) (c : Char) (p : Str)
    (P : Pattern) (m2 : Str) (h2 : H) (o2 : Pattern) :
    (updC t g).bind (fun x => ftAdd x (c :: p) P m2 h2 o2) =
    (ftAdd t (c :: p) P m2 h2 o2).bind (fun x => updC x g) := by
  simp only [updC]
  cases hg : g (t.catchAll.getD ftFresh) with
  | none =>
    cases ha : ftAdd t (c :: p) P m2 h2 o2 with
    | none => simp [hg, ha]
    | some x => simp [hg, ha, (ftAdd_cons_keeps t c p P m2 h2 o2 x ha).2.2]
  | some w1 =>
    rw [Option.map_some', Option.some_bind, ftAdd_cons_withCatchAll]
    cases ha : ftAdd t (c :: p) P m2 h2 o2 with
    | none => simp [ha]
    | some x =>
      simp only [ha, Option.map_some', Option.some_bind]
      rw [(ftAdd_cons_keeps t c p P m2 h2 o2 x ha).2.2, hg]
      rfl

theorem comm_arr_add (t : FT H) (P1 : Pattern) (m1 : Str) (h1 : H) (o1 : Pattern)
    (c : Char) (p2 : Str) (P2 : Pattern) (m2 : Str) (h2 : H) (o2 : Pattern) :
    (ftArr t P1 m1 h1 o1).bind (fun x => ftAdd x (c :: p2) P2 m2 h2 o2) =
    (ftAdd t (c :: p2) P2 m2 h2 o2).bind (fun x => ftArr x P1 m1 h1 o1) := by
  rcases P1 with ⟨pst, vs, ca⟩
  rcases pst with _ | ⟨e0, sr⟩
  · simp only [ftArr_nil_upd]
    exact comm_updH_addcons t m1 h1 o1 c p2 P2 m2 h2 o2
  · rcases sr with _ | ⟨np, sr2⟩
    · cases ca
      · simp only [ftArr_one_false_upd]
        exact comm_updW_addcons t (fun w => updH w m1 h1 o1) c p2 P2 m2 h2 o2
      · simp only [ftArr_one_true_upd]
        exact comm_updC_addcons t (fun w => updH w m1 h1 o1) c p2 P2 m2 h2 o2
    · simp only [ftArr_cons_upd]
      exact comm_updW_addcons t (fun w => ftAdd w np ⟨sr2, vs, ca⟩ m1 h1 o1) c p2 P2 m2 h2 o2

theorem updH_mark (t : FT H) (b : Bool) (m : Str) (h : H) (o : Pattern) :
    updH (t.withIsNode b) m h o = (updH t m h o).map (fun x => x.withIsNode b) := by
  simp only [updH, handlers_withIsNode]
  cases ftSetH t.handlers m h o with
  | none => rfl
  | some f => simp only [Option.map_some', mark_withHandlers]

mutual

/-- Two uncompressed insertions commute, including their failure
behaviour. -/
theorem comm_add_add {H : Type} : ∀ (t : FT H) (p1 : Str) (P1 : Pattern) (m1 : Str)
    (h1 : H) (o1 : Pattern) (p2 : Str) (P2 : Pattern) (m2 : Str) (h2 : H) (o2 : Pattern),
    (ftAdd t p1 P1 m1 h1 o1).bind (fun x => ftAdd x p2 P2 m2 h2 o2) =
    (ftAdd t p2 P2 m2 h2 o2).bind (fun x => ftAdd x p1 P1 m1 h1 o1)
  | t, [], P1, m1, h1, o1, [], P2, m2, h2, o2 => by
    rw [ftAdd_nil_eq]
    simp only [ftAdd_nil_eq]
    have e1 : (ftArr (t.withIsNode true) P1 m1 h1 o1).bind
        (fun x => ftArr (x.withIsNode true) P2 m2 h2 o2) =
        (ftArr (t.withIsNode true) P1 m1 h1 o1).bind (fun x => ftArr x P2 m2 h2 o2) := by
      refine obind_congr _ _ _ ?_
      intro a ha
      rw [mark_of_true a ((ftArr_isNode (t.withIsNode true) P1 m1 h1 o1 a ha).trans (by simp))]
    have e2 : (ftArr (t.withIsNode true) P2 m2 h2 o2).bind
        (fun x => ftArr (x.withIsNode true) P1 m1 h1 o1) =
        (ftArr (t.withIsNode true) P2 m2 h2 o2).bind (fun x => ftArr x P1 m1 h1 o1) := by
      refine obind_congr _ _ _ ?_
      intro a ha
      rw [mark_of_true a ((ftArr_isNode (t.withIsNode true) P2 m2 h2 o2 a ha).trans (by simp))]
    rw [e1, e2]
    exact comm_arr_arr (t.withIsNode true) P1 m1 h1 o1 P2 m2 h2 o2
  | t, [], P1, m1, h1, o1, c2 :: p2, P2, m2, h2, o2 => by
    rw [ftAdd_nil_eq]
    simp only [ftAdd_nil_eq]
    rw [comm_arr_add (t.withIsNode true) P1 m1 h1 o1 c2 p2 P2 m2 h2 o2,
      ftAdd_cons_mark t c2 p2 P2 m2 h2 o2, bindMap]
  | t, c1 :: p1, P1, m1, h1, o1, [], P2, m2, h2, o2 => by
    rw [ftAdd_nil_eq]
    simp only [ftAdd_nil_eq]
    rw [comm_arr_add (t.withIsNode true) P2 m2 h2 o2 c1 p1 P1 m1 h1 o1,
      ftAdd_cons_mark t c1 p1 P1 m1 h1 o1, bindMap]
  | t, c1 :: p1, P1, m1, h1, o1, c2 :: p2, P2, m2, h2, o2 => by
    by_cases hc : c1 = c2
    · subst hc
      cases hch : t.children c1 with
      | some child =>
        rw [ftAdd_cons_some t child c1 p1 P1 m1 h1 o1 hch,
          ftAdd_cons_some t child c1 p2 P2 m2 h2 o2 hch, bindMap, bindMap]
        have hstep : ∀ (pa : Str) (Pa : Pattern) (ma : Str) (ha : H) (oa : Pattern)
            (a : FT H), ftAdd (t.withChild c1 a) (c1 :: pa) Pa ma ha oa =
              (ftAdd a pa Pa ma ha oa).map (fun z => t.withChild c1 z) := by
          intro pa Pa ma ha oa a
          rw [ftAdd_cons_some (t.withChild c1 a) a c1 pa Pa ma ha oa (by simp)]
          cases ftAdd a pa Pa ma ha oa with
          | none => rfl
          | some z => simp only [Option.map_some', cc_same]
        simp only [hstep]
        rw [← mapBind, ← mapBind]
        rw [comm_add_add child p1 P1 m1 h1 o1 p2 P2 m2 h2 o2]
      | none =>
        obtain ⟨i1, hi1⟩ := ftArr_fresh_some (H := H) P1 m1 h1 o1
        obtain ⟨i2, hi2⟩ := ftArr_fresh_some (H := H) P2 m2 h2 o2
        rw [ftAdd_cons_none t c1 p1 P1 m1 h1 o1 hch, hi1,
          ftAdd_cons_none t c1 p2 P2 m2 h2 o2 hch, hi2]
        simp only [Option.map_some', Option.some_bind]
        rw [ftAdd_cons_some _ (wrapP p1 i1) c1 p2 P2 m2 h2 o2 (by simp),
          ftAdd_cons_some _ (wrapP p2 i2) c1 p1 P1 m1 h1 o1 (by simp)]
        rw [comm_wrap p1 p2 P1 m1 h1 o1 P2 m2 h2 o2 i1 i2 hi1 hi2]
        cases ftAdd (wrapP p2 i2) p1 P1 m1 h1 o1 with
        | none => rfl
        | some z => simp only [Option.map_some', cc_same]
    · have hc21 : ¬ c2 = c1 := fun hx => hc hx.symm
      cases h1c : t.children c1 with
      | none =>
        cases h2c : t.children c2 with
        | none =>
          obtain ⟨i1, hi1⟩ := ftArr_fresh_some (H := H) P1 m1 h1 o1
          obtain ⟨i2, hi2⟩ := ftArr_fresh_some (H := H) P2 m2 h2 o2
          rw [ftAdd_cons_none t c1 p1 P1 m1 h1 o1 h1c, hi1,
            ftAdd_cons_none t c2 p2 P2 m2 h2 o2 h2c, hi2]
          simp only [Option.map_some', Option.some_bind]
          have hl : ((t.withIsNode true).withChild c1 (wrapP p1 i1)).children c2 = none := by
            simp only [children_withChild, children_withIsNode]
            rw [if_neg hc21, h2c]
          have hr : ((t.withIsNode true).withChild c2 (wrapP p2 i2)).children c1 = none := by
            simp only [children_withChild, children_withIsNode]
            rw [if_neg hc, h1c]
          rw [ftAdd_cons_none _ c2 p2 P2 m2 h2 o2 hl, hi2,
            ftAdd_cons_none _ c1 p1 P1 m1 h1 o1 hr, hi1]
          simp only [Option.map_some']
          congr 1
          rw [mark_withChild, mark_mark, mark_withChild, mark_mark]
          exact cc_ne (t.withIsNode true) c1 c2 (wrapP p1 i1) (wrapP p2 i2) hc
        | some child2 =>
          obtain ⟨i1, hi1⟩ := ftArr_fresh_some (H := H) P1 m1 h1 o1
          rw [ftAdd_cons_none t c1 p1 P1 m1 h1 o1 h1c, hi1,
            ftAdd_cons_some t child2 c2 p2 P2 m2 h2 o2 h2c, bindMap]
          simp only [Option.map_some', Option.some_bind]
          have hl : ((t.withIsNode true).withChild c1 (wrapP p1 i1)).children c2 =
              some child2 := by
            simp only [children_withChild, children_withIsNode]
            rw [if_neg hc21, h2c]
          rw [ftAdd_cons_some _ child2 c2 p2 P2 m2 h2 o2 hl]
          cases hA2 : ftAdd child2 p2 P2 m2 h2 o2 with
          | none => rfl
          | some b =>
            simp only [Option.map_some', Option.some_bind]
            have hrb : (t.withChild c2 b).children c1 = none := by
              simp only [children_withChild]
              rw [if_neg hc, h1c]
            rw [ftAdd_cons_none _ c1 p1 P1 m1 h1 o1 hrb, hi1]
            simp only [Option.map_some']
            congr 1
            rw [mark_withChild]
            exact cc_ne (t.withIsNode true) c1 c2 (wrapP p1 i1) b hc
      | some child1 =>
        cases h2c : t.children c2 with
        | none =>
          obtain ⟨i2, hi2⟩ := ftArr_fresh_some (H := H) P2 m2 h2 o2
          rw [ftAdd_cons_some t child1 c1 p1 P1 m1 h1 o1 h1c, bindMap,
            ftAdd_cons_none t c2 p2 P2 m2 h2 o2 h2c, hi2]
          simp only [Option.map_some', Option.some_bind]
          have hr : ((t.withIsNode true).withChild c2 (wrapP p2 i2)).children c1 =
              some child1 := by
            simp only [children_withChild, children_withIsNode]
            rw [if_neg hc, h1c]
          rw [ftAdd_cons_some _ child1 c1 p1 P1 m1 h1 o1 hr]
          cases hA1 : ftAdd child1 p1 P1 m1 h1 o1 with
          | none => rfl
          | some a =>
            simp only [Option.map_some', Option.some_bind]
            have hlb : (t.withChild c1 a).children c2 = none := by
              simp only [children_withChild]
              rw [if_neg hc21, h2c]
            rw [ftAdd_cons_none _ c2 p2 P2 m2 h2 o2 hlb, hi2]
            simp only [Option.map_some']
            congr 1
            rw [mark_withChild]
            exact cc_ne (t.withIsNode true) c1 c2 a (wrapP p2 i2) hc
        | some child2 =>
          rw [ftAdd_cons_some t child1 c1 p1 P1 m1 h1 o1 h1c, bindMap,
            ftAdd_cons_some t child2 c2 p2 P2 m2 h2 o2 h2c, bindMap]
          have hstepL : ∀ (a : FT H), ftAdd (t.withChild c1 a) (c2 :: p2) P2 m2 h2 o2 =
              (ftAdd child2 p2 P2 m2 h2 o2).map (fun b => (t.withChild c1 a).withChild c2 b) := by
            intro a
            refine ftAdd_cons_some (t.withChild c1 a) child2 c2 p2 P2 m2 h2 o2 ?_
            simp only [children_withChild]
            rw [if_neg hc21, h2c]
          have hstepR : ∀ (b : FT H), ftAdd (t.withChild c2 b) (c1 :: p1) P1 m1 h1 o1 =
              (ftAdd child1 p1 P1 m1 h1 o1).map (fun a => (t.withChild c2 b).withChild c1 a) := by
            intro b
            refine ftAdd_cons_some (t.withChild c2 b) child1 c1 p1 P1 m1 h1 o1 ?_
            simp only [children_withChild]
            rw [if_neg hc, h1c]
          simp only [hstepL, hstepR]
          cases hA1 : ftAdd child1 p1 P1 m1 h1 o1 with
          | none =>
            cases hA2 : ftAdd child2 p2 P2 m2 h2 o2 with
            | none => rfl
            | some b => simp only [Option.some_bind, Option.none_bind, hA1, Option.map_none']
          | some a =>
            cases hA2 : ftAdd child2 p2 P2 m2 h2 o2 with
            | none => simp only [Option.some_bind, Option.none_bind, hA2, Option.map_none']
            | some b =>
              simp only [Option.some_bind, hA1, hA2, Option.map_some']
              congr 1
              exact cc_ne t c1 c2 a b hc
  termination_by t p1 P1 _ _ _ p2 P2 _ _ _ =>
    (P1.static.length + P2.static.length, p1.length + p2.length, 2)

/-- Inserting the second registration into the first one's freshly
grafted chain equals inserting the first into the second's chain. -/
theorem comm_wrap {H : Type} : ∀ (p1 p2 : Str) (P1 : Pattern) (m1 : Str) (h1 : H)
    (o1 : Pattern) (P2 : Pattern) (m2 : Str) (h2 : H) (o2 : Pattern) (i1 i2 : FT H),
    ftArr ftFresh P1 m1 h1 o1 = some i1 → ftArr ftFresh P2 m2 h2 o2 = some i2 →
    ftAdd (wrapP p1 i1) p2 P2 m2 h2 o2 = ftAdd (wrapP p2 i2) p1 P1 m1 h1 o1
  | [], [], P1, m1, h1, o1, P2, m2, h2, o2, i1, i2, hi1, hi2 => by
    rw [show wrapP ([] : Str) i1 = i1 from rfl, show wrapP ([] : Str) i2 = i2 from rfl,
      ftAdd_nil_eq, ftAdd_nil_eq,
      mark_of_true i1 ((ftArr_isNode ftFresh P1 m1 h1 o1 i1 hi1).trans rfl),
      mark_of_true i2 ((ftArr_isNode ftFresh P2 m2 h2 o2 i2 hi2).trans rfl)]
    have key := comm_arr_arr (ftFresh : FT H) P1 m1 h1 o1 P2 m2 h2 o2
    rw [hi1, hi2] at key
    simp only [Option.some_bind] at key
    exact key
  | [], c :: p2', P1, m1, h1, o1, P2, m2, h2, o2, i1, i2, hi1, hi2 => by
    have hch : i1.children c = none := by
      rw [ftArr_children ftFresh P1 m1 h1 o1 i1 hi1]
      rfl
    rw [show wrapP ([] : Str) i1 = i1 from rfl,
      ftAdd_cons_none i1 c p2' P2 m2 h2 o2 hch, hi2]
    simp only [Option.map_some']
    rw [mark_of_true i1 ((ftArr_isNode ftFresh P1 m1 h1 o1 i1 hi1).trans rfl)]
    rw [ftAdd_nil_eq]
    have hwrap : (wrapP (c :: p2') i2).withIsNode true =
        (ftFresh : FT H).withChild c (wrapP p2' i2) := by
      refine FT.ext2 _ _ rfl ?_ rfl rfl rfl
      rw [children_withIsNode, children_withChild]
      funext z
      simp only [wrapP, FT.children]
      by_cases hz : z = c
      · rw [if_pos hz.symm, if_pos hz]
      · rw [if_neg (fun hx => hz hx.symm), if_neg hz]
        rfl
    rw [hwrap, ftArr_withChild, hi1]
    rfl
  | c :: p1', [], P1, m1, h1, o1, P2, m2, h2, o2, i1, i2, hi1, hi2 => by
    have hch : i2.children c = none := by
      rw [ftArr_children ftFresh P2 m2 h2 o2 i2 hi2]
      rfl
    rw [show wrapP ([] : Str) i2 = i2 from rfl,
      ftAdd_cons_none i2 c p1' P1 m1 h1 o1 hch, hi1]
    simp only [Option.map_some']
    rw [mark_of_true i2 ((ftArr_isNode ftFresh P2 m2 h2 o2 i2 hi2).trans rfl)]
    rw [ftAdd_nil_eq]
    have hwrap : (wrapP (c :: p1') i1).withIsNode true =
        (ftFresh : FT H).withChild c (wrapP p1' i1) := by
      refine FT.ext2 _ _ rfl ?_ rfl rfl rfl
      rw [children_withIsNode, children_withChild]
      funext z
      simp only [wrapP, FT.children]
      by_cases hz : z = c
      · rw [if_pos hz.symm, if_pos hz]
      · rw [if_neg (fun hx => hz hx.symm), if_neg hz]
        rfl
    rw [hwrap, ftArr_withChild, hi2]
    rfl
  | c1 :: p1', c2 :: p2', P1, m1, h1, o1, P2, m2, h2, o2, i1, i2, hi1, hi2 => by
    by_cases hc : c1 = c2
    · subst hc
      have hch1 : (wrapP (c1 :: p1') i1).children c1 = some (wrapP p1' i1) := by
        simp only [wrapP, FT.children]
        rw [if_true]
      have hch2 : (wrapP (c1 :: p2') i2).children c1 = some (wrapP p2' i2) := by
        simp only [wrapP, FT.children]
        rw [if_true]
      rw [ftAdd_cons_some (wrapP (c1 :: p1') i1) (wrapP p1' i1) c1 p2' P2 m2 h2 o2 hch1,
        ftAdd_cons_some (wrapP (c1 :: p2') i2) (wrapP p2' i2) c1 p1' P1 m1 h1 o1 hch2]
      rw [comm_wrap p1' p2' P1 m1 h1 o1 P2 m2 h2 o2 i1 i2 hi1 hi2]
      cases ftAdd (wrapP p2' i2) p1' P1 m1 h1 o1 with
      | none => rfl
      | some z => simp only [Option.map_some', wrap_withChild]
    · have hch1 : (wrapP (c1 :: p1') i1).children c2 = none := by
        simp only [wrapP, FT.children]
        rw [if_neg hc]
      have hch2 : (wrapP (c2 :: p2') i2).children c1 = none := by
        simp only [wrapP, FT.children]
        rw [if_neg (fun hx => hc hx.symm)]
      rw [ftAdd_cons_none _ c2 p2' P2 m2 h2 o2 hch1, hi2,
        ftAdd_cons_none _ c1 p1' P1 m1 h1 o1 hch2, hi1]
      simp only [Option.map_some']
      congr 1
      refine FT.ext2 _ _ rfl ?_ rfl rfl rfl
      simp only [children_withChild, children_withIsNode]
      funext z
      simp only [wrapP, FT.children]
      by_cases hz2 : z = c2
      · rw [if_pos hz2, if_neg (fun hx : z = c1 => hc (hx.symm.trans hz2)),
          if_pos hz2.symm]
      · rw [if_neg hz2]
        by_cases hz1 : z = c1
        · rw [if_pos hz1.symm, if_pos hz1]
        · rw [if_neg (fun hx : c1 = z => hz1 hx.symm), if_neg hz1,
            if_neg (fun hx : c2 = z => hz2 hx.symm)]
  termination_by p1 p2 P1 _ _ _ P2 _ _ _ _ _ _ _ =>
    (P1.static.length + P2.static.length, p1.length + p2.length, 1)

/-- Two arrival steps at the same node commute. -/
theorem comm_arr_arr {H : Type} : ∀ (t : FT H) (P1 : Pattern) (m1 : Str) (h1 : H)
    (o1 : Pattern) (P2 : Pattern) (m2 : Str) (h2 : H) (o2 : Pattern),
    (ftArr t P1 m1 h1 o1).bind (fun x => ftArr x P2 m2 h2 o2) =
    (ftArr t P2 m2 h2 o2).bind (fun x => ftArr x P1 m1 h1 o1)
  | t, ⟨ps1, vs1, ca1⟩, m1, h1, o1, ⟨ps2, vs2, ca2⟩, m2, h2, o2 => by
    rcases ps1 with _ | ⟨e1, sr1⟩
    · simp only [ftArr_nil_upd]
      rcases ps2 with _ | ⟨e2, sr2⟩
      · simp only [ftArr_nil_upd]
        exact updH_updH_comm t m1 h1 o1 m2 h2 o2
      · rcases sr2 with _ | ⟨np2, sr2'⟩
        · cases ca2
          · simp only [ftArr_one_false_upd]
            exact updH_updW_comm t m1 h1 o1 _
          · simp only [ftArr_one_true_upd]
            exact updH_updC_comm t m1 h1 o1 _
        · simp only [ftArr_cons_upd]
          exact updH_updW_comm t m1 h1 o1 _
    · rcases sr1 with _ | ⟨np1, sr1'⟩
      · cases ca1
        · simp only [ftArr_one_false_upd]
          rcases ps2 with _ | ⟨e2, sr2⟩
          · simp only [ftArr_nil_upd]
            exact (updH_updW_comm t m2 h2 o2 _).symm
          · rcases sr2 with _ | ⟨np2, sr2'⟩
            · cases ca2
              · simp only [ftArr_one_false_upd]
                rw [updW_seq, updW_seq]
                refine congrArg (updW t) ?_
                funext w
                exact updH_updH_comm w m1 h1 o1 m2 h2 o2
              · simp only [ftArr_one_true_upd]
                exact updW_updC_comm t _ _
            · simp only [ftArr_cons_upd]
              rw [updW_seq, updW_seq]
              refine congrArg (updW t) ?_
              funext w
              rcases np2 with _ | ⟨c, np2'⟩
              · simp only [ftAdd_nil_eq, ftArr_withIsNode]
                rw [bindMap]
                simp only [updH_mark]
                rw [← mapBind, ← mapBind]
                congr 1
                rw [show updH w m1 h1 o1 = ftArr w ⟨[], vs1, false⟩ m1 h1 o1 from
                  (ftArr_nil_upd w vs1 false m1 h1 o1).symm]
                rw [comm_arr_arr w ⟨[], vs1, false⟩ m1 h1 o1 ⟨sr2', vs2, ca2⟩ m2 h2 o2]
                refine obind_congr _ _ _ ?_
                intro a ha
                exact ftArr_nil_upd a vs1 false m1 h1 o1
              · exact comm_updH_addcons w m1 h1 o1 c np2' ⟨sr2', vs2, ca2⟩ m2 h2 o2
        · simp only [ftArr_one_true_upd]
          rcases ps2 with _ | ⟨e2, sr2⟩
          · simp only [ftArr_nil_upd]
            exact (updH_updC_comm t m2 h2 o2 _).symm
          · rcases sr2 with _ | ⟨np2, sr2'⟩
            · cases ca2
              · simp only [ftArr_one_false_upd]
                exact (updW_updC_comm t _ _).symm
              · simp only [ftArr_one_true_upd]
                rw [updC_seq, updC_seq]
                refine congrArg (updC t) ?_
                funext w
                exact updH_updH_comm w m1 h1 o1 m2 h2 o2
            · simp only [ftArr_cons_upd]
              exact (updW_updC_comm t _ _).symm
      · simp only [ftArr_cons_upd]
        rcases ps2 with _ | ⟨e2, sr2⟩
        · simp only [ftArr_nil_upd]
          exact (updH_updW_comm t m2 h2 o2 _).symm
        · rcases sr2 with _ | ⟨np2, sr2'⟩
          · cases ca2
            · simp only [ftArr_one_false_upd]
              rw [updW_seq, updW_seq]
              refine congrArg (updW t) ?_
              funext w
              rcases np1 with _ | ⟨c, np1'⟩
              · simp only [ftAdd_nil_eq, ftArr_withIsNode]
                rw [bindMap]
                simp only [updH_mark]
                rw [← mapBind, ← mapBind]
                congr 1
                rw [show updH w m2 h2 o2 = ftArr w ⟨[], vs2, false⟩ m2 h2 o2 from
                  (ftArr_nil_upd w vs2 false m2 h2 o2).symm]
                rw [comm_arr_arr w ⟨[], vs2, false⟩ m2 h2 o2 ⟨sr1', vs1, ca1⟩ m1 h1 o1]
                refine obind_congr _ _ _ ?_
                intro a ha
                exact (ftArr_nil_upd a vs2 false m2 h2 o2).symm
              · exact (comm_updH_addcons w m2 h2 o2 c np1' ⟨sr1', vs1, ca1⟩ m1 h1 o1).symm
            · simp only [ftArr_one_true_upd]
              exact updW_updC_comm t _ _
          · simp only [ftArr_cons_upd]
            rw [updW_seq, updW_seq]
            refine congrArg (updW t) ?_
            funext w
            exact comm_add_add w np1 ⟨sr1', vs1, ca1⟩ m1 h1 o1 np2 ⟨sr2', vs2, ca2⟩ m2 h2 o2
  termination_by t P1 _ _ _ P2 _ _ _ =>
    (P1.static.length + P2.static.length, 0, 0)

end

/-- One (pattern, method, handler) registration. -/
structure Reg (H : Type) where
  pattern : Pattern
  method : Str
  handler : H

/-- Registers a list of routes in order (Router.Handle called once per
registration); None where any call panics with a duplicate route. -/
def buildGo : Node H → List (Reg H) → Option (Node H)
  | t, [] => some t
  | t, r :: rs =>
    match addRoute t r.pattern r.method r.handler with
    | none => none
    | some t2 => buildGo t2 rs

/-- Builds a router from scratch: the tree starts as the root node with
path "/" (New's n.addRoute on the fresh node). -/
def buildAll (rs : List (Reg H)) : Option (Node H) :=
  buildGo (Node.mk ['/'] [] none none []) rs

/-- addRoute on the uncompressed view. -/
def ftAddRoute (t : FT H) (pat : Pattern) (m : Str) (h : H) : Option (FT H) :=
  match pat.static with
  | [] => none
  | pfx :: rest => ftAdd t pfx ⟨rest, pat.vars, pat.catchAll⟩ m h pat

def ftBuildGo : FT H → List (Reg H) → Option (FT H)
  | t, [] => some t
  | t, r :: rs =>
    match ftAddRoute t r.pattern r.method r.handler with
    | none => none
    | some t2 => ftBuildGo t2 rs

theorem ftBuildGo_cons (t : FT H) (r : Reg H) (rs : List (Reg H)) :
    ftBuildGo t (r :: rs) =
      (ftAddRoute t r.pattern r.method r.handler).bind (fun t2 => ftBuildGo t2 rs) := by
  simp only [ftBuildGo]
  cases ftAddRoute t r.pattern r.method r.handler <;> rfl

theorem flatten_addRoute (n : Node H) (pat : Pattern) (m : Str) (h : H)
    (hok : NodeOK n) :
    Option.map flatten (addRoute n pat m h) = ftAddRoute (flatten n) pat m h := by
  rcases pat with ⟨pst, vs, ca⟩
  rcases pst with _ | ⟨pfx, rest⟩
  · rfl
  · simp only [addRoute, ftAddRoute]
    exact flatten_insert (insWeight pfx ⟨rest, vs, ca⟩ + 1) n pfx ⟨rest, vs, ca⟩ m h
      ⟨pfx :: rest, vs, ca⟩ hok (by omega)

theorem nodeOK_addRoute (n : Node H) (pat : Pattern) (m : Str) (h : H) (n2 : Node H)
    (hok : NodeOK n) (hadd : addRoute n pat m h = some n2) : NodeOK n2 := by
  rcases pat with ⟨pst, vs, ca⟩
  rcases pst with _ | ⟨pfx, rest⟩
  · exact Option.noConfusion hadd
  · exact (nodeOK_addSP (insWeight pfx ⟨rest, vs, ca⟩ + 1) n pfx ⟨rest, vs, ca⟩ m h
      ⟨pfx :: rest, vs, ca⟩ n2 hok hadd).1

theorem nodeOK_buildGo : ∀ (rs : List (Reg H)) (n n2 : Node H), NodeOK n →
    buildGo n rs = some n2 → NodeOK n2
  | [], n, n2, hok, hb => by
    rw [← Option.some.inj hb]
    exact hok
  | r :: rs, n, n2, hok, hb => by
    simp only [buildGo] at hb
    cases ha : addRoute n r.pattern r.method r.handler with
    | none =>
      rw [ha] at hb
      exact Option.noConfusion hb
    | some t2 =>
      rw [ha] at hb
      exact nodeOK_buildGo rs t2 n2 (nodeOK_addRoute n r.pattern r.method r.handler t2 hok ha) hb

theorem flatten_buildGo : ∀ (rs : List (Reg H)) (n : Node H), NodeOK n →
    Option.map flatten (buildGo n rs) = ftBuildGo (flatten n) rs
  | [], n, _ => rfl
  | r :: rs, n, hok => by
    simp only [buildGo, ftBuildGo]
    have hstep := flatten_addRoute n r.pattern r.method r.handler hok
    cases ha : addRoute n r.pattern r.method r.handler with
    | none =>
      rw [ha] at hstep
      rw [← hstep]
      rfl
    | some t2 =>
      rw [ha] at hstep
      rw [← hstep]
      exact flatten_buildGo rs t2 (nodeOK_addRoute n r.pattern r.method r.handler t2 hok ha)

theorem comm_addRoute (t : FT H) (a b : Reg H) :
    (ftAddRoute t a.pattern a.method a.handler).bind
      (fun x => ftAddRoute x b.pattern b.method b.handler) =
    (ftAddRoute t b.pattern b.method b.handler).bind
      (fun x => ftAddRoute x a.pattern a.method a.handler) := by
  rcases ha : a.pattern.static with _ | ⟨pfa, ra⟩
  · simp only [ftAddRoute, ha]
    rcases hb : b.pattern.static with _ | ⟨pfb, rb⟩
    · rfl
    · show (none : Option (FT H)).bind
          (fun x => ftAdd x pfb ⟨rb, b.pattern.vars, b.pattern.catchAll⟩ b.method
            b.handler b.pattern) =
        (ftAdd t pfb ⟨rb, b.pattern.vars, b.pattern.catchAll⟩ b.method b.handler
          b.pattern).bind (fun x => none)
      cases ftAdd t pfb ⟨rb, b.pattern.vars, b.pattern.catchAll⟩ b.method b.handler
        b.pattern <;> rfl
  · rcases hb : b.pattern.static with _ | ⟨pfb, rb⟩
    · simp only [ftAddRoute, ha, hb]
      show (ftAdd t pfa ⟨ra, a.pattern.vars, a.pattern.catchAll⟩ a.method a.handler
          a.pattern).bind (fun x => none) =
        (none : Option (FT H)).bind
          (fun x => ftAdd x pfa ⟨ra, a.pattern.vars, a.pattern.catchAll⟩ a.method
            a.handler a.pattern)
      cases ftAdd t pfa ⟨ra, a.pattern.vars, a.pattern.catchAll⟩ a.method a.handler
        a.pattern <;> rfl
    · simp only [ftAddRoute, ha, hb]
      exact comm_add_add t pfa ⟨ra, a.pattern.vars, a.pattern.catchAll⟩ a.method a.handler
        a.pattern pfb ⟨rb, b.pattern.vars, b.pattern.catchAll⟩ b.method b.handler b.pattern

theorem ftBuildGo_swap (t : FT H) (a b : Reg H) (rs : List (Reg H)) :
    ftBuildGo t (a :: b :: rs) = ftBuildGo t (b :: a :: rs) := by
  rw [ftBuildGo_cons, ftBuildGo_cons]
  have e1 : ∀ (x : FT H), ftBuildGo x (b :: rs) =
      (ftAddRoute x b.pattern b.method b.handler).bind (fun y => ftBuildGo y rs) :=
    fun x => ftBuildGo_cons x b rs
  have e2 : ∀ (x : FT H), ftBuildGo x (a :: rs) =
      (ftAddRoute x a.pattern a.method a.handler).bind (fun y => ftBuildGo y rs) :=
    fun x => ftBuildGo_cons x a rs
  simp only [e1, e2]
  rw [← Option.bind_assoc, ← Option.bind_assoc, comm_addRoute t a b]

theorem ftBuildGo_perm {rs1 rs2 : List (Reg H)} (hp : rs1.Perm rs2) :
    ∀ t : FT H, ftBuildGo t rs1 = ftBuildGo t rs2 := by
  induction hp with
  | nil => intro t; rfl
  | cons x _ ih =>
    intro t
    rw [ftBuildGo_cons, ftBuildGo_cons]
    exact obind_congr _ _ _ (fun a _ => ih a)
  | swap x y l =>
    intro t
    exact ftBuildGo_swap t y x l
  | trans _ _ ih1 ih2 =>
    intro t
    exact (ih1 t).trans (ih2 t)

/-- C4: for every fixed finite set of (method, pattern, handler)
registrations that does not trigger a duplicate-route failure, and for
every two insertion orders of that set, the resulting trees give the
same result for every subsequent lookup of any (method, path): the
same handler and the same parameter list. -/
theorem insertion_order_independent {H : Type} (rs1 rs2 : List (Reg H))
    (t1 t2 : Node H) (hperm : rs1.Perm rs2)
    (hb1 : buildAll rs1 = some t1) (hb2 : buildAll rs2 = some t2) :
    ∀ (m p : Str), lookupResult t1 m p = lookupResult t2 m p := by
  have hok0 : NodeOK (Node.mk ['/'] [] none none ([] : List (HandlerEntry H))) :=
    nodeOK_fresh ['/']
  have h1 : buildGo (Node.mk ['/'] [] none none []) rs1 = some t1 := hb1
  have h2 : buildGo (Node.mk ['/'] [] none none []) rs2 = some t2 := hb2
  have hf1 := flatten_buildGo rs1 (Node.mk ['/'] [] none none []) hok0
  have hf2 := flatten_buildGo rs2 (Node.mk ['/'] [] none none []) hok0
  rw [h1] at hf1
  rw [h2] at hf2
  simp only [Option.map_some'] at hf1 hf2
  have hfeq : flatten t1 = flatten t2 := by
    have hperm2 := ftBuildGo_perm hperm (flatten (Node.mk ['/'] [] none none [] : Node H))
    rw [← hf1, ← hf2] at hperm2
    exact Option.some.inj hperm2
  have hok1 : NodeOK t1 := nodeOK_buildGo rs1 _ t1 hok0 h1
  have hok2 : NodeOK t2 := nodeOK_buildGo rs2 _ t2 hok0 h2
  intro m p
  rw [lookupResult_flatten t1 m p hok1, lookupResult_flatten t2 m p hok2, hfeq]

/-- C4 witness: registering /foo (GET, handler 0) and /:x (GET,
handler 1) in either order gives the same lookup result for GET /bar. -/
theorem insertion_order_independent_witness :
    ([⟨⟨[S "/foo"], [], false⟩, S "GET", (0 : Nat)⟩,
      ⟨⟨[S "/", []], [S "x"], false⟩, S "GET", 1⟩] : List (Reg Nat)).Perm
      [⟨⟨[S "/", []], [S "x"], false⟩, S "GET", 1⟩,
       ⟨⟨[S "/foo"], [], false⟩, S "GET", 0⟩] ∧
    lookupResult
        ((buildAll [⟨⟨[S "/foo"], [], false⟩, S "GET", (0 : Nat)⟩,
          ⟨⟨[S "/", []], [S "x"], false⟩, S "GET", 1⟩]).getD (Node.mk [] [] none none []))
        (S "GET") (S "/bar") =
      lookupResult
        ((buildAll [⟨⟨[S "/", []], [S "x"], false⟩, S "GET", (1 : Nat)⟩,
          ⟨⟨[S "/foo"], [], false⟩, S "GET", 0⟩]).getD (Node.mk [] [] none none []))
        (S "GET") (S "/bar") := by
  refine ⟨List.Perm.swap _ _ _, ?_⟩
  exact insertion_order_independent
    [⟨⟨[S "/foo"], [], false⟩, S "GET", (0 : Nat)⟩,
     ⟨⟨[S "/", []], [S "x"], false⟩, S "GET", 1⟩]
    [⟨⟨[S "/", []], [S "x"], false⟩, S "GET", 1⟩,
     ⟨⟨[S "/foo"], [], false⟩, S "GET", 0⟩]
    _ _ (List.Perm.swap _ _ _) rfl rfl (S "GET") (S "/bar")

end Hroute
